import Mathlib

/-!
# Verification of the EDF container codec and layout builder

A shallow embedding of the `edf` crate (an e-reader document container and
layout engine) into Lean 4, together with proofs about it.

Conventions of the embedding:

* Byte streams are `List Nat`, every element intended to lie below 256.
* Rust `u16` / `u32` / `u64` values are `Nat`s; where a narrowing `as` cast
  occurs in the source it is modelled with an explicit `% 2^w`, and where a
  value is bounded by its Rust type the bound appears as a hypothesis.
* Rust `i32` values are `Int`s; wrapping casts are modelled explicitly.
* Fallible Rust functions returning `Result` are modelled with `Except`.
* `f32` values that the codec merely transports (the adjustment ratio) are
  modelled by their 32-bit little-endian bit pattern, a `Nat` below `2^32`,
  since `f32::to_le_bytes` / `from_le_bytes` round-trip bit patterns exactly.
-/

namespace Edf

/-! ## LEB128 codec (`src/leb128.rs`)

`leb128::write::unsigned` emits 7-bit groups, least significant first, with
the high bit of a byte set iff more groups follow.  `leb128::read::unsigned`
accumulates groups and fails with `Overflow` once the shift reaches 63 and the
incoming byte holds anything other than the final bit of a 64-bit value; on
overflow it first resynchronises by skipping continuation bytes. -/

namespace leb128

/-- `CONTINUATION_BIT` from `src/leb128.rs`. -/
def continuationBit : Nat := 0x80

/-- `low_bits_of_byte`: clear the continuation bit. -/
def lowBitsOfByte (b : Nat) : Nat := b &&& 0x7f

/-- `low_bits_of_u64`: truncate to a byte, then clear the continuation bit. -/
def lowBitsOfU64 (v : Nat) : Nat := lowBitsOfByte (v &&& 0xff)

/-- Errors of `leb128::read`. The payload of `IoError` is not modelled. -/
inductive RdError where
  | ioError
  | overflow
  deriving DecidableEq, Repr

/-- The body of `leb128::write::unsigned`: one loop iteration emits the low
seven bits of `val`, with the continuation bit set iff the shifted value is
non-zero, and the loop ends once the shifted value is zero. -/
def write (v : Nat) : List Nat :=
  if h : v >>> 7 = 0 then [lowBitsOfU64 v]
  else (lowBitsOfU64 v ||| continuationBit) :: write (v >>> 7)
termination_by v
decreasing_by
  have hv : v ≠ 0 := by
    intro h0
    subst h0
    exact h rfl
  simp only [Nat.shiftRight_eq_div_pow]
  exact Nat.div_lt_self (Nat.pos_of_ne_zero hv) (by norm_num)

/-- The resynchronisation loop of `leb128::read::unsigned`: having met an
overflowing byte, keep reading while the current byte has its continuation bit
set (an exhausted stream is an I/O error), then report `Overflow`. -/
def readResync : Nat → List Nat → Except RdError (Nat × List Nat)
  | b, rest =>
    if b &&& continuationBit ≠ 0 then
      match rest with
      | [] => .error .ioError
      | b' :: rest' => readResync b' rest'
    else
      .error .overflow

/-- The main loop of `leb128::read::unsigned`, carrying the accumulated
`result` and the current `shift`.  Returns the decoded value together with the
unconsumed remainder of the stream. -/
def readAux (bytes : List Nat) (result shift : Nat) : Except RdError (Nat × List Nat) :=
  match bytes with
  | [] => .error .ioError
  | b :: rest =>
    if shift = 63 ∧ b ≠ 0x00 ∧ b ≠ 0x01 then
      readResync b rest
    else
      let result := result ||| (lowBitsOfByte b <<< shift)
      if b &&& continuationBit = 0 then
        .ok (result, rest)
      else
        readAux rest result (shift + 7)

/-- `leb128::read::unsigned`. -/
def read (bytes : List Nat) : Except RdError (Nat × List Nat) :=
  readAux bytes 0 0

/-- Bit-level identity underpinning the round-trip proof: reassembling the low
seven bits at shift `s` and the remaining bits at shift `s + 7` recovers the
whole value shifted by `s`. -/
theorem lor_split (r v s : Nat) :
    (r ||| (v &&& 0x7f) <<< s) ||| (v >>> 7) <<< (s + 7) = r ||| v <<< s := by
  apply Nat.eq_of_testBit_eq
  intro i
  simp only [Nat.testBit_or, Nat.testBit_shiftLeft, Nat.testBit_and, Nat.testBit_shiftRight]
  rcases Nat.lt_or_ge i s with hi | hi
  · simp [Nat.not_le_of_lt hi, Nat.not_le_of_lt (by omega : i < s + 7)]
  · rcases Nat.lt_or_ge i (s + 7) with hi7 | hi7
    · have h127 : (0x7f : Nat).testBit (i - s) = true := by
        have : i - s < 7 := by omega
        interval_cases h : (i - s) <;> decide
      simp [Nat.le_of_lt, hi, h127, Nat.not_le_of_lt hi7]
    · have h127 : (0x7f : Nat).testBit (i - s) = false := by
        have h7 : 7 ≤ i - s := by omega
        exact Nat.testBit_lt_two_pow (by calc (0x7f : Nat) < 2 ^ 7 := by norm_num
                                             _ ≤ 2 ^ (i - s) := Nat.pow_le_pow_right (by norm_num) h7)
      have harith : 7 + (i - (s + 7)) = i - s := by omega
      simp [hi, hi7, h127, harith]

theorem land_127_smaller (v : Nat) : (v &&& 0xff) &&& 0x7f = v &&& 0x7f := by
  rw [Nat.land_assoc]
  congr 1

theorem land_127_lt (v : Nat) : v &&& 0x7f < 128 := by
  have := Nat.and_lt_two_pow (n := 7) v (by norm_num : (0x7f : Nat) < 2 ^ 7)
  simpa using this

theorem land_127_eq_self {v : Nat} (hv : v < 128) : v &&& 0x7f = v := by
  have h7 : (0x7f : Nat) = 2 ^ 7 - 1 := by norm_num
  rw [h7, Nat.and_pow_two_sub_one_eq_mod, Nat.mod_eq_of_lt hv]

theorem lor_128_land_127 (v : Nat) : ((v &&& 0x7f) ||| 0x80) &&& 0x7f = v &&& 0x7f := by
  apply Nat.eq_of_testBit_eq
  intro i
  simp only [Nat.testBit_and, Nat.testBit_or]
  rcases Nat.lt_or_ge i 7 with hi | hi
  · have h80 : (0x80 : Nat).testBit i = false := by interval_cases i <;> decide
    simp [h80]
  · have h127 : (0x7f : Nat).testBit i = false := by
      exact Nat.testBit_lt_two_pow (by calc (0x7f : Nat) < 2 ^ 7 := by norm_num
                                           _ ≤ 2 ^ i := Nat.pow_le_pow_right (by norm_num) hi)
    simp [h127]

theorem lor_128_land_128 (v : Nat) : ((v &&& 0x7f) ||| 0x80) &&& 0x80 ≠ 0 := by
  intro h
  have h7 : (((v &&& 0x7f) ||| 0x80) &&& 0x80).testBit 7 = true := by
    simp only [Nat.testBit_and, Nat.testBit_or]
    have h80 : (0x80 : Nat).testBit 7 = true := by decide
    simp [h80]
  rw [h] at h7
  simp at h7

/-- Generalised round-trip: reading the encoding of `v` appended to `rest`,
starting from accumulator `r` and a shift `s` that is a multiple of 7 and at
most 63, yields `r ||| v <<< s` and leaves `rest`, provided `v` fits in the
remaining `64 - s` bits. -/
theorem readAux_write (v : Nat) (rest : List Nat) (r s : Nat)
    (hs : s ≤ 63) (hs7 : s % 7 = 0) (hv : v < 2 ^ (64 - s)) :
    readAux (write v ++ rest) r s = .ok (r ||| v <<< s, rest) := by
  induction v using write.induct generalizing rest r s with
  | case1 v h =>
    -- final byte: v >>> 7 = 0, so v < 128 and the byte is v itself
    have hv128 : v < 128 := by
      rw [Nat.shiftRight_eq_div_pow] at h
      norm_num at h
      omega
    rw [write]
    simp only [h, dite_true]
    have hbyte : lowBitsOfU64 v = v := by
      unfold lowBitsOfU64 lowBitsOfByte
      rw [land_127_smaller, land_127_eq_self hv128]
    rw [hbyte]
    unfold readAux
    simp only [List.cons_append]
    have hnotres : ¬(s = 63 ∧ v ≠ 0x00 ∧ v ≠ 0x01) := by
      rintro ⟨hs63, hv0, hv1⟩
      subst hs63
      have : v < 2 := by simpa using hv
      omega
    rw [if_neg hnotres]
    have hcont : v &&& continuationBit = 0 := by
      unfold continuationBit
      apply Nat.eq_of_testBit_eq
      intro i
      simp only [Nat.testBit_and, Nat.zero_testBit]
      rcases Nat.lt_or_ge i 7 with hi | hi
      · have h80 : (0x80 : Nat).testBit i = false := by interval_cases i <;> decide
        simp [h80]
      · have hvt : v.testBit i = false := by
          exact Nat.testBit_lt_two_pow (lt_of_lt_of_le hv128
            (by calc (128 : Nat) = 2 ^ 7 := by norm_num
                 _ ≤ 2 ^ i := Nat.pow_le_pow_right (by norm_num) hi))
        simp [hvt]
    rw [if_pos hcont]
    have hv7 : v &&& 0x7f = v := land_127_eq_self hv128
    simp [lowBitsOfByte, hv7]
  | case2 v h ih =>
    rw [write]
    simp only [h, dite_false]
    unfold readAux
    simp only [List.cons_append]
    have hs63 : s ≠ 63 := by
      intro hs63
      subst hs63
      have hv2 : v < 2 := by simpa using hv
      have : v >>> 7 = 0 := by
        simp only [Nat.shiftRight_eq_div_pow]
        omega
      exact h this
    have hnotres : ¬(s = 63 ∧
        (lowBitsOfU64 v ||| continuationBit) ≠ 0x00 ∧
        (lowBitsOfU64 v ||| continuationBit) ≠ 0x01) := by
      rintro ⟨hs', _, _⟩; exact hs63 hs'
    rw [if_neg hnotres]
    have hbyte : lowBitsOfU64 v = v &&& 0x7f := by
      unfold lowBitsOfU64 lowBitsOfByte
      exact land_127_smaller v
    have hcont : (lowBitsOfU64 v ||| continuationBit) &&& continuationBit ≠ 0 := by
      rw [hbyte]
      exact lor_128_land_128 v
    rw [if_neg hcont]
    have hlow : lowBitsOfByte (lowBitsOfU64 v ||| continuationBit) = v &&& 0x7f := by
      unfold lowBitsOfByte
      rw [hbyte]
      exact lor_128_land_127 v
    rw [hlow]
    have hs7' : (s + 7) % 7 = 0 := by omega
    have hsle : s + 7 ≤ 63 := by omega
    have hv' : v >>> 7 < 2 ^ (64 - (s + 7)) := by
      simp only [Nat.shiftRight_eq_div_pow]
      rw [Nat.div_lt_iff_lt_mul (by norm_num : 0 < 2 ^ 7), ← Nat.pow_add]
      have : 64 - (s + 7) + 7 = 64 - s := by omega
      rw [this]
      exact hv
    rw [ih rest (r ||| (v &&& 0x7f) <<< s) (s + 7) hsle hs7' hv']
    rw [lor_split]

/-- Round trip of the LEB128 codec on values that fit in 64 bits: reading back
an encoded value returns the value and consumes exactly its encoding. -/
theorem read_write (v : Nat) (rest : List Nat) (hv : v < 2 ^ 64) :
    read (write v ++ rest) = .ok (v, rest) := by
  unfold read
  rw [readAux_write v rest 0 0 (by norm_num) (by norm_num) (by simpa using hv)]
  simp

/-- Values below 128 encode as a single byte. -/
theorem write_small {v : Nat} (h : v < 128) : write v = [v] := by
  rw [write]
  have h7 : v >>> 7 = 0 := by
    simp only [Nat.shiftRight_eq_div_pow]
    norm_num
    omega
  simp only [h7, dite_true]
  unfold lowBitsOfU64 lowBitsOfByte
  rw [land_127_smaller, land_127_eq_self h]

/-- A successful LEB128 read only looks at the bytes it consumes: appending
further bytes to the stream does not change the result. -/
theorem readAux_append {bytes : List Nat} {r s v : Nat} {rest : List Nat}
    (h : readAux bytes r s = .ok (v, rest)) (ext : List Nat) :
    readAux (bytes ++ ext) r s = .ok (v, rest ++ ext) := by
  induction bytes generalizing r s with
  | nil => simp [readAux] at h
  | cons b tail ih =>
    unfold readAux at h ⊢
    simp only [List.cons_append]
    split at h
    · -- resynchronisation never returns `.ok`
      exfalso
      rename_i hcond
      clear hcond ih
      induction tail generalizing b with
      | nil =>
        unfold readResync at h
        split at h
        · simp at h
        · simp at h
      | cons b' tail' ih' =>
        unfold readResync at h
        split at h
        · exact ih' b' h
        · simp at h
    · rename_i hcond
      rw [if_neg hcond]
      split at h
      · rename_i hbit
        rw [if_pos hbit]
        obtain ⟨h1, h2⟩ := by simpa using h
        subst h1 h2
        rfl
      · rename_i hbit
        rw [if_neg hbit]
        exact ih h

/-- `read` is append-stable on success. -/
theorem read_append {bytes : List Nat} {v : Nat} {rest : List Nat}
    (h : read bytes = .ok (v, rest)) (ext : List Nat) :
    read (bytes ++ ext) = .ok (v, rest ++ ext) := readAux_append h ext

/-- A successful read consumes at least one byte. -/
theorem readAux_consumes {bytes : List Nat} {r s v : Nat} {rest : List Nat}
    (h : readAux bytes r s = .ok (v, rest)) : rest.length < bytes.length := by
  induction bytes generalizing r s with
  | nil => simp [readAux] at h
  | cons b tail ih =>
    unfold readAux at h
    split at h
    · exfalso
      rename_i hcond
      clear hcond ih
      induction tail generalizing b with
      | nil =>
        unfold readResync at h
        split at h
        · simp at h
        · simp at h
      | cons b' tail' ih' =>
        unfold readResync at h
        split at h
        · exact ih' b' h
        · simp at h
    · split at h
      · obtain ⟨h1, h2⟩ := by simpa using h
        subst h2
        simp
      · have := ih h
        simp
        omega

end leb128

/-! ## UTF-8 (`core::str::from_utf8` and the `UTF8_CHAR_WIDTH` table)

`read::page` uses the crate's `UTF8_CHAR_WIDTH` table to skip over whole
code points while scanning an implicit `Show` run, and `core::str::from_utf8`
to validate the scanned bytes.  `validUtf8` is the RFC 3629 byte-level
acceptor that `from_utf8` implements. -/

/-- A UTF-8 continuation byte: `0x80 ..= 0xBF`. -/
def utf8Cont (b : Nat) : Bool := 0x80 ≤ b && b ≤ 0xbf

/-- The check `core::str::from_utf8` performs on the first character of a
byte sequence (RFC 3629: correct continuation bytes, no overlong forms, no
surrogates, maximum `U+10FFFF`): `some n` when the sequence starts with a
valid character of `n` bytes, `none` otherwise. -/
def utf8First (l : List Nat) : Option Nat :=
  match l with
  | [] => none
  | b :: rest =>
    if b ≤ 0x7f then some 1
    else if 0xc2 ≤ b && b ≤ 0xdf then
      match rest with
      | b1 :: _ => if utf8Cont b1 then some 2 else none
      | [] => none
    else if 0xe0 ≤ b && b ≤ 0xef then
      match rest with
      | b1 :: b2 :: _ =>
        if (if b = 0xe0 then 0xa0 ≤ b1 && b1 ≤ 0xbf
            else if b = 0xed then 0x80 ≤ b1 && b1 ≤ 0x9f
            else utf8Cont b1) && utf8Cont b2 then some 3 else none
      | _ => none
    else if 0xf0 ≤ b && b ≤ 0xf4 then
      match rest with
      | b1 :: b2 :: b3 :: _ =>
        if (if b = 0xf0 then 0x90 ≤ b1 && b1 ≤ 0xbf
            else if b = 0xf4 then 0x80 ≤ b1 && b1 ≤ 0x8f
            else utf8Cont b1) && utf8Cont b2 && utf8Cont b3 then some 4 else none
      | _ => none
    else none

/-- The validation loop of `core::str::from_utf8`: check one character, skip
past it, repeat.  The first argument bounds the number of iterations so that
the recursion is structural; the bound is never hit when it starts at the
length of the list, since every accepted character takes at least one byte. -/
def validUtf8Go : Nat → List Nat → Bool
  | _, [] => true
  | 0, _ :: _ => false
  | fuel + 1, b :: rest =>
    match utf8First (b :: rest) with
    | none => false
    | some n => validUtf8Go fuel ((b :: rest).drop n)

/-- `core::str::from_utf8` validity of a byte sequence. -/
def validUtf8 (bs : List Nat) : Bool := validUtf8Go bs.length bs

/-- The `UTF8_CHAR_WIDTH` table at the bottom of `src/lib.rs`, as a function
of the byte value (the table indexes bytes, so only inputs below 256 occur). -/
def utf8CharWidth (b : Nat) : Nat :=
  if b ≤ 0x7f then 1
  else if b ≤ 0xc1 then 0
  else if b ≤ 0xdf then 2
  else if b ≤ 0xef then 3
  else if b ≤ 0xf4 then 4
  else 0

/-- The break condition of the scanning loop in `read::page`:
`source[i] < 0x20 || source[i] > 0x7f && source[i] < 0xc0`. -/
def isStopByte (b : Nat) : Bool := b < 0x20 || (0x7f < b && b < 0xc0)

/-- The scanning loop of `read::page`: starting at index `i`, repeatedly skip
`UTF8_CHAR_WIDTH` bytes until a stop byte (or the end of the slice) is
reached.  Returns `none` when the loop never terminates — a non-stop byte of
width 0 (`0xC0`, `0xC1`, `0xF5 ..= 0xFF`) leaves `i` unchanged forever.  The
returned index can exceed the length of the slice (a truncated multi-byte
head at the end makes the loop step past the end). -/
def scanAux : List Nat → Nat → Option Nat
  | [], i => some i
  | b :: rest, i =>
    if isStopByte b then some i
    else if utf8CharWidth b = 0 then none
    else scanAux (rest.drop (utf8CharWidth b - 1)) (i + utf8CharWidth b)
termination_by bs => bs.length
decreasing_by
  simp only [List.length_drop, List.length_cons]
  omega

/-- The scan of one implicit-`Show` run, from index 0. -/
def scan (src : List Nat) : Option Nat := scanAux src 0

/-- Byte sequences that can travel as an implicit `Show` run: valid UTF-8
with every byte at or above `0x20`.  In valid UTF-8 every byte below `0x80`
is a standalone ASCII character, so this says exactly that every code point
lies at or above `U+0020`. -/
def showTextB (bs : List Nat) : Bool := validUtf8 bs && bs.all (fun b => 0x20 ≤ b)

/-- A valid first character takes at least one byte. -/
theorem utf8First_pos {l : List Nat} {n : Nat} (h : utf8First l = some n) : 1 ≤ n := by
  unfold utf8First at h
  repeat' split at h
  all_goals simp_all
  all_goals omega

/-- A valid first character lies within the sequence. -/
theorem utf8First_le {l : List Nat} {n : Nat} (h : utf8First l = some n) : n ≤ l.length := by
  unfold utf8First at h
  repeat' split at h
  all_goals simp_all
  all_goals omega

/-- The length of a valid first character agrees with the `UTF8_CHAR_WIDTH`
table entry for its first byte. -/
theorem utf8First_width {b : Nat} {rest : List Nat} {n : Nat}
    (h : utf8First (b :: rest) = some n) : utf8CharWidth b = n := by
  unfold utf8First at h
  unfold utf8CharWidth
  repeat' split at h
  all_goals simp_all
  all_goals (repeat' split)
  all_goals try simp_all
  all_goals omega

/-- The first-character check only inspects the character's own bytes. -/
theorem utf8First_append {b : Nat} {rest : List Nat} {n : Nat}
    (h : utf8First (b :: rest) = some n) (ext : List Nat) :
    utf8First (b :: (rest ++ ext)) = some n := by
  unfold utf8First at h ⊢
  repeat' split at h
  all_goals simp_all
  all_goals (repeat' split)
  all_goals simp_all
  all_goals omega

/-- The fuel of `validUtf8Go` does not matter as long as it covers the length
of the input. -/
theorem validUtf8Go_eq : ∀ (fuel1 fuel2 : Nat) (bs : List Nat), bs.length ≤ fuel1 →
    bs.length ≤ fuel2 → validUtf8Go fuel1 bs = validUtf8Go fuel2 bs := by
  intro fuel1
  induction fuel1 with
  | zero =>
    intro fuel2 bs h1 h2
    match bs with
    | [] =>
      match fuel2 with
      | 0 => rfl
      | _ + 1 => rfl
    | b :: rest => simp at h1
  | succ f1 ih =>
    intro fuel2 bs h1 h2
    match bs with
    | [] =>
      match fuel2 with
      | 0 => rfl
      | _ + 1 => rfl
    | b :: rest =>
      match fuel2 with
      | 0 => simp at h2
      | f2 + 1 =>
        unfold validUtf8Go
        match hf : utf8First (b :: rest) with
        | none => rfl
        | some n =>
          simp only
          have hp := utf8First_pos hf
          exact ih f2 _ (by simp at h1 ⊢; omega) (by simp at h2 ⊢; omega)

/-- Any fuel covering the length computes `validUtf8`. -/
theorem validUtf8Go_fuel (fuel : Nat) {bs : List Nat} (h : bs.length ≤ fuel) :
    validUtf8Go fuel bs = validUtf8 bs :=
  validUtf8Go_eq fuel bs.length bs h le_rfl

/-- One step of `validUtf8` on a non-empty sequence. -/
theorem validUtf8_cons (b : Nat) (rest : List Nat) :
    validUtf8 (b :: rest) =
      match utf8First (b :: rest) with
      | none => false
      | some n => validUtf8 ((b :: rest).drop n) := by
  show validUtf8Go (rest.length + 1) (b :: rest) = _
  unfold validUtf8Go
  match hf : utf8First (b :: rest) with
  | none => rfl
  | some n =>
    simp only
    have h1 := utf8First_pos hf
    show validUtf8Go rest.length _ = _
    rw [validUtf8Go_fuel rest.length (by simp; omega)]

/-- UTF-8 validity is closed under concatenation. -/
theorem validUtf8_append {a : List Nat} (ha : validUtf8 a = true) {b : List Nat}
    (hb : validUtf8 b = true) : validUtf8 (a ++ b) = true := by
  suffices H : ∀ (fuel : Nat) (a : List Nat), a.length ≤ fuel → validUtf8 a = true →
      validUtf8 (a ++ b) = true from H a.length a le_rfl ha
  intro fuel
  induction fuel with
  | zero =>
    intro a hlen ha
    match a with
    | [] => simpa using hb
    | c :: rest => simp at hlen
  | succ fuel ih =>
    intro a hlen ha
    match a with
    | [] => simpa using hb
    | c :: rest =>
      rw [validUtf8_cons] at ha
      match hf : utf8First (c :: rest) with
      | none => rw [hf] at ha; simp at ha
      | some n =>
        rw [hf] at ha
        simp only at ha
        have h1 := utf8First_pos hf
        have h2 := utf8First_le hf
        rw [List.cons_append, validUtf8_cons, utf8First_append hf]
        simp only
        rw [show (c :: (rest ++ b)) = (c :: rest) ++ b from rfl]
        rw [List.drop_append_of_le_length h2]
        exact ih _ (by simp at hlen ⊢; omega) ha

/-- A show-run (`showTextB`) consists of valid UTF-8 whose bytes are all at
least `0x20`. -/
theorem showTextB_iff {bs : List Nat} :
    showTextB bs = true ↔ (validUtf8 bs = true ∧ bs.all (fun b => 0x20 ≤ b) = true) := by
  unfold showTextB
  exact iff_of_eq (Bool.and_eq_true _ _)

/-- Show-run text is valid UTF-8. -/
theorem validUtf8_of_showTextB {bs : List Nat} (h : showTextB bs = true) :
    validUtf8 bs = true := (showTextB_iff.mp h).1

/-- Show-run text is closed under concatenation. -/
theorem showTextB_append {a b : List Nat}
    (ha : showTextB a = true) (hb : showTextB b = true) : showTextB (a ++ b) = true := by
  rw [showTextB_iff] at ha hb ⊢
  simp only [List.all_append]
  exact ⟨validUtf8_append ha.1 hb.1, by simp [ha.2, hb.2]⟩

/-- Whether the scanning loop of `read::page` would stop immediately when the
remaining input is `rest`: either the input is exhausted or its first byte is
a stop byte. -/
def stopsAt : List Nat → Bool
  | [] => true
  | b :: _ => isStopByte b

/-- The scanning loop traverses a show-run in full, stopping exactly at its
end when a stop byte (or the end of the slice) follows. -/
theorem scanAux_run {bs : List Nat} (hv : validUtf8 bs = true)
    (hall : bs.all (fun b => 0x20 ≤ b) = true) (rest : List Nat) (i : Nat)
    (hstop : stopsAt rest = true) :
    scanAux (bs ++ rest) i = some (i + bs.length) := by
  suffices H : ∀ (fuel : Nat) (bs : List Nat), bs.length ≤ fuel → validUtf8 bs = true →
      bs.all (fun b => 0x20 ≤ b) = true → ∀ i, scanAux (bs ++ rest) i = some (i + bs.length) from
    H bs.length bs le_rfl hv hall i
  clear hv hall i
  intro fuel
  have base : ∀ i, scanAux (([] : List Nat) ++ rest) i = some (i + 0) := by
    intro i
    match rest with
    | [] => simp [scanAux]
    | b :: rest' =>
      rw [List.nil_append, scanAux]
      simp only [stopsAt] at hstop
      rw [if_pos hstop]
      simp
  induction fuel with
  | zero =>
    intro bs hlen _ _ i
    match bs with
    | [] => simpa using base i
    | _ :: _ => simp at hlen
  | succ fuel ih =>
    intro bs hlen hv hall i
    match bs with
    | [] => simpa using base i
    | c :: rest0 =>
      rw [validUtf8_cons] at hv
      match hf : utf8First (c :: rest0) with
      | none => rw [hf] at hv; simp at hv
      | some n =>
        rw [hf] at hv
        simp only at hv
        have h1 := utf8First_pos hf
        have h2 := utf8First_le hf
        have hw := utf8First_width hf
        simp only [List.all_cons, Bool.and_eq_true, decide_eq_true_eq,
          List.all_eq_true] at hall
        have hnstop : ¬isStopByte c = true := by
          unfold isStopByte
          simp only [Bool.or_eq_true, Bool.and_eq_true, decide_eq_true_eq]
          -- a valid lead byte is either ASCII (and at least 0x20 here) or at least 0xC2
          by_cases hascii : c ≤ 0x7f
          · have := hall.1
            omega
          · have hge : 0xc2 ≤ c := by
              unfold utf8CharWidth at hw
              repeat' split at hw
              all_goals omega
            omega
        rw [List.cons_append, scanAux]
        rw [if_neg hnstop, hw]
        rw [if_neg (by omega : ¬n = 0)]
        have hdrop : rest0.drop (n - 1) = (c :: rest0).drop n := by
          match n, h1 with
          | m + 1, _ => simp
        have hdrop2 : (rest0 ++ rest).drop (n - 1) = (c :: rest0).drop n ++ rest := by
          rw [List.drop_append_of_le_length (by simp at h2 ⊢; omega), hdrop]
        rw [hdrop2]
        have hall2 : ((c :: rest0).drop n).all (fun b => 0x20 ≤ b) = true := by
          simp only [List.all_eq_true, decide_eq_true_eq]
          intro x hx
          have hx' := List.mem_of_mem_drop hx
          rw [List.mem_cons] at hx'
          rcases hx' with hx' | hx'
          · subst hx'
            exact hall.1
          · exact hall.2 x hx' 
        rw [ih ((c :: rest0).drop n) (by simp at hlen ⊢; omega) hv hall2 (i + n)]
        congr 1
        simp at h2 ⊢
        omega

/-- The scan of a show-run followed by a stopping context finds exactly the
length of the run. -/
theorem scan_run {bs rest : List Nat} (hs : showTextB bs = true)
    (hstop : stopsAt rest = true) : scan (bs ++ rest) = some bs.length := by
  rw [showTextB_iff] at hs
  unfold scan
  rw [scanAux_run hs.1 hs.2 rest 0 hstop]
  simp

/-- The scan stops at index 0 on a stop byte. -/
theorem scan_stop {b : Nat} {rest : List Nat} (hstop : isStopByte b = true) :
    scan (b :: rest) = some 0 := by
  unfold scan
  rw [scanAux]
  rw [if_pos hstop]


/-! ## The EDF data model (`src/lib.rs`) -/

/-- `Style`: a font name (a Rust `String`, modelled by its UTF-8 bytes) and a
pixel size (`u16`). -/
structure Style where
  font_name : List Nat
  em_px : Nat
  deriving DecidableEq, Repr

/-- `Header`: the style table. -/
structure Header where
  styles : List Style
  deriving DecidableEq, Repr

/-- `Command<S>` with the adjustment ratio generalised as well: the codec
moves `f32` values as opaque 32-bit patterns, while the layout builder works
with actual floats.  `S` is the payload of `Show`, `R` that of
`SetAdjustmentRatio`. -/
inductive Command (S R : Type) where
  | nop
  | htab
  | lineBreak
  | vtab
  | pageBreak
  | show (str : S)
  | advance (dx : Nat)
  | setCursor (x y : Nat)
  | setStyle (s : Nat)
  | setAdjustmentRatio (r : R)
  | setLineMetrics (height baseline : Nat)
  | end_
  deriving DecidableEq, Repr

/-- `read::Error`.  The payload of `IoError` is not modelled. -/
inductive RError where
  | ioError
  | invalidMagicNumber
  | invalidEncoding
  | invalidCommand
  | invalidStyleIndex
  deriving DecidableEq, Repr

/-- Reassemble a `u32` from four little-endian bytes. -/
def u32FromLeBytes (b0 b1 b2 b3 : Nat) : Nat :=
  b0 + b1 * 256 + b2 * 65536 + b3 * 16777216

/-- `i32::from_le_bytes`. -/
def i32FromLeBytes (b0 b1 b2 b3 : Nat) : Int :=
  let u := u32FromLeBytes b0 b1 b2 b3
  if u < 2 ^ 31 then (u : Int) else (u : Int) - 2 ^ 32

/-- Wrap an integer into the `i32` range (two's complement). -/
def wrapI32 (v : Int) : Int := (v + 2 ^ 31) % 2 ^ 32 - 2 ^ 31

/-- The four little-endian bytes of a `u32` (handing it a larger value drops
the high bits, as a wrapping cast would). -/
def u32ToLeBytes (u : Nat) : List Nat :=
  [u % 256, u / 256 % 256, u / 65536 % 256, u / 16777216 % 256]

/-- `i32::to_le_bytes`. -/
def i32ToLeBytes (v : Int) : List Nat := u32ToLeBytes (v % 2 ^ 32).toNat

/-! ## The read half (`mod read` in `src/lib.rs`) -/

namespace read

/-- `From<leb128::read::Error> for Error`: I/O errors pass through, overflow
becomes `InvalidEncoding`. -/
def ofLebError : leb128.RdError → RError
  | .ioError => .ioError
  | .overflow => .invalidEncoding

/-- An LEB128 read with its error mapped into `read::Error`. -/
def lebU (bytes : List Nat) : Except RError (Nat × List Nat) :=
  match leb128.read bytes with
  | .ok x => .ok x
  | .error e => .error (ofLebError e)

/-- `u32::try_from` on a `u64` value (`TryFromIntError` maps to
`InvalidEncoding`). -/
def tryIntoU32 (v : Nat) : Except RError Nat :=
  if v < 2 ^ 32 then .ok v else .error .invalidEncoding

/-- `u16::try_from` on a `u64` value. -/
def tryIntoU16 (v : Nat) : Except RError Nat :=
  if v < 2 ^ 16 then .ok v else .error .invalidEncoding

/-- `read::read_string`: an LEB128 length (checked into `u32`), that many raw
bytes (`read_exact`, an I/O error if the stream is short), validated as
UTF-8. -/
def readString (bytes : List Nat) : Except RError (List Nat × List Nat) := do
  let (len64, rest) ← lebU bytes
  let len ← tryIntoU32 len64
  if len ≤ rest.length then
    if validUtf8 (rest.take len) then .ok (rest.take len, rest.drop len)
    else .error .invalidEncoding
  else .error .ioError

/-- `read::read_style`. -/
def readStyle (bytes : List Nat) : Except RError (Style × List Nat) := do
  let (name, rest) ← readString bytes
  let (em64, rest') ← lebU rest
  let em ← tryIntoU16 em64
  .ok (⟨name, em⟩, rest')

/-- The style-vector loop of `read::header`. -/
def readStyles : Nat → List Nat → Except RError (List Style × List Nat)
  | 0, bytes => .ok ([], bytes)
  | n + 1, bytes => do
    let (s, rest) ← readStyle bytes
    let (ss, rest') ← readStyles n rest
    .ok (s :: ss, rest')

/-- `read::header`: magic number, then the style table. -/
def header (bytes : List Nat) : Except RError (Header × List Nat) :=
  if bytes.length < 4 then .error .ioError
  else if bytes.take 4 ≠ [0x0e, 0xdf, 0x01, 0x00] then .error .invalidMagicNumber
  else do
    let (len64, rest) ← lebU (bytes.drop 4)
    let len ← tryIntoU32 len64
    let (styles, rest') ← readStyles len rest
    .ok (⟨styles⟩, rest')

/-- `read::seek_trailer` over a fully materialised stream: seek 4 bytes from
the end (an I/O error on a shorter stream), read the stored `i32`, subtract 4
(with `i32` wrapping), reject a non-negative result as `InvalidEncoding`, and
otherwise seek to that offset from the end (an I/O error when the target
position is negative), returning the resulting stream position. -/
def seekTrailer (file : List Nat) : Except RError Int :=
  if file.length < 4 then .error .ioError
  else
    let t := file.drop (file.length - 4)
    let stored := i32FromLeBytes (t.getD 0 0) (t.getD 1 0) (t.getD 2 0) (t.getD 3 0)
    let offset := wrapI32 (stored - 4)
    if 0 ≤ offset then .error .invalidEncoding
    else
      let target : Int := (file.length : Int) + offset
      if target < 0 then .error .ioError else .ok target

/-- The page-vector loop of `read::trailer`. -/
def readPageOffsets : Nat → List Nat → Except RError (List Nat × List Nat)
  | 0, bytes => .ok ([], bytes)
  | n + 1, bytes => do
    let (off64, rest) ← lebU bytes
    let off ← tryIntoU32 off64
    let (offs, rest') ← readPageOffsets n rest
    .ok (off :: offs, rest')

/-- `read::trailer`: a page count and that many `u32` page offsets. -/
def trailer (bytes : List Nat) : Except RError (List Nat × List Nat) := do
  let (len64, rest) ← lebU bytes
  let len ← tryIntoU32 len64
  readPageOffsets len rest

/-- `read::decode_command`: `code` is `source[0]`, `source` here is the rest
of the slice.  Returns the command and the length `len` of its operands (the
cursor position after the reads); the Rust function returns `len + 1` to
count the opcode byte, and here the caller adds that 1 itself. -/
def decodeCommand (h : Header) (code : Nat) (source : List Nat) :
    Except RError (Command (List Nat) Nat × Nat) :=
  match code with
  | 0x09 => .ok (.htab, 0)
  | 0x0a => .ok (.lineBreak, 0)
  | 0x0b => .ok (.vtab, 0)
  | 0x0c => .ok (.pageBreak, 0)
  | 0x80 => .ok (.nop, 0)
  | 0x81 => do
    let (v, rest) ← lebU source
    let dx ← tryIntoU16 v
    .ok (.advance dx, source.length - rest.length)
  | 0x82 => do
    let (vx, rest) ← lebU source
    let x ← tryIntoU16 vx
    let (vy, rest') ← lebU rest
    let y ← tryIntoU16 vy
    .ok (.setCursor x y, source.length - rest'.length)
  | 0x83 => do
    let (v, rest) ← lebU source
    let s ← tryIntoU16 v
    if h.styles.length ≤ s then .error .invalidStyleIndex
    else .ok (.setStyle s, source.length - rest.length)
  | 0x84 =>
    match source with
    | b0 :: b1 :: b2 :: b3 :: _ => .ok (.setAdjustmentRatio (u32FromLeBytes b0 b1 b2 b3), 4)
    | _ => .error .invalidEncoding
  | 0x85 => do
    let (vh, rest) ← lebU source
    let hgt ← tryIntoU16 vh
    let (vb, rest') ← lebU rest
    let bl ← tryIntoU16 vb
    .ok (.setLineMetrics hgt bl, source.length - rest'.length)
  | 0xbf => .ok (.end_, 0)
  | _ => .error .invalidCommand

/-- An LEB128 read of an encoded value with the error mapping applied. -/
theorem lebU_write (v : Nat) (ext : List Nat) (hv : v < 2 ^ 64) :
    lebU (leb128.write v ++ ext) = .ok (v, ext) := by
  unfold lebU
  rw [leb128.read_write v ext hv]

/-- The possible outcomes of `read::page`: a decoded command vector, a decode
error, a Rust panic (slicing `&source[..i]` with `i` past the end), or
non-termination of the scanning loop. -/
inductive PageResult where
  | ok (commands : List (Command (List Nat) Nat))
  | error (e : RError)
  | panicked
  | diverged
  deriving DecidableEq, Repr

/-- The loop of `read::page`, carrying the accumulated command vector.  Each
iteration scans one implicit-`Show` run, pushes it (validated as UTF-8) when
non-empty, then — unless the scan consumed the whole slice — decodes one
command, stops after `PageBreak` or `End`, and otherwise advances past the
consumed bytes. -/
def pageGo (h : Header) (src : List Nat) (acc : List (Command (List Nat) Nat)) :
    PageResult :=
  match hsrc : src with
  | [] => .ok acc
  | _ :: _ =>
    match scan src with
    | none => .diverged
    | some i =>
      if hle : src.length < i then .panicked
      else
        match (if i = 0 then some acc
               else if validUtf8 (src.take i) then some (acc ++ [Command.show (src.take i)])
               else none) with
        | none => .error .invalidEncoding
        | some acc1 =>
          if hi : i = src.length then .ok acc1
          else
            match src.drop i with
            | [] => .panicked  -- unreachable: i < src.length
            | code :: tail =>
              match decodeCommand h code tail with
              | .error e => .error e
              | .ok (cmd, len) =>
                -- the advance is `len + 1`: the operands plus the opcode byte
                if cmd = .pageBreak ∨ cmd = .end_ then .ok (acc1 ++ [cmd])
                else pageGo h (src.drop (i + (len + 1))) (acc1 ++ [cmd])
termination_by src.length
decreasing_by
  subst hsrc
  simp only [List.length_drop, List.length_cons]
  omega

/-- `read::page`. -/
def page (h : Header) (src : List Nat) : PageResult := pageGo h src []

/-- `read::page` on an empty slice returns the accumulated commands. -/
theorem pageGo_nil (h : Header) (acc : List (Command (List Nat) Nat)) :
    pageGo h [] acc = .ok acc := by
  unfold pageGo
  rfl

/-- One unfolding of the `read::page` loop, in the well-behaved case where
the scan terminated at an index within bounds and (for a non-empty run) the
run is valid UTF-8. -/
theorem pageGo_step (h : Header) (src : List Nat) (acc : List (Command (List Nat) Nat)) (i : Nat)
    (hne : src ≠ [])
    (hscan : scan src = some i)
    (hle : i ≤ src.length)
    (hval : i = 0 ∨ validUtf8 (src.take i) = true) :
    pageGo h src acc =
      (let acc1 := if i = 0 then acc else acc ++ [Command.show (src.take i)]
       if _hi : i = src.length then .ok acc1
       else
         match src.drop i with
         | [] => .panicked
         | code :: tail =>
           match decodeCommand h code tail with
           | .error e => .error e
           | .ok (cmd, len) =>
             if cmd = .pageBreak ∨ cmd = .end_ then .ok (acc1 ++ [cmd])
             else pageGo h (src.drop (i + (len + 1))) (acc1 ++ [cmd])) := by
  match src with
  | [] => exact absurd rfl hne
  | b :: rest =>
    rw [pageGo]
    rw [hscan]
    simp only
    rw [dif_neg (by omega : ¬(b :: rest).length < i)]
    rcases hval with hval | hval
    · subst hval
      rfl
    · by_cases hi0 : i = 0
      · subst hi0
        rfl
      · rw [if_neg hi0, if_neg hi0, if_pos hval]

end read

/-! ## The write half (`mod write` in `src/lib.rs`) -/

namespace write

/-- `write::encode_string`: LEB128 length, then the raw bytes. -/
def encodeString (s : List Nat) : List Nat := leb128.write s.length ++ s

/-- `write::encode_style`. -/
def encodeStyle (st : Style) : List Nat :=
  encodeString st.font_name ++ leb128.write st.em_px

/-- The EDF magic number. -/
def magic : List Nat := [0x0e, 0xdf, 0x01, 0x00]

/-- `write::encode_header`: magic, style count, styles. -/
def encodeHeader (h : Header) : List Nat :=
  magic ++ leb128.write h.styles.length ++ (h.styles.map encodeStyle).flatten

/-- The bytes one command contributes in `write::encode_pages`.  `Show` emits
its raw bytes; `End` falls into the `_ => {}` arm and emits nothing. -/
def encodeCommand : Command (List Nat) Nat → List Nat
  | .nop => [0x80]
  | .htab => [0x09]
  | .lineBreak => [0x0a]
  | .vtab => [0x0b]
  | .pageBreak => [0x0c]
  | .show s => s
  | .advance dx => 0x81 :: leb128.write dx
  | .setCursor x y => 0x82 :: (leb128.write x ++ leb128.write y)
  | .setStyle s => 0x83 :: leb128.write s
  | .setAdjustmentRatio r => 0x84 :: u32ToLeBytes r
  | .setLineMetrics hgt bl => 0x85 :: (leb128.write hgt ++ leb128.write bl)
  | .end_ => []

/-- The loop of `write::encode_pages`: emit each command's bytes, recording
`(at + n) as u32` as a page offset right after each `PageBreak` byte, and
finish with the `0xBF` terminator.  Returns the extra page offsets collected
and the bytes emitted from this point on. -/
def encodePagesGo (at_ : Nat) : List (Command (List Nat) Nat) → Nat → List Nat × List Nat
  | [], _ => ([], [0xbf])
  | c :: rest, n =>
    let bytes := encodeCommand c
    let n' := n + bytes.length
    let offs := if c = .pageBreak then [(at_ + n') % 2 ^ 32] else []
    let (offsRest, bytesRest) := encodePagesGo at_ rest n'
    (offs ++ offsRest, bytes ++ bytesRest)

/-- `write::encode_pages`: the offset vector starts with `at as u32`. -/
def encodePages (at_ : Nat) (cs : List (Command (List Nat) Nat)) : List Nat × List Nat :=
  (at_ % 2 ^ 32 :: (encodePagesGo at_ cs 0).1, (encodePagesGo at_ cs 0).2)

/-- `write::encode_trailer`: page count and offsets in LEB128, then the
back-pointer `(-(n as i32)).to_le_bytes()` where `n` counts only the LEB128
bytes just written. -/
def encodeTrailer (pages : List Nat) : List Nat :=
  let body := leb128.write pages.length ++ (pages.map leb128.write).flatten
  body ++ i32ToLeBytes (wrapI32 (-(wrapI32 body.length)))

/-- `write::doc`: header, pages, trailer.  The model returns the emitted byte
stream (the Rust function returns its length and writes the bytes to `w`). -/
def doc (h : Header) (cs : List (Command (List Nat) Nat)) : List Nat :=
  encodeHeader h ++ (encodePages (encodeHeader h).length cs).2 ++
    encodeTrailer (encodePages (encodeHeader h).length cs).1

/-- The bytes of a command list, as `encode_pages` emits them (without the
final terminator). -/
def encodeCmds (cs : List (Command (List Nat) Nat)) : List Nat :=
  (cs.map encodeCommand).flatten

/-- The byte half of the `encode_pages` loop is the commands' bytes followed
by the `0xBF` terminator; the offsets do not influence it. -/
theorem encodePagesGo_bytes :
    ∀ (cs : List (Command (List Nat) Nat)) (at_ n : Nat),
    (encodePagesGo at_ cs n).2 = encodeCmds cs ++ [0xbf] := by
  intro cs
  induction cs with
  | nil => intro at_ n; rfl
  | cons c rest ih =>
    intro at_ n
    unfold encodePagesGo
    simp only [encodeCmds, List.map_cons, List.flatten_cons, List.append_assoc]
    rw [← encodeCmds]
    rw [show (encodePagesGo at_ rest (n + (encodeCommand c).length)).2 =
        encodeCmds rest ++ [0xbf] from ih at_ _]

/-- `write::doc` decomposed into its three regions. -/
theorem doc_decompose (h : Header) (cs : List (Command (List Nat) Nat)) :
    doc h cs =
      encodeHeader h ++ (encodeCmds cs ++ [0xbf]) ++
        encodeTrailer (encodePages (encodeHeader h).length cs).1 := by
  unfold doc encodePages
  rw [encodePagesGo_bytes]

end write

/-! ## Well-formedness of headers and command lists

These predicates collect the bounds that the Rust types enforce structurally
(`u16` operands, `u32` lengths, `String` contents) together with the
conditions under which a command survives the trip through the wire format:
a `Show` run must be non-empty printable text, and `PageBreak` / `End` are
excluded because the decoder stops at them and the encoder drops `End`. -/

/-- A style whose encoding decodes back to itself: the name fits in a `u32`
length and is valid UTF-8 (a Rust `String` always is), and the size fits in
`u16` (it is one in Rust). -/
def wfStyle (st : Style) : Bool :=
  decide (st.font_name.length < 2 ^ 32) && validUtf8 st.font_name &&
    decide (st.em_px < 2 ^ 16)

/-- A header whose encoding decodes back to itself. -/
def wfHeader (h : Header) : Bool :=
  decide (h.styles.length < 2 ^ 32) && h.styles.all wfStyle

/-- A command that survives the wire format (against the style table of
`h`): operands fit their Rust integer types, `SetStyle` indices are in range,
`Show` runs are non-empty printable text, and the stream-terminating commands
`PageBreak` and `End` do not occur. -/
def wfCmd (h : Header) : Command (List Nat) Nat → Bool
  | .nop => true
  | .htab => true
  | .lineBreak => true
  | .vtab => true
  | .pageBreak => false
  | .show s => !s.isEmpty && showTextB s
  | .advance dx => decide (dx < 2 ^ 16)
  | .setCursor x y => decide (x < 2 ^ 16) && decide (y < 2 ^ 16)
  | .setStyle s => decide (s < 2 ^ 16) && decide (s < h.styles.length)
  | .setAdjustmentRatio r => decide (r < 2 ^ 32)
  | .setLineMetrics a b => decide (a < 2 ^ 16) && decide (b < 2 ^ 16)
  | .end_ => false

/-- Is a command a `Show`? -/
def isShowCmd : Command (List Nat) Nat → Bool
  | .show _ => true
  | _ => false

/-- No two adjacent `Show` commands. -/
def noAdjShow : List (Command (List Nat) Nat) → Bool
  | [] => true
  | [_] => true
  | c1 :: c2 :: rest => !(isShowCmd c1 && isShowCmd c2) && noAdjShow (c2 :: rest)

/-- Prepend a command to an already canonical list, fusing a `Show` into a
leading `Show`. -/
def canonCons (c : Command (List Nat) Nat) (rest : List (Command (List Nat) Nat)) :
    List (Command (List Nat) Nat) :=
  match c, rest with
  | .show s, .show t :: rest' => .show (s ++ t) :: rest'
  | c, rest => c :: rest

/-- One canonicalisation pass over a command list: adjacent `Show` commands
fuse into one, mirroring how the codec lays their bytes out back to back. -/
def canon : List (Command (List Nat) Nat) → List (Command (List Nat) Nat)
  | [] => []
  | c :: rest => canonCons c (canon rest)

/-- Canonicalisation does not change the emitted bytes: fusing `Show`
commands only regroups the same byte runs. -/
theorem encodeCmds_canonCons (c : Command (List Nat) Nat)
    (r : List (Command (List Nat) Nat)) :
    write.encodeCmds (canonCons c r) = write.encodeCommand c ++ write.encodeCmds r := by
  unfold canonCons
  match c, r with
  | .show s, .show t :: rest' =>
    simp [write.encodeCmds, write.encodeCommand]
  | .show s, [] => rfl
  | .show s, .nop :: r' => rfl
  | .show s, .htab :: r' => rfl
  | .show s, .lineBreak :: r' => rfl
  | .show s, .vtab :: r' => rfl
  | .show s, .pageBreak :: r' => rfl
  | .show s, .advance dx :: r' => rfl
  | .show s, .setCursor x y :: r' => rfl
  | .show s, .setStyle s' :: r' => rfl
  | .show s, .setAdjustmentRatio r'' :: r' => rfl
  | .show s, .setLineMetrics a b :: r' => rfl
  | .show s, .end_ :: r' => rfl
  | .nop, r => rfl
  | .htab, r => rfl
  | .lineBreak, r => rfl
  | .vtab, r => rfl
  | .pageBreak, r => rfl
  | .advance dx, r => rfl
  | .setCursor x y, r => rfl
  | .setStyle s', r => rfl
  | .setAdjustmentRatio r'', r => rfl
  | .setLineMetrics a b, r => rfl
  | .end_, r => rfl

/-- The bytes of a command list are invariant under canonicalisation. -/
theorem encodeCmds_canon (cs : List (Command (List Nat) Nat)) :
    write.encodeCmds (canon cs) = write.encodeCmds cs := by
  induction cs with
  | nil => rfl
  | cons c rest ih =>
    unfold canon
    rw [encodeCmds_canonCons]
    rw [ih]
    rfl

/-- Prepending a command to a list with no adjacent `Show`s keeps that
property as long as one of the two leading commands is not a `Show`. -/
theorem noAdjShow_cons2 (c c2 : Command (List Nat) Nat) (r2 : List (Command (List Nat) Nat))
    (h : isShowCmd c = false ∨ isShowCmd c2 = false) (h2 : noAdjShow (c2 :: r2) = true) :
    noAdjShow (c :: c2 :: r2) = true := by
  unfold noAdjShow
  rcases h with h | h <;> simp [h, h2]

/-- Prepending any command to a singleton-free context. -/
theorem noAdjShow_cons1 (c : Command (List Nat) Nat) (r : List (Command (List Nat) Nat))
    (hc : isShowCmd c = false) (h2 : noAdjShow r = true) : noAdjShow (c :: r) = true := by
  match r with
  | [] => rfl
  | c2 :: r2 => exact noAdjShow_cons2 c c2 r2 (Or.inl hc) h2

/-- Canonicalised lists have no adjacent `Show` commands. -/
theorem noAdjShow_canon (cs : List (Command (List Nat) Nat)) :
    noAdjShow (canon cs) = true := by
  induction cs with
  | nil => rfl
  | cons c rest ih =>
    show noAdjShow (canonCons c (canon rest)) = true
    match c, hr : canon rest with
    | .show s, .show t :: rest' =>
      rw [hr] at ih
      show noAdjShow (.show (s ++ t) :: rest') = true
      match rest' with
      | [] => rfl
      | c2 :: r2 =>
        unfold noAdjShow at ih ⊢
        simp only [Bool.and_eq_true] at ih ⊢
        refine ⟨?_, ih.2⟩
        have h1 := ih.1
        simp only [isShowCmd, Bool.not_eq_true', Bool.and_eq_false_iff] at h1 ⊢
        rcases h1 with h1 | h1
        · exact absurd h1 (by simp)
        · right
          exact h1
    | .show s, [] => rfl
    | .show s, .nop :: r' => exact noAdjShow_cons2 _ _ _ (Or.inr rfl) (hr ▸ ih)
    | .show s, .htab :: r' => exact noAdjShow_cons2 _ _ _ (Or.inr rfl) (hr ▸ ih)
    | .show s, .lineBreak :: r' => exact noAdjShow_cons2 _ _ _ (Or.inr rfl) (hr ▸ ih)
    | .show s, .vtab :: r' => exact noAdjShow_cons2 _ _ _ (Or.inr rfl) (hr ▸ ih)
    | .show s, .pageBreak :: r' => exact noAdjShow_cons2 _ _ _ (Or.inr rfl) (hr ▸ ih)
    | .show s, .advance dx :: r' => exact noAdjShow_cons2 _ _ _ (Or.inr rfl) (hr ▸ ih)
    | .show s, .setCursor x y :: r' => exact noAdjShow_cons2 _ _ _ (Or.inr rfl) (hr ▸ ih)
    | .show s, .setStyle s' :: r' => exact noAdjShow_cons2 _ _ _ (Or.inr rfl) (hr ▸ ih)
    | .show s, .setAdjustmentRatio r'' :: r' =>
      exact noAdjShow_cons2 _ _ _ (Or.inr rfl) (hr ▸ ih)
    | .show s, .setLineMetrics a b :: r' => exact noAdjShow_cons2 _ _ _ (Or.inr rfl) (hr ▸ ih)
    | .show s, .end_ :: r' => exact noAdjShow_cons2 _ _ _ (Or.inr rfl) (hr ▸ ih)
    | .nop, r => exact noAdjShow_cons1 _ _ rfl (hr ▸ ih)
    | .htab, r => exact noAdjShow_cons1 _ _ rfl (hr ▸ ih)
    | .lineBreak, r => exact noAdjShow_cons1 _ _ rfl (hr ▸ ih)
    | .vtab, r => exact noAdjShow_cons1 _ _ rfl (hr ▸ ih)
    | .pageBreak, r => exact noAdjShow_cons1 _ _ rfl (hr ▸ ih)
    | .advance dx, r => exact noAdjShow_cons1 _ _ rfl (hr ▸ ih)
    | .setCursor x y, r => exact noAdjShow_cons1 _ _ rfl (hr ▸ ih)
    | .setStyle s', r => exact noAdjShow_cons1 _ _ rfl (hr ▸ ih)
    | .setAdjustmentRatio r'', r => exact noAdjShow_cons1 _ _ rfl (hr ▸ ih)
    | .setLineMetrics a b, r => exact noAdjShow_cons1 _ _ rfl (hr ▸ ih)
    | .end_, r => exact noAdjShow_cons1 _ _ rfl (hr ▸ ih)

/-- Canonicalisation preserves well-formedness (fusing two well-formed `Show`
runs yields a well-formed one). -/
theorem wfCmd_canon (h : Header) (cs : List (Command (List Nat) Nat))
    (hwf : ∀ c ∈ cs, wfCmd h c = true) :
    ∀ c ∈ canon cs, wfCmd h c = true := by
  induction cs with
  | nil => intro c hc; simp [canon] at hc
  | cons c rest ih =>
    have hihw : ∀ c ∈ canon rest, wfCmd h c = true :=
      ih (fun c hc => hwf c (List.mem_cons_of_mem _ hc))
    have hcw : wfCmd h c = true := hwf c (List.mem_cons_self _ _)
    intro d hd
    unfold canon canonCons at hd
    match c, hr : canon rest with
    | .show s, .show t :: rest' =>
      rw [hr] at hd
      simp only at hd
      rw [List.mem_cons] at hd
      rcases hd with hd | hd
      · subst hd
        have hts : wfCmd h (.show t) = true := hihw _ (hr ▸ List.mem_cons_self _ _)
        unfold wfCmd at hcw hts ⊢
        simp only [Bool.and_eq_true, Bool.not_eq_true', List.isEmpty_eq_false] at hcw hts ⊢
        refine ⟨?_, showTextB_append hcw.2 hts.2⟩
        intro hemp
        have hlen : s.length + t.length = 0 := by simpa using congrArg List.length hemp
        exact hcw.1 (List.length_eq_zero.mp (by omega))
      · exact hihw d (hr ▸ List.mem_cons_of_mem _ hd)
    | .show s, [] =>
      rw [hr] at hd
      simp only at hd
      rw [List.mem_cons] at hd
      rcases hd with hd | hd
      · subst hd; exact hcw
      · simp at hd
    | .show s, .nop :: r' =>
      rw [hr] at hd
      simp only at hd
      rw [List.mem_cons] at hd
      rcases hd with hd | hd
      · subst hd; exact hcw
      · exact hihw d (hr ▸ hd)
    | .show s, .htab :: r' =>
      rw [hr] at hd
      simp only at hd
      rw [List.mem_cons] at hd
      rcases hd with hd | hd
      · subst hd; exact hcw
      · exact hihw d (hr ▸ hd)
    | .show s, .lineBreak :: r' =>
      rw [hr] at hd
      simp only at hd
      rw [List.mem_cons] at hd
      rcases hd with hd | hd
      · subst hd; exact hcw
      · exact hihw d (hr ▸ hd)
    | .show s, .vtab :: r' =>
      rw [hr] at hd
      simp only at hd
      rw [List.mem_cons] at hd
      rcases hd with hd | hd
      · subst hd; exact hcw
      · exact hihw d (hr ▸ hd)
    | .show s, .pageBreak :: r' =>
      rw [hr] at hd
      simp only at hd
      rw [List.mem_cons] at hd
      rcases hd with hd | hd
      · subst hd; exact hcw
      · exact hihw d (hr ▸ hd)
    | .show s, .advance dx :: r' =>
      rw [hr] at hd
      simp only at hd
      rw [List.mem_cons] at hd
      rcases hd with hd | hd
      · subst hd; exact hcw
      · exact hihw d (hr ▸ hd)
    | .show s, .setCursor x y :: r' =>
      rw [hr] at hd
      simp only at hd
      rw [List.mem_cons] at hd
      rcases hd with hd | hd
      · subst hd; exact hcw
      · exact hihw d (hr ▸ hd)
    | .show s, .setStyle s' :: r' =>
      rw [hr] at hd
      simp only at hd
      rw [List.mem_cons] at hd
      rcases hd with hd | hd
      · subst hd; exact hcw
      · exact hihw d (hr ▸ hd)
    | .show s, .setAdjustmentRatio r'' :: r' =>
      rw [hr] at hd
      simp only at hd
      rw [List.mem_cons] at hd
      rcases hd with hd | hd
      · subst hd; exact hcw
      · exact hihw d (hr ▸ hd)
    | .show s, .setLineMetrics a b :: r' =>
      rw [hr] at hd
      simp only at hd
      rw [List.mem_cons] at hd
      rcases hd with hd | hd
      · subst hd; exact hcw
      · exact hihw d (hr ▸ hd)
    | .show s, .end_ :: r' =>
      rw [hr] at hd
      simp only at hd
      rw [List.mem_cons] at hd
      rcases hd with hd | hd
      · subst hd; exact hcw
      · exact hihw d (hr ▸ hd)
    | .nop, r =>
      rw [hr] at hd
      simp only at hd
      rw [List.mem_cons] at hd
      rcases hd with hd | hd
      · subst hd; exact hcw
      · exact hihw d (hr ▸ hd)
    | .htab, r =>
      rw [hr] at hd
      simp only at hd
      rw [List.mem_cons] at hd
      rcases hd with hd | hd
      · subst hd; exact hcw
      · exact hihw d (hr ▸ hd)
    | .lineBreak, r =>
      rw [hr] at hd
      simp only at hd
      rw [List.mem_cons] at hd
      rcases hd with hd | hd
      · subst hd; exact hcw
      · exact hihw d (hr ▸ hd)
    | .vtab, r =>
      rw [hr] at hd
      simp only at hd
      rw [List.mem_cons] at hd
      rcases hd with hd | hd
      · subst hd; exact hcw
      · exact hihw d (hr ▸ hd)
    | .pageBreak, r =>
      rw [hr] at hd
      simp only at hd
      rw [List.mem_cons] at hd
      rcases hd with hd | hd
      · subst hd; exact hcw
      · exact hihw d (hr ▸ hd)
    | .advance dx, r =>
      rw [hr] at hd
      simp only at hd
      rw [List.mem_cons] at hd
      rcases hd with hd | hd
      · subst hd; exact hcw
      · exact hihw d (hr ▸ hd)
    | .setCursor x y, r =>
      rw [hr] at hd
      simp only at hd
      rw [List.mem_cons] at hd
      rcases hd with hd | hd
      · subst hd; exact hcw
      · exact hihw d (hr ▸ hd)
    | .setStyle s', r =>
      rw [hr] at hd
      simp only at hd
      rw [List.mem_cons] at hd
      rcases hd with hd | hd
      · subst hd; exact hcw
      · exact hihw d (hr ▸ hd)
    | .setAdjustmentRatio r'', r =>
      rw [hr] at hd
      simp only at hd
      rw [List.mem_cons] at hd
      rcases hd with hd | hd
      · subst hd; exact hcw
      · exact hihw d (hr ▸ hd)
    | .setLineMetrics a b, r =>
      rw [hr] at hd
      simp only at hd
      rw [List.mem_cons] at hd
      rcases hd with hd | hd
      · subst hd; exact hcw
      · exact hihw d (hr ▸ hd)
    | .end_, r =>
      rw [hr] at hd
      simp only at hd
      rw [List.mem_cons] at hd
      rcases hd with hd | hd
      · subst hd; exact hcw
      · exact hihw d (hr ▸ hd)


/-- `u32` little-endian byte round trip. -/
theorem u32FromLe_toLe (r : Nat) (hr : r < 2 ^ 32) :
    u32FromLeBytes (r % 256) (r / 256 % 256) (r / 65536 % 256) (r / 16777216 % 256) = r := by
  unfold u32FromLeBytes
  omega

/-- Decoding the encoding of a well-formed non-`Show` command: the encoding
starts with an opcode byte that stops the scan, and `decode_command` returns
the command back, consuming exactly its bytes, regardless of what follows. -/
theorem decodeCommand_encode (h : Header) (c : Command (List Nat) Nat) (ext : List Nat)
    (hwf : wfCmd h c = true) (hns : isShowCmd c = false) :
    write.encodeCommand c ≠ [] ∧
    isStopByte ((write.encodeCommand c).headD 0) = true ∧
    read.decodeCommand h ((write.encodeCommand c).headD 0)
        ((write.encodeCommand c).tail ++ ext) = .ok (c, (write.encodeCommand c).tail.length) := by
  match c with
  | .nop =>
    exact ⟨by simp [write.encodeCommand], by rfl,
      by simp [read.decodeCommand, write.encodeCommand]⟩
  | .htab =>
    exact ⟨by simp [write.encodeCommand], by rfl,
      by simp [read.decodeCommand, write.encodeCommand]⟩
  | .lineBreak =>
    exact ⟨by simp [write.encodeCommand], by rfl,
      by simp [read.decodeCommand, write.encodeCommand]⟩
  | .vtab =>
    exact ⟨by simp [write.encodeCommand], by rfl,
      by simp [read.decodeCommand, write.encodeCommand]⟩
  | .pageBreak =>
    exact ⟨by simp [write.encodeCommand], by rfl,
      by simp [read.decodeCommand, write.encodeCommand]⟩
  | .end_ => simp [wfCmd] at hwf
  | .show s => simp [isShowCmd] at hns
  | .advance dx =>
    unfold wfCmd at hwf
    simp only [decide_eq_true_eq] at hwf
    refine ⟨by simp [write.encodeCommand], by rfl, ?_⟩
    show read.decodeCommand h 0x81 (leb128.write dx ++ ext) = _
    unfold read.decodeCommand
    rw [read.lebU_write dx ext (by omega)]
    simp only [bind, Except.bind, read.tryIntoU16, if_pos hwf]
    simp only [Except.ok.injEq, Prod.mk.injEq, write.encodeCommand, List.length_append,
      List.length_cons, List.tail_cons]
    exact ⟨trivial, by omega⟩
  | .setCursor x y =>
    unfold wfCmd at hwf
    simp only [Bool.and_eq_true, decide_eq_true_eq] at hwf
    refine ⟨by simp [write.encodeCommand], by rfl, ?_⟩
    show read.decodeCommand h 0x82 ((leb128.write x ++ leb128.write y) ++ ext) = _
    unfold read.decodeCommand
    rw [List.append_assoc]
    rw [read.lebU_write x _ (by omega)]
    simp only [bind, Except.bind, read.tryIntoU16, if_pos hwf.1]
    rw [read.lebU_write y _ (by omega)]
    simp only [bind, Except.bind, if_pos hwf.2]
    simp only [Except.ok.injEq, Prod.mk.injEq, write.encodeCommand, List.length_append,
      List.length_cons, List.tail_cons]
    exact ⟨trivial, by omega⟩
  | .setStyle s =>
    unfold wfCmd at hwf
    simp only [Bool.and_eq_true, decide_eq_true_eq] at hwf
    refine ⟨by simp [write.encodeCommand], by rfl, ?_⟩
    show read.decodeCommand h 0x83 (leb128.write s ++ ext) = _
    unfold read.decodeCommand
    rw [read.lebU_write s ext (by omega)]
    simp only [bind, Except.bind, read.tryIntoU16, if_pos hwf.1,
      if_neg (by omega : ¬h.styles.length ≤ s)]
    simp only [Except.ok.injEq, Prod.mk.injEq, write.encodeCommand, List.length_append,
      List.length_cons, List.tail_cons]
    exact ⟨trivial, by omega⟩
  | .setAdjustmentRatio r =>
    unfold wfCmd at hwf
    simp only [decide_eq_true_eq] at hwf
    refine ⟨by simp [write.encodeCommand], by rfl, ?_⟩
    show read.decodeCommand h 0x84 (u32ToLeBytes r ++ ext) = _
    unfold u32ToLeBytes
    unfold read.decodeCommand
    simp only [List.cons_append, List.nil_append]
    rw [u32FromLe_toLe r hwf]
    simp [write.encodeCommand, u32ToLeBytes]
  | .setLineMetrics a b =>
    unfold wfCmd at hwf
    simp only [Bool.and_eq_true, decide_eq_true_eq] at hwf
    refine ⟨by simp [write.encodeCommand], by rfl, ?_⟩
    show read.decodeCommand h 0x85 ((leb128.write a ++ leb128.write b) ++ ext) = _
    unfold read.decodeCommand
    rw [List.append_assoc]
    rw [read.lebU_write a _ (by omega)]
    simp only [bind, Except.bind, read.tryIntoU16, if_pos hwf.1]
    rw [read.lebU_write b _ (by omega)]
    simp only [bind, Except.bind, if_pos hwf.2]
    simp only [Except.ok.injEq, Prod.mk.injEq, write.encodeCommand, List.length_append,
      List.length_cons, List.tail_cons]
    exact ⟨trivial, by omega⟩

/-- A well-formed command is not a stream terminator. -/
theorem wfCmd_not_term {h : Header} {c : Command (List Nat) Nat}
    (hwf : wfCmd h c = true) : ¬(c = .pageBreak ∨ c = .end_) := by
  rintro (rfl | rfl) <;> simp [wfCmd] at hwf

/-- `noAdjShow` restricts to the tail. -/
theorem noAdjShow_tail {c : Command (List Nat) Nat} {rest : List (Command (List Nat) Nat)}
    (hn : noAdjShow (c :: rest) = true) : noAdjShow rest = true := by
  match rest with
  | [] => rfl
  | c2 :: r2 =>
    unfold noAdjShow at hn
    exact (Bool.and_eq_true _ _ |>.mp hn).2

/-- In a list with no adjacent `Show`s, the command after a `Show` is not a
`Show`. -/
theorem noAdjShow_after_show {s : List Nat} {c2 : Command (List Nat) Nat}
    {r2 : List (Command (List Nat) Nat)}
    (hn : noAdjShow (.show s :: c2 :: r2) = true) : isShowCmd c2 = false := by
  unfold noAdjShow at hn
  have h1 := (Bool.and_eq_true _ _ |>.mp hn).1
  simp only [isShowCmd, Bool.not_eq_true', Bool.and_eq_false_iff] at h1 ⊢
  rcases h1 with h1 | h1
  · exact absurd h1 (by simp)
  · exact h1

/-- The bytes following a show-run in an encoded page start with a stop byte
(the next command's opcode, or the terminator). -/
theorem stopsAt_encodeCmds {h : Header} {rest : List (Command (List Nat) Nat)}
    (hwf : ∀ c ∈ rest, wfCmd h c = true)
    (hhead : ∀ c r2, rest = c :: r2 → isShowCmd c = false) :
    stopsAt (write.encodeCmds rest ++ [0xbf]) = true := by
  match rest with
  | [] => rfl
  | c :: r2 =>
    have hwfc := hwf c (List.mem_cons_self _ _)
    have hns := hhead c r2 rfl
    obtain ⟨hne, hstop, _⟩ := decodeCommand_encode h c [] hwfc hns
    show stopsAt ((write.encodeCommand c ++ write.encodeCmds r2) ++ [0xbf]) = true
    match hec : write.encodeCommand c with
    | [] => exact absurd hec hne
    | code :: ops =>
      rw [hec] at hstop
      simpa [stopsAt] using hstop

/-- One non-`Show` command step of the `read::page` loop over encoded bytes:
the command is decoded, pushed, and the loop proceeds past its bytes. -/
theorem pageGo_cmd_step (h : Header) (acc : List (Command (List Nat) Nat))
    (c : Command (List Nat) Nat) (next : List Nat)
    (hwf : wfCmd h c = true) (hns : isShowCmd c = false) :
    read.pageGo h (write.encodeCommand c ++ next) acc =
      read.pageGo h next (acc ++ [c]) := by
  obtain ⟨hne, hstop, hdec⟩ := decodeCommand_encode h c next hwf hns
  match hec : write.encodeCommand c with
  | [] => exact absurd hec hne
  | code :: ops =>
    rw [hec] at hstop hdec
    simp only [List.headD_cons, List.tail_cons] at hstop hdec
    rw [List.cons_append]
    rw [read.pageGo_step h (code :: (ops ++ next)) acc 0 (by simp)
      (scan_stop hstop) (by simp) (Or.inl rfl)]
    simp only [if_pos rfl, List.drop_zero]
    rw [dif_neg (by simp)]
    simp only [hdec]
    rw [if_neg (wfCmd_not_term hwf)]
    congr 1
    have harith : (0 : Nat) + (ops.length + 1) = (code :: ops).length := by simp
    rw [harith, show code :: (ops ++ next) = (code :: ops) ++ next from rfl]
    exact List.drop_left _ _

/-- One `Show`-run step of the `read::page` loop: the run is scanned, pushed
as one `Show` command, and the loop proceeds with the following bytes (whose
first byte stops the scan). -/
theorem pageGo_show_step (h : Header) (acc : List (Command (List Nat) Nat))
    (s next : List Nat) (hst : showTextB s = true) (hne : s ≠ [])
    (hstop : stopsAt next = true) (hnext : next ≠ []) :
    read.pageGo h (s ++ next) acc = read.pageGo h next (acc ++ [.show s]) := by
  have hslen : s.length ≠ 0 := fun h0 => hne (List.length_eq_zero.mp h0)
  have hsne : s ++ next ≠ [] := by
    intro h0
    exact hne (List.append_eq_nil.mp h0).1
  match hn : next with
  | b :: tail =>
  have hbstop : isStopByte b = true := by simpa [stopsAt] using hstop
  rw [read.pageGo_step h (s ++ b :: tail) acc s.length hsne
    (scan_run hst (by simpa [stopsAt] using hstop))
    (by simp) (Or.inr (by rw [List.take_left]; exact validUtf8_of_showTextB hst))]
  rw [read.pageGo_step h (b :: tail) (acc ++ [Command.show s]) 0 (by simp)
    (scan_stop hbstop) (by simp) (Or.inl rfl)]
  simp only [if_neg hslen, if_pos rfl, List.take_left, List.drop_zero]
  rw [dif_neg (by simp [List.length_append]), dif_neg (by simp)]
  rw [show (s ++ b :: tail).drop s.length = b :: tail from List.drop_left _ _]
  simp only [Nat.zero_add]
  cases hdec : read.decodeCommand h b tail with
  | error e => rfl
  | ok p =>
    match p with
    | (cmd, len) =>
      simp only
      by_cases hterm : cmd = Command.pageBreak ∨ cmd = Command.end_
      · rw [if_pos hterm, if_pos hterm]
        simp
      · rw [if_neg hterm, if_neg hterm]
        rw [List.drop_append (len + 1)]
        simp

/-- The terminator step: a `0xBF` byte ends the page with an `End` command,
ignoring everything after it. -/
theorem pageGo_term (h : Header) (acc : List (Command (List Nat) Nat)) (tail : List Nat) :
    read.pageGo h (0xbf :: tail) acc = .ok (acc ++ [.end_]) := by
  rw [read.pageGo_step h (0xbf :: tail) acc 0 (by simp) (scan_stop (by rfl))
    (by simp) (Or.inl rfl)]
  simp only [if_pos rfl, List.drop_zero]
  rw [dif_neg (by simp)]
  rw [show read.decodeCommand h 0xbf tail = .ok (.end_, 0) from rfl]
  simp

/-- The `read::page` loop decodes an encoded, canonical, well-formed command
list back to itself (with the terminating `End` appended), independent of the
accumulator. -/
theorem pageGo_encodeCmds (h : Header) (cs : List (Command (List Nat) Nat))
    (acc : List (Command (List Nat) Nat))
    (hwf : ∀ c ∈ cs, wfCmd h c = true) (hadj : noAdjShow cs = true) :
    read.pageGo h (write.encodeCmds cs ++ [0xbf]) acc = .ok (acc ++ cs ++ [.end_]) := by
  suffices H : ∀ (n : Nat) (cs : List (Command (List Nat) Nat))
      (acc : List (Command (List Nat) Nat)), cs.length ≤ n →
      (∀ c ∈ cs, wfCmd h c = true) → noAdjShow cs = true →
      read.pageGo h (write.encodeCmds cs ++ [0xbf]) acc = .ok (acc ++ cs ++ [.end_]) from
    H cs.length cs acc le_rfl hwf hadj
  intro n
  induction n with
  | zero =>
    intro cs acc hlen _ _
    match cs with
    | [] => simpa using pageGo_term h acc []
    | _ :: _ => simp at hlen
  | succ n ih =>
    intro cs acc hlen hwf hadj
    match cs with
    | [] => simpa using pageGo_term h acc []
    | c :: rest =>
      have hwfc : wfCmd h c = true := hwf c (List.mem_cons_self _ _)
      have hwfr : ∀ d ∈ rest, wfCmd h d = true :=
        fun d hd => hwf d (List.mem_cons_of_mem _ hd)
      have hadjr : noAdjShow rest = true := noAdjShow_tail hadj
      have hlenr : rest.length ≤ n := by simp at hlen; omega
      have hbytes : write.encodeCmds (c :: rest) ++ [0xbf] =
          write.encodeCommand c ++ (write.encodeCmds rest ++ [0xbf]) := by
        simp [write.encodeCmds]
      by_cases hshow : isShowCmd c = true
      · match c, hshow with
        | .show s, _ =>
          have hwfs := hwfc
          unfold wfCmd at hwfs
          simp only [Bool.and_eq_true, Bool.not_eq_true', List.isEmpty_eq_false] at hwfs
          have hstop : stopsAt (write.encodeCmds rest ++ [0xbf]) = true :=
            stopsAt_encodeCmds hwfr (by
              intro d r2 hr
              subst hr
              exact noAdjShow_after_show hadj)
          have hnext : write.encodeCmds rest ++ [0xbf] ≠ [] := by simp
          rw [hbytes, show write.encodeCommand (Command.show s) = s from rfl]
          rw [pageGo_show_step h acc s _ hwfs.2 hwfs.1 hstop hnext]
          rw [ih rest (acc ++ [Command.show s]) hlenr hwfr hadjr]
          simp
      · rw [hbytes, pageGo_cmd_step h acc c _ hwfc (by simpa using hshow)]
        rw [ih rest (acc ++ [c]) hlenr hwfr hadjr]
        simp

/-- `read_string` decodes `encode_string`'s output, leaving the rest. -/
theorem readString_encode (s ext : List Nat) (hlen : s.length < 2 ^ 32)
    (hval : validUtf8 s = true) :
    read.readString (write.encodeString s ++ ext) = .ok (s, ext) := by
  unfold write.encodeString read.readString
  rw [List.append_assoc, read.lebU_write s.length _ (by omega)]
  simp only [bind, Except.bind, read.tryIntoU32, if_pos hlen]
  rw [if_pos (by simp : s.length ≤ (s ++ ext).length)]
  rw [List.take_left, List.drop_left, if_pos hval]

/-- `read_style` decodes `encode_style`'s output. -/
theorem readStyle_encode (st : Style) (ext : List Nat) (hwf : wfStyle st = true) :
    read.readStyle (write.encodeStyle st ++ ext) = .ok (st, ext) := by
  unfold wfStyle at hwf
  simp only [Bool.and_eq_true, decide_eq_true_eq] at hwf
  unfold write.encodeStyle read.readStyle
  rw [List.append_assoc, readString_encode st.font_name _ hwf.1.1 hwf.1.2]
  simp only [bind, Except.bind]
  rw [read.lebU_write st.em_px ext (by have := hwf.2; omega)]
  simp only [bind, Except.bind, read.tryIntoU16, if_pos hwf.2]

/-- The style-table loop decodes the encoded styles. -/
theorem readStyles_encode (styles : List Style) (ext : List Nat)
    (hwf : ∀ st ∈ styles, wfStyle st = true) :
    read.readStyles styles.length ((styles.map write.encodeStyle).flatten ++ ext) =
      .ok (styles, ext) := by
  induction styles with
  | nil => rfl
  | cons st rest ih =>
    show read.readStyles (rest.length + 1)
        ((write.encodeStyle st ++ (rest.map write.encodeStyle).flatten) ++ ext) = _
    unfold read.readStyles
    rw [List.append_assoc, readStyle_encode st _ (hwf st (List.mem_cons_self _ _))]
    simp only [bind, Except.bind]
    rw [ih (fun d hd => hwf d (List.mem_cons_of_mem _ hd))]

/-- `read::header` decodes `encode_header`'s output, leaving the rest of the
stream untouched. -/
theorem header_encode (h : Header) (ext : List Nat) (hwf : wfHeader h = true) :
    read.header (write.encodeHeader h ++ ext) = .ok (h, ext) := by
  unfold wfHeader at hwf
  simp only [Bool.and_eq_true, decide_eq_true_eq, List.all_eq_true] at hwf
  unfold write.encodeHeader read.header
  rw [List.append_assoc, List.append_assoc]
  have htake : (write.magic ++ (leb128.write h.styles.length ++
      ((h.styles.map write.encodeStyle).flatten ++ ext))).take 4 = write.magic := by
    rw [show (4 : Nat) = write.magic.length from rfl]
    exact List.take_left _ _
  have hdrop : (write.magic ++ (leb128.write h.styles.length ++
      ((h.styles.map write.encodeStyle).flatten ++ ext))).drop 4 =
      leb128.write h.styles.length ++ ((h.styles.map write.encodeStyle).flatten ++ ext) := by
    rw [show (4 : Nat) = write.magic.length from rfl]
    exact List.drop_left _ _
  rw [if_neg (by simp [write.magic])]
  rw [htake]
  rw [if_neg (by intro hmag; exact hmag rfl)]
  rw [hdrop]
  rw [read.lebU_write h.styles.length _ (by omega)]
  simp only [bind, Except.bind, read.tryIntoU32, if_pos hwf.1]
  rw [readStyles_encode h.styles ext (fun st hst => hwf.2 st hst)]

/-- `wrapI32` is the identity on the `i32` range. -/
theorem wrapI32_eq_self {v : Int} (h1 : -(2 ^ 31) ≤ v) (h2 : v < 2 ^ 31) :
    wrapI32 v = v := by
  unfold wrapI32
  omega

/-- `i32` little-endian byte round trip. -/
theorem i32FromLe_toLe (v : Int) (h1 : -(2 ^ 31) ≤ v) (h2 : v < 2 ^ 31) :
    i32FromLeBytes ((i32ToLeBytes v).getD 0 0) ((i32ToLeBytes v).getD 1 0)
      ((i32ToLeBytes v).getD 2 0) ((i32ToLeBytes v).getD 3 0) = v := by
  unfold i32ToLeBytes u32ToLeBytes i32FromLeBytes u32FromLeBytes
  simp only [List.getD_cons_zero, List.getD_cons_succ]
  omega

/-- The trailer's LEB128 portion of `encode_trailer`, without the
back-pointer. -/
def trailerBody (pages : List Nat) : List Nat :=
  leb128.write pages.length ++ (pages.map leb128.write).flatten

/-- When the LEB128 portion is small enough for the `usize → i32` cast to be
exact, `encode_trailer` appends the little-endian bytes of minus its
length. -/
theorem encodeTrailer_eq (pages : List Nat)
    (hb : ((trailerBody pages).length : Int) < 2 ^ 31) :
    write.encodeTrailer pages =
      trailerBody pages ++ i32ToLeBytes (-((trailerBody pages).length : Int)) := by
  show trailerBody pages ++
      i32ToLeBytes (wrapI32 (-(wrapI32 ((trailerBody pages).length : Int)))) =
    trailerBody pages ++ i32ToLeBytes (-((trailerBody pages).length : Int))
  rw [wrapI32_eq_self (by omega) hb, wrapI32_eq_self (by omega) (by omega)]

/-- `seek_trailer` on a stream that ends with a body and the little-endian
`i32` bytes of minus the body's length: it succeeds and lands exactly at the
start of the body. -/
theorem seekTrailer_append (pre body : List Nat)
    (hlen : (body.length : Int) + 4 < 2 ^ 31) :
    read.seekTrailer ((pre ++ body) ++ i32ToLeBytes (-(body.length : Int))) =
      .ok (pre.length : Int) := by
  have hback : (i32ToLeBytes (-(body.length : Int))).length = 4 := by
    unfold i32ToLeBytes u32ToLeBytes
    rfl
  have htotal : ((pre ++ body) ++ i32ToLeBytes (-(body.length : Int))).length =
      pre.length + body.length + 4 := by
    simp only [List.length_append, hback]
  simp only [read.seekTrailer]
  rw [htotal]
  rw [if_neg (by omega)]
  rw [show pre.length + body.length + 4 - 4 = (pre ++ body).length from by simp]
  rw [List.drop_left]
  rw [i32FromLe_toLe (-(body.length : Int)) (by omega) (by omega)]
  rw [wrapI32_eq_self (by omega) (by omega)]
  rw [if_neg (by omega)]
  rw [if_neg (by push_cast; omega)]
  congr 1
  push_cast
  ring

/-- The document byte stream of the empty document over an empty style
table: magic, a zero style count, the `End` terminator as the lone page byte,
and the trailer (one page, offset 5, back-pointer −2). -/
theorem doc_empty_eq :
    write.doc ⟨[]⟩ ([] : List (Command (List Nat) Nat)) =
      [0x0e, 0xdf, 0x01, 0x00, 0x00, 0xbf, 0x01, 0x05, 0xfe, 0xff, 0xff, 0xff] := by
  have w0 : leb128.write 0 = [0] := leb128.write_small (by norm_num)
  have w1 : leb128.write 1 = [1] := leb128.write_small (by norm_num)
  have w5 : leb128.write 5 = [5] := leb128.write_small (by norm_num)
  have hhb : write.encodeHeader ⟨[]⟩ = [0x0e, 0xdf, 0x01, 0x00, 0x00] := by
    simp [write.encodeHeader, write.magic, w0]
  rw [write.doc_decompose, hhb]
  have hoffs : (write.encodePages ([0x0e, 0xdf, 0x01, 0x00, 0x00] : List Nat).length
      ([] : List (Command (List Nat) Nat))).1 = [5] := by
    norm_num [write.encodePages, write.encodePagesGo]
  rw [hoffs]
  have hbody : trailerBody [5] = [1, 5] := by
    simp [trailerBody, w1, w5]
  rw [encodeTrailer_eq [5] (by rw [hbody]; norm_num), hbody]
  decide

/-- The "regular" header of the empty-document scenario. -/
def regHeader : Header :=
  ⟨[⟨[0x72, 0x65, 0x67, 0x75, 0x6c, 0x61, 0x72], 24⟩]⟩

/-- The document byte stream of the empty document over the single style
("regular", 24): magic, the style table `01 07 72 65 67 75 6C 61 72 18`, the
`End` terminator byte `BF` as the lone page byte, and the trailer
`01 0E FE FF FF FF` (one page at offset 14, back-pointer −2). -/
theorem doc_regular_eq :
    write.doc regHeader ([] : List (Command (List Nat) Nat)) =
      [0x0e, 0xdf, 0x01, 0x00,
       0x01, 0x07, 0x72, 0x65, 0x67, 0x75, 0x6c, 0x61, 0x72, 0x18,
       0xbf,
       0x01, 0x0e, 0xfe, 0xff, 0xff, 0xff] := by
  have w1 : leb128.write 1 = [1] := leb128.write_small (by norm_num)
  have w7 : leb128.write 7 = [7] := leb128.write_small (by norm_num)
  have w14 : leb128.write 14 = [14] := leb128.write_small (by norm_num)
  have w24 : leb128.write 24 = [24] := leb128.write_small (by norm_num)
  have hhb : write.encodeHeader regHeader =
      [0x0e, 0xdf, 0x01, 0x00, 0x01, 0x07, 0x72, 0x65, 0x67, 0x75, 0x6c, 0x61,
       0x72, 0x18] := by
    simp [write.encodeHeader, write.magic, regHeader, write.encodeStyle,
      write.encodeString, w1, w7, w24]
  rw [write.doc_decompose, hhb]
  have hoffs : (write.encodePages
      ([0x0e, 0xdf, 0x01, 0x00, 0x01, 0x07, 0x72, 0x65, 0x67, 0x75, 0x6c, 0x61,
        0x72, 0x18] : List Nat).length ([] : List (Command (List Nat) Nat))).1 =
      [14] := by
    norm_num [write.encodePages, write.encodePagesGo]
  rw [hoffs]
  have hbody : trailerBody [14] = [1, 14] := by
    simp [trailerBody, w1, w14]
  rw [encodeTrailer_eq [14] (by rw [hbody]; norm_num), hbody]
  decide

/-- The bytes fetched by `seek_trailer`'s first read, decoded as a
little-endian `i32`: the value stored in the file's final four bytes. -/
def storedBackPtr (file : List Nat) : Int :=
  let t := file.drop (file.length - 4)
  i32FromLeBytes (t.getD 0 0) (t.getD 1 0) (t.getD 2 0) (t.getD 3 0)

/-- `getD` of a list of bytes is a byte. -/
theorem getD_lt_256 (l : List Nat) (hl : ∀ b ∈ l, b < 256) (i : Nat) :
    l.getD i 0 < 256 := by
  by_cases h : i < l.length
  · rw [List.getD_eq_getElem l 0 h]
    exact hl _ (l.getElem_mem h)
  · rw [List.getD_eq_default l 0 (le_of_not_lt h)]
    norm_num

/-- In a stream of bytes the stored back-pointer is in `i32` range. -/
theorem storedBackPtr_bounds (file : List Nat) (hbytes : ∀ b ∈ file, b < 256) :
    -(2 ^ 31) ≤ storedBackPtr file ∧ storedBackPtr file < 2 ^ 31 := by
  have hmem : ∀ b ∈ file.drop (file.length - 4), b < 256 :=
    fun b hb => hbytes b (List.mem_of_mem_drop hb)
  have h0 := getD_lt_256 _ hmem 0
  have h1 := getD_lt_256 _ hmem 1
  have h2 := getD_lt_256 _ hmem 2
  have h3 := getD_lt_256 _ hmem 3
  simp only [storedBackPtr, i32FromLeBytes, u32FromLeBytes]
  split
  · constructor <;> omega
  · constructor <;> omega

/-- `seek_trailer` on a stream of at least four bytes, phrased through the
stored back-pointer value. -/
theorem seekTrailer_eq_general (file : List Nat) (h4 : 4 ≤ file.length) :
    read.seekTrailer file =
      if 0 ≤ wrapI32 (storedBackPtr file - 4) then .error .invalidEncoding
      else if (file.length : Int) + wrapI32 (storedBackPtr file - 4) < 0 then
        .error .ioError
      else .ok ((file.length : Int) + wrapI32 (storedBackPtr file - 4)) := by
  simp only [read.seekTrailer, storedBackPtr]
  rw [if_neg (by omega)]

/-- `write::encode_header` of the empty style table. -/
theorem encodeHeader_empty :
    write.encodeHeader ⟨[]⟩ = [0x0e, 0xdf, 0x01, 0x00, 0x00] := by
  have w0 : leb128.write 0 = [0] := leb128.write_small (by norm_num)
  simp [write.encodeHeader, write.magic, w0]

/-- The page-offset table of the empty document over the empty header: one
page, starting right after the five header bytes. -/
theorem offs_empty :
    (write.encodePages (write.encodeHeader (⟨[]⟩ : Header)).length
      ([] : List (Command (List Nat) Nat))).1 = [5] := by
  rw [encodeHeader_empty]
  norm_num [write.encodePages, write.encodePagesGo]

/-- The LEB128 portion of the empty document's trailer. -/
theorem trailerBody_empty :
    trailerBody (write.encodePages (write.encodeHeader (⟨[]⟩ : Header)).length
      ([] : List (Command (List Nat) Nat))).1 = [1, 5] := by
  have w1 : leb128.write 1 = [1] := leb128.write_small (by norm_num)
  have w5 : leb128.write 5 = [5] := leb128.write_small (by norm_num)
  rw [offs_empty]
  simp [trailerBody, w1, w5]

/-- **C1** (corrected).  For a well-formed header and a command list whose
entries survive the wire format — no `PageBreak` or `End`, `Show` runs
non-empty printable text, operands in range — `read::header` on the bytes of
`write::doc h cs` recovers `h` exactly, and `read::page` on the page bytes
recovers `canon cs`, the list after one fusion pass over adjacent `Show`
commands, **with a terminating `End` command appended**: the decoder emits
the command it stopped at, so even the empty list decodes to `[End]` rather
than to itself. -/
theorem claim1_roundtrip (h : Header) (cs : List (Command (List Nat) Nat))
    (hh : wfHeader h = true) (hc : ∀ c ∈ cs, wfCmd h c = true) :
    read.header (write.doc h cs) =
      .ok (h, (write.encodeCmds cs ++ [0xbf]) ++
        write.encodeTrailer (write.encodePages (write.encodeHeader h).length cs).1) ∧
    read.page h (write.encodeCmds cs ++ [0xbf]) =
      .ok (canon cs ++ [Command.end_]) := by
  constructor
  · rw [write.doc_decompose, List.append_assoc]
    exact header_encode h _ hh
  · rw [show read.page h (write.encodeCmds cs ++ [0xbf]) =
      read.pageGo h (write.encodeCmds cs ++ [0xbf]) [] from rfl]
    rw [← encodeCmds_canon]
    simpa using pageGo_encodeCmds h (canon cs) [] (wfCmd_canon h cs hc)
      (noAdjShow_canon cs)

/-- **C1, witness**: the round-trip instantiated at the "regular" header and
the commands `[Show "ab", LineBreak, Show "c"]`. -/
theorem claim1_roundtrip_witness :
    (wfHeader regHeader = true ∧
      ∀ c ∈ ([.show [0x61, 0x62], .lineBreak, .show [0x63]] :
        List (Command (List Nat) Nat)), wfCmd regHeader c = true) ∧
    (read.header (write.doc regHeader
        [.show [0x61, 0x62], .lineBreak, .show [0x63]]) =
      .ok (regHeader,
        (write.encodeCmds [.show [0x61, 0x62], .lineBreak, .show [0x63]] ++ [0xbf]) ++
          write.encodeTrailer (write.encodePages (write.encodeHeader regHeader).length
            [.show [0x61, 0x62], .lineBreak, .show [0x63]]).1) ∧
    read.page regHeader
        (write.encodeCmds [.show [0x61, 0x62], .lineBreak, .show [0x63]] ++ [0xbf]) =
      .ok (canon [.show [0x61, 0x62], .lineBreak, .show [0x63]] ++ [Command.end_])) :=
  ⟨⟨by decide, by decide⟩,
    claim1_roundtrip regHeader [.show [0x61, 0x62], .lineBreak, .show [0x63]]
      (by decide) (by decide)⟩

/-- **C1, counterexample** to the claim as stated: for the empty command
list over the empty header, the page bytes decode to `[End]`, while one
canonicalisation pass over the input is still the empty list — decoding does
not return "the same command list" even up to `Show` fusion. -/
theorem claim1_counterexample :
    read.header (write.doc ⟨[]⟩ ([] : List (Command (List Nat) Nat))) =
      .ok (⟨[]⟩, [0xbf, 0x01, 0x05, 0xfe, 0xff, 0xff, 0xff]) ∧
    read.page ⟨[]⟩ [0xbf] = .ok [Command.end_] ∧
    canon ([] : List (Command (List Nat) Nat)) = [] ∧
    ([Command.end_] : List (Command (List Nat) Nat)) ≠ [] := by
  refine ⟨?_, ?_, rfl, by simp⟩
  · rw [doc_empty_eq]
    rfl
  · simpa using pageGo_term ⟨[]⟩ [] []

/-- **C2** (corrected).  The final four bytes of `write::doc h cs` store, as
a little-endian `i32`, the negation of the length of the trailer's LEB128
portion (the `n_pages` field plus the page offsets) — **not** the negation of
the total trailer size, which is four bytes larger because it includes the
back-pointer itself.  End-of-file plus the stored value therefore lands four
bytes *past* the start of `n_pages`; `seek_trailer` compensates by
subtracting an extra 4 before seeking, and so still lands on the first byte
of `n_pages`. -/
theorem claim2_back_pointer (h : Header) (cs : List (Command (List Nat) Nat))
    (hsize : ((trailerBody
      (write.encodePages (write.encodeHeader h).length cs).1).length : Int) + 4 <
        2 ^ 31) :
    write.doc h cs =
      (write.encodeHeader h ++ (write.encodeCmds cs ++ [0xbf]) ++
        trailerBody (write.encodePages (write.encodeHeader h).length cs).1) ++
      i32ToLeBytes (-((trailerBody
        (write.encodePages (write.encodeHeader h).length cs).1).length : Int)) ∧
    read.seekTrailer (write.doc h cs) =
      .ok (((write.encodeHeader h ++ (write.encodeCmds cs ++ [0xbf])).length : Int)) := by
  have hdoc : write.doc h cs =
      ((write.encodeHeader h ++ (write.encodeCmds cs ++ [0xbf])) ++
        trailerBody (write.encodePages (write.encodeHeader h).length cs).1) ++
      i32ToLeBytes (-((trailerBody
        (write.encodePages (write.encodeHeader h).length cs).1).length : Int)) := by
    rw [write.doc_decompose, encodeTrailer_eq _ (by omega)]
    simp [List.append_assoc]
  refine ⟨hdoc, ?_⟩
  rw [hdoc]
  exact seekTrailer_append _ _ hsize

/-- **C2, witness**: the back-pointer relationship instantiated at the empty
document over the empty header. -/
theorem claim2_back_pointer_witness :
    (((trailerBody (write.encodePages (write.encodeHeader (⟨[]⟩ : Header)).length
      ([] : List (Command (List Nat) Nat))).1).length : Int) + 4 < 2 ^ 31) ∧
    (write.doc (⟨[]⟩ : Header) ([] : List (Command (List Nat) Nat)) =
      (write.encodeHeader ⟨[]⟩ ++
        (write.encodeCmds ([] : List (Command (List Nat) Nat)) ++ [0xbf]) ++
        trailerBody (write.encodePages (write.encodeHeader (⟨[]⟩ : Header)).length
          ([] : List (Command (List Nat) Nat))).1) ++
      i32ToLeBytes (-((trailerBody
        (write.encodePages (write.encodeHeader (⟨[]⟩ : Header)).length
          ([] : List (Command (List Nat) Nat))).1).length : Int)) ∧
    read.seekTrailer (write.doc (⟨[]⟩ : Header) ([] : List (Command (List Nat) Nat))) =
      .ok (((write.encodeHeader (⟨[]⟩ : Header) ++
        (write.encodeCmds ([] : List (Command (List Nat) Nat)) ++ [0xbf])).length :
          Int))) := by
  have h1 : ((trailerBody (write.encodePages (write.encodeHeader (⟨[]⟩ : Header)).length
      ([] : List (Command (List Nat) Nat))).1).length : Int) + 4 < 2 ^ 31 := by
    rw [trailerBody_empty]
    norm_num
  exact ⟨h1, claim2_back_pointer ⟨[]⟩ [] h1⟩

/-- **C2, counterexample** to the claim as stated: in the 12-byte empty
document the trailer is the final six bytes (`01 05 FE FF FF FF`, positions
6–11), so the total trailer size is 6 — but the stored back-pointer is −2,
not −6, and end-of-file plus the stored value is position 10 (inside the
back-pointer field itself), not position 6 where `n_pages` starts. -/
theorem claim2_counterexample :
    write.doc ⟨[]⟩ ([] : List (Command (List Nat) Nat)) =
      [0x0e, 0xdf, 0x01, 0x00, 0x00, 0xbf, 0x01, 0x05, 0xfe, 0xff, 0xff, 0xff] ∧
    i32FromLeBytes 0xfe 0xff 0xff 0xff = -2 ∧
    ((-2 : Int) ≠ -6 ∧ (12 : Int) + -2 ≠ 6) :=
  ⟨doc_empty_eq, by decide, by decide, by decide⟩

/-- **C3** (corrected).  Encoding the header with the single style
("regular", 24) and an empty command list yields the magic number, the style
table bytes `01 07 72 65 67 75 6C 61 72 18`, then the single page byte
`0xBF` — the `End` terminator, **not** `0x00` as claimed — and the trailer
`01 0E FE FF FF FF`.  Decoding recovers the one-style header, and decoding
the page yields the `[End]` command list, i.e. a page with no content
commands. -/
theorem claim3_empty_regular_doc :
    write.doc regHeader ([] : List (Command (List Nat) Nat)) =
      write.magic ++ [0x01, 0x07, 0x72, 0x65, 0x67, 0x75, 0x6c, 0x61, 0x72, 0x18] ++
        [0xbf] ++ [0x01, 0x0e, 0xfe, 0xff, 0xff, 0xff] ∧
    read.header (write.doc regHeader ([] : List (Command (List Nat) Nat))) =
      .ok (regHeader, [0xbf, 0x01, 0x0e, 0xfe, 0xff, 0xff, 0xff]) ∧
    read.page regHeader [0xbf] = .ok [Command.end_] := by
  refine ⟨?_, ?_, ?_⟩
  · rw [doc_regular_eq]
    rfl
  · rw [doc_regular_eq]
    rfl
  · simpa using pageGo_term regHeader [] []

/-- **C3, counterexample** to the claim as stated: byte 14 of the encoded
file — the one page byte, right after the 14 header bytes — is the `End`
opcode `0xBF`, not the claimed `0x00` (which is not even a stop byte of the
page decoder). -/
theorem claim3_counterexample :
    (write.doc regHeader ([] : List (Command (List Nat) Nat))).getD 14 0 = 0xbf ∧
    (0xbf : Nat) ≠ 0x00 := by
  refine ⟨?_, by decide⟩
  rw [doc_regular_eq]
  rfl

/-- **C4** (corrected).  `seek_trailer` subtracts 4 from the stored value
before testing the sign, so it rejects (as `InvalidEncoding`) exactly the
files whose stored back-pointer is at least 4 (or wraps below `i32` range
after the subtraction) — the **positive** stored values 1, 2 and 3 are
accepted, contradicting "fails whenever the stored value is positive", and
the target position is end-of-file plus the stored value minus 4. -/
theorem claim4_seek_trailer (file : List Nat) (h4 : 4 ≤ file.length)
    (hbytes : ∀ b ∈ file, b < 256) :
    (4 ≤ storedBackPtr file ∨ storedBackPtr file < -(2 ^ 31) + 4 →
      read.seekTrailer file = .error .invalidEncoding) ∧
    (-(2 ^ 31) + 4 ≤ storedBackPtr file → storedBackPtr file < 4 →
      0 ≤ (file.length : Int) + (storedBackPtr file - 4) →
      read.seekTrailer file = .ok ((file.length : Int) + (storedBackPtr file - 4))) ∧
    (-(2 ^ 31) + 4 ≤ storedBackPtr file → storedBackPtr file < 4 →
      (file.length : Int) + (storedBackPtr file - 4) < 0 →
      read.seekTrailer file = .error .ioError) := by
  obtain ⟨hs1, hs2⟩ := storedBackPtr_bounds file hbytes
  refine ⟨fun hcase => ?_, fun hge hlt hpos => ?_, fun hge hlt hneg => ?_⟩
  · rw [seekTrailer_eq_general file h4]
    rw [if_pos (by simp only [wrapI32]; omega)]
  · rw [seekTrailer_eq_general file h4,
      wrapI32_eq_self (by omega) (by omega), if_neg (by omega), if_neg (by omega)]
  · rw [seekTrailer_eq_general file h4,
      wrapI32_eq_self (by omega) (by omega), if_neg (by omega), if_pos (by omega)]

/-- **C4, witness**: the 8-byte file storing back-pointer 1 — a positive
stored value that `seek_trailer` accepts, landing at position 5. -/
theorem claim4_seek_trailer_witness :
    (4 ≤ ([0, 0, 0, 0, 1, 0, 0, 0] : List Nat).length ∧
      (∀ b ∈ ([0, 0, 0, 0, 1, 0, 0, 0] : List Nat), b < 256)) ∧
    (-(2 ^ 31) + 4 ≤ storedBackPtr [0, 0, 0, 0, 1, 0, 0, 0] ∧
      storedBackPtr [0, 0, 0, 0, 1, 0, 0, 0] < 4 ∧
      0 ≤ (([0, 0, 0, 0, 1, 0, 0, 0] : List Nat).length : Int) +
        (storedBackPtr [0, 0, 0, 0, 1, 0, 0, 0] - 4)) ∧
    read.seekTrailer [0, 0, 0, 0, 1, 0, 0, 0] =
      .ok ((([0, 0, 0, 0, 1, 0, 0, 0] : List Nat).length : Int) +
        (storedBackPtr [0, 0, 0, 0, 1, 0, 0, 0] - 4)) :=
  ⟨⟨by decide, by decide⟩, ⟨by decide, by decide, by decide⟩,
    (claim4_seek_trailer [0, 0, 0, 0, 1, 0, 0, 0] (by decide) (by decide)).2.1
      (by decide) (by decide) (by decide)⟩

/-- **C4, counterexample** to the claim as stated: a file whose final four
bytes store the positive value 1, on which `seek_trailer` nevertheless
succeeds (seeking to position 5) instead of failing. -/
theorem claim4_counterexample :
    storedBackPtr [0, 0, 0, 0, 1, 0, 0, 0] = 1 ∧ (0 : Int) < 1 ∧
    read.seekTrailer [0, 0, 0, 0, 1, 0, 0, 0] = .ok 5 :=
  ⟨by decide, by decide, by rfl⟩

/-! ## Invariants of the `read::page` output -/

/-- Commands at which the `read::page` loop stops: `PageBreak` and `End`. -/
def isTermCmd : Command (List Nat) Nat → Bool
  | .pageBreak => true
  | .end_ => true
  | _ => false

/-- Whether the last element of a command list is a `Show`. -/
def lastIsShow : List (Command (List Nat) Nat) → Bool
  | [] => false
  | [c] => isShowCmd c
  | _ :: c :: rest => lastIsShow (c :: rest)

/-- Whether the last element of a command list is `PageBreak` or `End`. -/
def lastIsTerm : List (Command (List Nat) Nat) → Bool
  | [] => false
  | [c] => isTermCmd c
  | _ :: c :: rest => lastIsTerm (c :: rest)

/-- The per-command payload condition: a `Show` carries non-empty,
valid-UTF-8 text (any other command passes). -/
def showPayloadOk : Command (List Nat) Nat → Bool
  | .show s => !s.isEmpty && validUtf8 s
  | _ => true

/-- Every `Show` in the list carries non-empty, valid-UTF-8 text. -/
def goodShows (l : List (Command (List Nat) Nat)) : Bool :=
  l.all showPayloadOk

theorem lastIsShow_single (c : Command (List Nat) Nat) : lastIsShow [c] = isShowCmd c := by
  rfl

theorem lastIsShow_append (l : List (Command (List Nat) Nat)) (c : Command (List Nat) Nat) :
    lastIsShow (l ++ [c]) = isShowCmd c := by
  induction l with
  | nil => rfl
  | cons d rest ih =>
    cases rest with
    | nil => rfl
    | cons e rest2 => exact ih

theorem lastIsTerm_append (l : List (Command (List Nat) Nat)) (c : Command (List Nat) Nat) :
    lastIsTerm (l ++ [c]) = isTermCmd c := by
  induction l with
  | nil => rfl
  | cons d rest ih =>
    cases rest with
    | nil => rfl
    | cons e rest2 => exact ih

/-- A list whose elements are all non-terminators has a non-terminator (or
no) last element. -/
theorem lastIsTerm_of_all (l : List (Command (List Nat) Nat))
    (h : l.all (fun c => !isTermCmd c) = true) : lastIsTerm l = false := by
  induction l with
  | nil => rfl
  | cons d rest ih =>
    simp only [List.all_cons, Bool.and_eq_true] at h
    cases rest with
    | nil =>
      show isTermCmd d = false
      simpa using h.1
    | cons e rest2 =>
      show lastIsTerm (e :: rest2) = false
      exact ih h.2

/-- Appending a command whose neighbour situation is safe preserves the
no-adjacent-`Show` property. -/
theorem noAdjShow_append (l : List (Command (List Nat) Nat)) (c : Command (List Nat) Nat)
    (hadj : noAdjShow l = true) (h : lastIsShow l = false ∨ isShowCmd c = false) :
    noAdjShow (l ++ [c]) = true := by
  induction l with
  | nil => rfl
  | cons d rest ih =>
    cases rest with
    | nil =>
      refine noAdjShow_cons2 d c [] ?_ rfl
      rcases h with h | h
      · exact Or.inl (by rwa [lastIsShow_single] at h)
      · exact Or.inr h
    | cons e rest2 =>
      simp only [List.cons_append]
      have hfst : isShowCmd d = false ∨ isShowCmd e = false := by
        unfold noAdjShow at hadj
        cases hd : isShowCmd d
        · exact Or.inl rfl
        · cases he : isShowCmd e
          · exact Or.inr rfl
          · rw [hd, he] at hadj
            simp at hadj
      exact noAdjShow_cons2 d e (rest2 ++ [c]) hfst (ih (noAdjShow_tail hadj) h)
theorem goodShows_append (l : List (Command (List Nat) Nat)) (c : Command (List Nat) Nat)
    (hl : goodShows l = true) (hc : showPayloadOk c = true) :
    goodShows (l ++ [c]) = true := by
  unfold goodShows at hl ⊢
  rw [List.all_append, hl]
  simpa using hc

/-- A scan that stops strictly inside the slice stops at the same place when
more bytes follow. -/
theorem scanAux_append (ext : List Nat) :
    ∀ (bs : List Nat) (i j : Nat), scanAux bs i = some j → j < i + bs.length →
      scanAux (bs ++ ext) i = some j := by
  suffices H : ∀ (n : Nat) (bs : List Nat), bs.length ≤ n → ∀ (i j : Nat),
      scanAux bs i = some j → j < i + bs.length → scanAux (bs ++ ext) i = some j from
    fun bs i j h hj => H bs.length bs le_rfl i j h hj
  intro n
  induction n with
  | zero =>
    intro bs hn i j h hj
    rw [List.length_eq_zero.mp (Nat.le_zero.mp hn)] at h hj
    simp only [List.length_nil, Nat.add_zero] at hj
    simp [scanAux] at h
    omega
  | succ n ih =>
    intro bs hn i j h hj
    match bs with
    | [] =>
      simp only [List.length_nil, Nat.add_zero] at hj
      simp [scanAux] at h
      omega
    | b :: rest =>
      rw [scanAux] at h
      rw [List.cons_append, scanAux]
      split at h
      · rename_i hstop
        rw [if_pos hstop]
        exact h
      · rename_i hstop
        rw [if_neg hstop]
        split at h
        · exact absurd h (by simp)
        · rename_i hw
          rw [if_neg hw]
          by_cases hrest : utf8CharWidth b - 1 ≤ rest.length
          · rw [List.drop_append_of_le_length hrest]
            refine ih _ ?_ _ _ h ?_
            · simp only [List.length_drop]
              simp only [List.length_cons] at hn
              omega
            · simp only [List.length_drop]
              simp only [List.length_cons] at hj
              omega
          · exfalso
            rw [List.drop_eq_nil_of_le (by omega)] at h
            rw [scanAux] at h
            simp only [Option.some.injEq] at h
            simp only [List.length_cons] at hj
            omega

/-- A successful mapped LEB128 read is append-stable. -/
theorem lebU_append {bytes : List Nat} {v : Nat} {rest : List Nat}
    (h : read.lebU bytes = .ok (v, rest)) (ext : List Nat) :
    read.lebU (bytes ++ ext) = .ok (v, rest ++ ext) := by
  unfold read.lebU at h ⊢
  cases hr : leb128.read bytes with
  | ok x =>
    rw [hr] at h
    obtain ⟨a, b⟩ := x
    simp only [Except.ok.injEq, Prod.mk.injEq] at h
    obtain ⟨h1, h2⟩ := h
    subst h1 h2
    rw [leb128.read_append hr ext]
  | error e =>
    rw [hr] at h
    simp at h

/-- A successful mapped LEB128 read consumes at least one byte. -/
theorem lebU_consumes {bytes : List Nat} {v : Nat} {rest : List Nat}
    (h : read.lebU bytes = .ok (v, rest)) : rest.length < bytes.length := by
  unfold read.lebU at h
  cases hr : leb128.read bytes with
  | ok x =>
    rw [hr] at h
    obtain ⟨a, b⟩ := x
    simp only [Except.ok.injEq, Prod.mk.injEq] at h
    obtain ⟨h1, h2⟩ := h
    subst h1 h2
    exact leb128.readAux_consumes hr
  | error e =>
    rw [hr] at h
    simp at h
/-- A successful `decode_command` only looks at the operand bytes it
consumes: the result is append-stable, the operand length is within the
slice, and the command is never a `Show` (implicit `Show` runs are produced
by the scanner in `read::page`, not by `decode_command`). -/
theorem decodeCommand_ok_facts {h : Header} {code : Nat} {source : List Nat}
    {cmd : Command (List Nat) Nat} {len : Nat}
    (hok : read.decodeCommand h code source = .ok (cmd, len)) (ext : List Nat) :
    read.decodeCommand h code (source ++ ext) = .ok (cmd, len) ∧
      len ≤ source.length ∧ isShowCmd cmd = false := by
  unfold read.decodeCommand at hok ⊢
  split at hok
  · -- 0x09
    simp only [Except.ok.injEq, Prod.mk.injEq] at hok
    obtain ⟨h1, h2⟩ := hok
    subst h1; subst h2
    exact ⟨rfl, Nat.zero_le _, rfl⟩
  · -- 0x0a
    simp only [Except.ok.injEq, Prod.mk.injEq] at hok
    obtain ⟨h1, h2⟩ := hok
    subst h1; subst h2
    exact ⟨rfl, Nat.zero_le _, rfl⟩
  · -- 0x0b
    simp only [Except.ok.injEq, Prod.mk.injEq] at hok
    obtain ⟨h1, h2⟩ := hok
    subst h1; subst h2
    exact ⟨rfl, Nat.zero_le _, rfl⟩
  · -- 0x0c
    simp only [Except.ok.injEq, Prod.mk.injEq] at hok
    obtain ⟨h1, h2⟩ := hok
    subst h1; subst h2
    exact ⟨rfl, Nat.zero_le _, rfl⟩
  · -- 0x80
    simp only [Except.ok.injEq, Prod.mk.injEq] at hok
    obtain ⟨h1, h2⟩ := hok
    subst h1; subst h2
    exact ⟨rfl, Nat.zero_le _, rfl⟩
  · -- 0x81: Advance
    simp only [bind, Except.bind] at hok ⊢
    cases hv : read.lebU source with
    | error e => rw [hv] at hok; simp at hok
    | ok p =>
      obtain ⟨v, rest⟩ := p
      rw [hv] at hok
      rw [lebU_append hv ext]
      dsimp only at hok ⊢
      cases ht : read.tryIntoU16 v with
      | error e => rw [ht] at hok; simp at hok
      | ok dx =>
        try rw [ht] at hok
        dsimp only at hok ⊢
        simp only [Except.ok.injEq, Prod.mk.injEq] at hok
        obtain ⟨h1, h2⟩ := hok
        subst h1; subst h2
        have hc := lebU_consumes hv
        refine ⟨?_, by omega, rfl⟩
        simp only [List.length_append]
        congr 2
        omega
  · -- 0x82: SetCursor
    simp only [bind, Except.bind] at hok ⊢
    cases hv : read.lebU source with
    | error e => rw [hv] at hok; simp at hok
    | ok p =>
      obtain ⟨vx, rest⟩ := p
      rw [hv] at hok
      rw [lebU_append hv ext]
      dsimp only at hok ⊢
      cases ht : read.tryIntoU16 vx with
      | error e => rw [ht] at hok; simp at hok
      | ok x =>
        try rw [ht] at hok
        dsimp only at hok ⊢
        cases hv2 : read.lebU rest with
        | error e => rw [hv2] at hok; simp at hok
        | ok p2 =>
          obtain ⟨vy, rest2⟩ := p2
          rw [hv2] at hok
          rw [lebU_append hv2 ext]
          dsimp only at hok ⊢
          cases ht2 : read.tryIntoU16 vy with
          | error e => rw [ht2] at hok; simp at hok
          | ok y =>
            try rw [ht2] at hok
            dsimp only at hok ⊢
            simp only [Except.ok.injEq, Prod.mk.injEq] at hok
            obtain ⟨h1, h2⟩ := hok
            subst h1; subst h2
            have hc := lebU_consumes hv
            have hc2 := lebU_consumes hv2
            refine ⟨?_, by omega, rfl⟩
            simp only [List.length_append]
            congr 2
            omega
  · -- 0x83: SetStyle
    simp only [bind, Except.bind] at hok ⊢
    cases hv : read.lebU source with
    | error e => rw [hv] at hok; simp at hok
    | ok p =>
      obtain ⟨v, rest⟩ := p
      rw [hv] at hok
      rw [lebU_append hv ext]
      dsimp only at hok ⊢
      cases ht : read.tryIntoU16 v with
      | error e => rw [ht] at hok; simp at hok
      | ok s =>
        try rw [ht] at hok
        dsimp only at hok ⊢
        split at hok
        · simp at hok
        · rename_i hidx
          rw [if_neg hidx]
          simp only [Except.ok.injEq, Prod.mk.injEq] at hok
          obtain ⟨h1, h2⟩ := hok
          subst h1; subst h2
          have hc := lebU_consumes hv
          refine ⟨?_, by omega, rfl⟩
          simp only [List.length_append]
          congr 2
          omega
  · -- 0x84: SetAdjustmentRatio
    split at hok
    · rename_i b0 b1 b2 b3 rest4
      simp only [Except.ok.injEq, Prod.mk.injEq] at hok
      obtain ⟨h1, h2⟩ := hok
      subst h1; subst h2
      simp only [List.cons_append]
      refine ⟨?_, by simp, rfl⟩
      try rfl
      try trivial
    · simp at hok
  · -- 0x85: SetLineMetrics
    simp only [bind, Except.bind] at hok ⊢
    cases hv : read.lebU source with
    | error e => rw [hv] at hok; simp at hok
    | ok p =>
      obtain ⟨vh, rest⟩ := p
      rw [hv] at hok
      rw [lebU_append hv ext]
      dsimp only at hok ⊢
      cases ht : read.tryIntoU16 vh with
      | error e => rw [ht] at hok; simp at hok
      | ok hgt =>
        try rw [ht] at hok
        dsimp only at hok ⊢
        cases hv2 : read.lebU rest with
        | error e => rw [hv2] at hok; simp at hok
        | ok p2 =>
          obtain ⟨vb, rest2⟩ := p2
          rw [hv2] at hok
          rw [lebU_append hv2 ext]
          dsimp only at hok ⊢
          cases ht2 : read.tryIntoU16 vb with
          | error e => rw [ht2] at hok; simp at hok
          | ok bl =>
            try rw [ht2] at hok
            dsimp only at hok ⊢
            simp only [Except.ok.injEq, Prod.mk.injEq] at hok
            obtain ⟨h1, h2⟩ := hok
            subst h1; subst h2
            have hc := lebU_consumes hv
            have hc2 := lebU_consumes hv2
            refine ⟨?_, by omega, rfl⟩
            simp only [List.length_append]
            congr 2
            omega
  · -- 0xbf: End
    simp only [Except.ok.injEq, Prod.mk.injEq] at hok
    obtain ⟨h1, h2⟩ := hok
    subst h1; subst h2
    exact ⟨rfl, Nat.zero_le _, rfl⟩
  · -- invalid opcode
    simp at hok
/-- The output invariants hold of any accumulator that satisfies them, with
the terminator absent everywhere (including last position). -/
theorem invariants_of_all (acc : List (Command (List Nat) Nat))
    (hadj : noAdjShow acc = true) (hgood : goodShows acc = true)
    (hnoterm : acc.all (fun c => !isTermCmd c) = true) :
    noAdjShow acc = true ∧ goodShows acc = true ∧
      acc.dropLast.all (fun c => !isTermCmd c) = true ∧ lastIsTerm acc = false := by
  refine ⟨hadj, hgood, ?_, lastIsTerm_of_all acc hnoterm⟩
  rw [List.all_eq_true] at hnoterm ⊢
  intro c hc
  exact hnoterm c (List.dropLast_subset _ hc)

/-- A `Show` run cut from a non-empty slice is non-empty. -/
theorem take_cons_not_empty (b : Nat) (rest : List Nat) (i : Nat) (h0 : i ≠ 0) :
    ((b :: rest).take i).isEmpty = false := by
  match i with
  | 0 => exact absurd rfl h0
  | k + 1 => rw [List.take_succ_cons]; rfl

/-- A non-`Show` command trivially satisfies the per-command `Show`-payload
condition. -/
theorem not_show_match {cmd : Command (List Nat) Nat} (h : isShowCmd cmd = false) :
    showPayloadOk cmd = true := by
  cases cmd <;> simp [isShowCmd, showPayloadOk] at h ⊢

/-- The invariants of the `read::page` loop, in one induction: starting from
an accumulator with no adjacent `Show`s, not ending in a `Show`, with good
`Show` payloads and no terminator commands, a successful run (1) never has
two adjacent `Show`s in its output, (2) every output `Show` payload is
non-empty valid UTF-8, (3) `PageBreak`/`End` appear at most as the final
command, and (4) when the output ends in a terminator, the run read nothing
past it: appending arbitrary bytes to the input leaves the result
unchanged. -/
theorem pageGo_invariants (h : Header) :
    ∀ (src : List Nat) (acc cmds : List (Command (List Nat) Nat)),
      read.pageGo h src acc = .ok cmds →
      noAdjShow acc = true → lastIsShow acc = false → goodShows acc = true →
      acc.all (fun c => !isTermCmd c) = true →
      noAdjShow cmds = true ∧ goodShows cmds = true ∧
        cmds.dropLast.all (fun c => !isTermCmd c) = true ∧
        (lastIsTerm cmds = true → ∀ ext, read.pageGo h (src ++ ext) acc = .ok cmds) := by
  suffices H : ∀ (n : Nat) (src : List Nat), src.length ≤ n →
      ∀ (acc cmds : List (Command (List Nat) Nat)),
      read.pageGo h src acc = .ok cmds →
      noAdjShow acc = true → lastIsShow acc = false → goodShows acc = true →
      acc.all (fun c => !isTermCmd c) = true →
      noAdjShow cmds = true ∧ goodShows cmds = true ∧
        cmds.dropLast.all (fun c => !isTermCmd c) = true ∧
        (lastIsTerm cmds = true → ∀ ext, read.pageGo h (src ++ ext) acc = .ok cmds) from
    fun src => H src.length src le_rfl
  intro n
  induction n with
  | zero =>
    intro src hn acc cmds hok hadj hlast hgood hnoterm
    rw [List.length_eq_zero.mp (Nat.le_zero.mp hn)] at hok
    rw [read.pageGo_nil] at hok
    simp only [read.PageResult.ok.injEq] at hok
    subst hok
    obtain ⟨c1, c2, c3, c4⟩ := invariants_of_all acc hadj hgood hnoterm
    exact ⟨c1, c2, c3, fun habs => absurd habs (by simp [c4])⟩
  | succ n ih =>
    intro src hn acc cmds hok hadj hlast hgood hnoterm
    cases src with
    | nil =>
      rw [read.pageGo_nil] at hok
      simp only [read.PageResult.ok.injEq] at hok
      subst hok
      obtain ⟨c1, c2, c3, c4⟩ := invariants_of_all acc hadj hgood hnoterm
      exact ⟨c1, c2, c3, fun habs => absurd habs (by simp [c4])⟩
    | cons b rest =>
      rw [read.pageGo] at hok
      cases hscan : scan (b :: rest) with
      | none => rw [hscan] at hok; simp at hok
      | some i =>
        rw [hscan] at hok
        dsimp only at hok
        split at hok
        · simp at hok
        · rename_i hle
          split at hok
          · simp at hok
          · rename_i acc1 heq
            have hacc1 : (i = 0 ∧ acc1 = acc) ∨
                (i ≠ 0 ∧ validUtf8 ((b :: rest).take i) = true ∧
                  acc1 = acc ++ [Command.show ((b :: rest).take i)]) := by
              by_cases h0 : i = 0
              · rw [if_pos h0] at heq
                exact Or.inl ⟨h0, by simpa using heq.symm⟩
              · rw [if_neg h0] at heq
                by_cases hv : validUtf8 ((b :: rest).take i)
                · rw [if_pos hv] at heq
                  exact Or.inr ⟨h0, hv, by simpa using heq.symm⟩
                · rw [if_neg hv] at heq
                  simp at heq
            have hadj1 : noAdjShow acc1 = true := by
              rcases hacc1 with ⟨_, ha⟩ | ⟨_, _, ha⟩ <;> subst ha
              · exact hadj
              · exact noAdjShow_append _ _ hadj (Or.inl hlast)
            have hgood1 : goodShows acc1 = true := by
              rcases hacc1 with ⟨_, ha⟩ | ⟨h0, hv, ha⟩ <;> subst ha
              · exact hgood
              · exact goodShows_append _ _ hgood
                  (by simp [showPayloadOk, take_cons_not_empty b rest i h0, hv])
            have hnoterm1 : acc1.all (fun c => !isTermCmd c) = true := by
              rcases hacc1 with ⟨_, ha⟩ | ⟨_, _, ha⟩ <;> subst ha
              · exact hnoterm
              · rw [List.all_append, hnoterm]
                rfl
            split at hok
            · rename_i hi
              simp only [read.PageResult.ok.injEq] at hok
              subst hok
              obtain ⟨c1, c2, c3, c4⟩ := invariants_of_all acc1 hadj1 hgood1 hnoterm1
              exact ⟨c1, c2, c3, fun habs => absurd habs (by simp [c4])⟩
            · rename_i hi
              have hlt : i < (b :: rest).length := by
                omega
              split at hok
              · simp at hok
              · rename_i code tail hdrop
                cases hdec : read.decodeCommand h code tail with
                | error e => rw [hdec] at hok; simp at hok
                | ok p =>
                  obtain ⟨cmd, len⟩ := p
                  rw [hdec] at hok
                  dsimp only at hok
                  have hnotshow : isShowCmd cmd = false :=
                    (decodeCommand_ok_facts hdec []).2.2
                  have hlen : len ≤ tail.length := (decodeCommand_ok_facts hdec []).2.1
                  have htail : tail.length = (b :: rest).length - i - 1 := by
                    have hl := congrArg List.length hdrop
                    simp only [List.length_drop, List.length_cons] at hl ⊢
                    omega
                  have hcmatch := not_show_match hnotshow
                  have hval : i = 0 ∨ validUtf8 ((b :: rest).take i) = true := by
                    rcases hacc1 with ⟨h0, _⟩ | ⟨_, hv, _⟩
                    · exact Or.inl h0
                    · exact Or.inr hv
                  -- rebuilding the step on `(b :: rest) ++ ext`, shared by both
                  -- remaining branches
                  have hrebuild : ∀ ext, read.pageGo h ((b :: rest) ++ ext) acc =
                      (match read.decodeCommand h code (tail ++ ext) with
                       | .error e => .error e
                       | .ok (cmd, len) =>
                         if cmd = .pageBreak ∨ cmd = .end_ then .ok (acc1 ++ [cmd])
                         else read.pageGo h (((b :: rest) ++ ext).drop (i + (len + 1)))
                           (acc1 ++ [cmd])) := by
                    intro ext
                    have hscan' : scan ((b :: rest) ++ ext) = some i :=
                      scanAux_append ext (b :: rest) 0 i hscan (by simpa using hlt)
                    have htake : ((b :: rest) ++ ext).take i = (b :: rest).take i :=
                      List.take_append_of_le_length (le_of_lt hlt)
                    rw [read.pageGo_step h ((b :: rest) ++ ext) acc i (by simp) hscan'
                      (by simp only [List.length_append]; omega)
                      (by rw [htake]; exact hval)]
                    dsimp only
                    rw [dif_neg (show ¬ i = ((b :: rest) ++ ext).length by
                      simp only [List.length_append]; omega)]
                    rw [show ((b :: rest) ++ ext).drop i = code :: (tail ++ ext) from by
                      rw [List.drop_append_of_le_length (le_of_lt hlt), hdrop]
                      rfl]
                    rw [htake]
                    rcases hacc1 with ⟨h0, ha⟩ | ⟨h0, _, ha⟩
                    · rw [if_pos h0, ← ha]
                    · rw [if_neg h0, ← ha]
                  split at hok
                  · rename_i hterm
                    simp only [read.PageResult.ok.injEq] at hok
                    subst hok
                    have hcmdterm : isTermCmd cmd = true := by
                      rcases hterm with rfl | rfl <;> rfl
                    refine ⟨noAdjShow_append _ _ hadj1 (Or.inr hnotshow),
                      goodShows_append _ _ hgood1 hcmatch, ?_, ?_⟩
                    · rw [List.dropLast_concat]
                      exact hnoterm1
                    · intro _ ext
                      rw [hrebuild ext, (decodeCommand_ok_facts hdec ext).1]
                      dsimp only
                      rw [if_pos hterm]
                  · rename_i hterm
                    have hnotterm : isTermCmd cmd = false := by
                      cases cmd
                      case pageBreak => exact absurd (Or.inl rfl) hterm
                      case end_ => exact absurd (Or.inr rfl) hterm
                      all_goals rfl
                    have hadj2 : noAdjShow (acc1 ++ [cmd]) = true :=
                      noAdjShow_append _ _ hadj1 (Or.inr hnotshow)
                    have hlast2 : lastIsShow (acc1 ++ [cmd]) = false := by
                      rw [lastIsShow_append]
                      exact hnotshow
                    have hgood2 : goodShows (acc1 ++ [cmd]) = true :=
                      goodShows_append _ _ hgood1 hcmatch
                    have hnoterm2 : (acc1 ++ [cmd]).all (fun c => !isTermCmd c) = true := by
                      rw [List.all_append, hnoterm1]
                      simp [hnotterm]
                    obtain ⟨ih1, ih2, ih3, ih4⟩ := ih ((b :: rest).drop (i + (len + 1)))
                      (by
                        simp only [List.length_drop, List.length_cons] at hn ⊢
                        omega)
                      (acc1 ++ [cmd]) cmds hok hadj2 hlast2 hgood2 hnoterm2
                    refine ⟨ih1, ih2, ih3, ?_⟩
                    intro hterm' ext
                    rw [hrebuild ext, (decodeCommand_ok_facts hdec ext).1]
                    dsimp only
                    rw [if_neg hterm]
                    rw [show ((b :: rest) ++ ext).drop (i + (len + 1)) =
                        (b :: rest).drop (i + (len + 1)) ++ ext from
                      List.drop_append_of_le_length (by
                        simp only [List.length_cons] at htail hlt ⊢
                        omega)]
                    exact ih4 hterm' ext
/-- **C10** (confirmed).  Whatever header and byte slice `read::page`
accepts, its output: (1) never holds two consecutive `Show` commands — the
scanner collects each maximal printable run into one `Show` and the next
command always comes from `decode_command`, which never produces a `Show`;
(2) gives every `Show` a non-empty string validated as UTF-8; (3) keeps
`PageBreak` and `End` out of every position but the last; and (4) when the
output ends in `PageBreak` or `End` the loop stopped there, so appending
arbitrary bytes to the input does not change the result — no bytes after the
terminator are decoded. -/
theorem claim10_page_invariants (h : Header) (src : List Nat)
    (cmds : List (Command (List Nat) Nat))
    (hok : read.page h src = .ok cmds) :
    noAdjShow cmds = true ∧
    (∀ s, Command.show s ∈ cmds → s ≠ [] ∧ validUtf8 s = true) ∧
    cmds.dropLast.all (fun c => !isTermCmd c) = true ∧
    (lastIsTerm cmds = true → ∀ ext, read.page h (src ++ ext) = .ok cmds) := by
  obtain ⟨c1, c2, c3, c4⟩ := pageGo_invariants h src [] cmds hok rfl rfl rfl rfl
  refine ⟨c1, ?_, c3, c4⟩
  intro s hs
  rw [goodShows, List.all_eq_true] at c2
  have hc := c2 _ hs
  simp only [showPayloadOk, Bool.and_eq_true, Bool.not_eq_true'] at hc
  exact ⟨by simpa [List.isEmpty_eq_false] using hc.1, hc.2⟩

/-- **C10, witness**: the page bytes `61 0A BF` decode to
`[Show "a", LineBreak, End]`, which satisfies all four invariants. -/
theorem claim10_page_invariants_witness :
    (read.page regHeader [0x61, 0x0a, 0xbf] =
      .ok [Command.show [0x61], Command.lineBreak, Command.end_]) ∧
    (noAdjShow [Command.show [0x61], Command.lineBreak, Command.end_] = true ∧
      (∀ s, Command.show s ∈
          ([Command.show [0x61], Command.lineBreak, Command.end_] :
            List (Command (List Nat) Nat)) →
        s ≠ [] ∧ validUtf8 s = true) ∧
      ([Command.show [0x61], Command.lineBreak, Command.end_] :
        List (Command (List Nat) Nat)).dropLast.all (fun c => !isTermCmd c) = true ∧
      (lastIsTerm [Command.show [0x61], Command.lineBreak, Command.end_] = true →
        ∀ ext, read.page regHeader ([0x61, 0x0a, 0xbf] ++ ext) =
          .ok [Command.show [0x61], Command.lineBreak, Command.end_])) := by
  have hok : read.page regHeader [0x61, 0x0a, 0xbf] =
      .ok [Command.show [0x61], Command.lineBreak, Command.end_] := by
    simpa [read.page, write.encodeCmds, write.encodeCommand] using
      pageGo_encodeCmds regHeader [Command.show [0x61], Command.lineBreak] []
        (by decide) (by decide)
  exact ⟨hok, claim10_page_invariants regHeader _ _ hok⟩
/-! ## The layout builder (`src/layout/builder.rs`)

The builder is generic over a font store (`Fonts`), a font style
(`FontStyle`) and a hyphenator; those live outside the byte codec and carry
`f32` measurements.  The embedding keeps exactly the data that reaches the
command stream: a font style is its `u16` metrics plus its name, the font
store is a function `Style → Option FontStyleM`, and the `f32` whitespace
caches (`whitespace_width`/`stretch`/`shrink`) are omitted — they are
recomputed from the current style on every change and never flow into a
command.  Widths of boxes are `f32`s from the measurement oracle; the only
width that reaches a command is an indent's, already cast to `u16`, so item
boxes carry that cast result.  The line-break positions come from the
external `text_layout` crate (`KnuthPlass` / `FirstFit`), which is not part
of this repository; they enter the model as an oracle list of breaks. -/

namespace layout

/-- The `FontStyle` trait data reaching the builder: name and `u16`
metrics. -/
structure FontStyleM where
  font_name : List Nat
  em_px : Nat
  line_height : Nat
  baseline : Nat
  deriving DecidableEq, Repr

/-- `u32 as i32` (the cast in `advance_line`'s `height as i32`). -/
def i32OfU32 (u : Nat) : Int := if u < 2 ^ 31 then (u : Int) else (u : Int) - 2 ^ 32

/-- The builder state (`Builder<S, F, H>`), minus the `f32` whitespace
caches.  `fonts` is the font store `F`. -/
structure BuilderM where
  height : Nat
  fonts : Style → Option FontStyleM
  default_style : FontStyleM
  style : FontStyleM
  style_id : Nat
  line_height : Nat
  baseline : Nat
  cursor_y : Int
  styles : List Style
  commands : List (Command (List Nat) Nat)
  pages : Nat

/-- `Builder::new`. -/
def BuilderM.new (height : Nat) (fonts : Style → Option FontStyleM)
    (default_style : FontStyleM) : BuilderM :=
  { height := height
    fonts := fonts
    default_style := default_style
    style := default_style
    style_id := 0
    line_height := default_style.line_height
    baseline := default_style.baseline
    cursor_y := (default_style.em_px : Int)
    styles := [⟨default_style.font_name, default_style.em_px⟩]
    commands := []
    pages := 0 }

/-- `Builder::get_style`: a font-store miss falls back to the default style
at index 0; otherwise a linear search over the style table, pushing the style
when absent.  The returned index is `i as u16`. -/
def getStyle (b : BuilderM) (st : Style) : BuilderM × FontStyleM × Nat :=
  match b.fonts st with
  | none => (b, b.default_style, 0)
  | some fs =>
    match b.styles.findIdx? (· = st) with
    | some i => (b, fs, i % 2 ^ 16)
    | none => ({ b with styles := b.styles ++ [st] }, fs, b.styles.length % 2 ^ 16)

/-- `Builder::set_style`: look the style up and, when its id differs from the
current one, switch metrics and push `SetStyle` + `SetLineMetrics`. -/
def setStyle (b : BuilderM) (st : Style) : BuilderM :=
  let (b1, fs, id) := getStyle b st
  if id ≠ b1.style_id then
    { b1 with
      line_height := fs.line_height
      baseline := fs.baseline
      style := fs
      style_id := id
      commands := b1.commands ++
        [.setStyle id, .setLineMetrics fs.line_height fs.baseline] }
  else b1

/-- `Builder::page_break`: `PageBreak`, then re-establish the current style
and metrics on the new page; the cursor returns to the origin. -/
def pageBreak (b : BuilderM) : BuilderM :=
  { b with
    commands := b.commands ++
      [.pageBreak, .setStyle b.style_id, .setLineMetrics b.line_height b.baseline]
    pages := b.pages + 1
    cursor_y := 0 }

/-- `Builder::advance_line`: a page break when the remaining height cannot
fit another line, else a `LineBreak` moving the cursor down one line. -/
def advanceLine (b : BuilderM) : BuilderM :=
  if i32OfU32 b.height - b.cursor_y < (b.line_height : Int) then pageBreak b
  else
    { b with
      commands := b.commands ++ [.lineBreak]
      cursor_y := b.cursor_y + (b.line_height : Int) }

end layout
namespace layout

/-- Penalty payloads (`enum Penalty`). -/
inductive PenaltyKind where
  | softHyphen
  | hardHyphen
  | hardBreak
  deriving DecidableEq, Repr

/-- Box payloads (`enum Box`).  An indent box carries the one width that
reaches a command, already cast to `u16`; a char box carries the char's UTF-8
bytes (the Rust code stores the `char` and appends it to a UTF-8 `String`
during line assembly). -/
inductive BoxData where
  | indent (dx : Nat)
  | setStyleB (id line_height baseline : Nat)
  | word (text : List Nat)
  | char (text : List Nat)
  deriving DecidableEq, Repr

/-- Paragraph items (`Item<Box, (), Penalty>` of the external `text_layout`
crate); the `f32` widths, stretch, shrink and costs do not reach the command
stream and are omitted. -/
inductive ItemM where
  | box (data : BoxData)
  | glue
  | penalty (kind : PenaltyKind)
  deriving DecidableEq, Repr

/-- One line break chosen by the layout engine: the index of the item it
breaks at, and the adjustment ratio (an `f32`, transported as its bit
pattern like every ratio in the codec). -/
structure BreakM where
  break_at : Nat
  r : Nat
  deriving DecidableEq, Repr

/-- The Unicode and hyphenation oracles (`char::is_whitespace`,
`split_word_bounds`, the `Hyphenator` trait): external text facts the
builder consumes. -/
structure TextOracle where
  hyphenate : List Nat → List Nat
  wordIsWs : List Nat → Bool
  charIsWs : List Nat → Bool
  splitWords : List Nat → List (List Nat)

/-- `ParagraphBuilder` (minus the `f32` whitespace caches). -/
structure ParagraphM where
  builder : BuilderM
  style : FontStyleM
  style_id : Nat
  items : List ItemM

/-- `Builder::paragraph`. -/
def BuilderM.paragraph (b : BuilderM) : ParagraphM :=
  { builder := b, style := b.style, style_id := b.style_id, items := [] }

/-- `ParagraphBuilder::set_style`: resolve the style in the underlying
builder and, on a change, push a `SetStyle` box item. -/
def ParagraphM.setStyle (p : ParagraphM) (st : Style) : ParagraphM :=
  let r := getStyle p.builder st
  if r.2.2 ≠ p.style_id then
    { p with
      builder := r.1
      items := p.items ++ [.box (.setStyleB r.2.2 r.2.1.line_height r.2.1.baseline)]
      style := r.2.1
      style_id := r.2.2 }
  else { p with builder := r.1 }

/-- `ParagraphBuilder::indent` / `indent_px` (width already cast). -/
def ParagraphM.indent (p : ParagraphM) (dx : Nat) : ParagraphM :=
  { p with items := p.items ++ [.box (.indent dx)] }

/-- `ParagraphBuilder::whitespace` (also `soft_line_break`). -/
def ParagraphM.whitespace (p : ParagraphM) : ParagraphM :=
  { p with items := p.items ++ [.glue] }

/-- `ParagraphBuilder::hard_line_break`: ragged-right terminator glue and a
forced-break penalty. -/
def ParagraphM.hardLineBreak (p : ParagraphM) : ParagraphM :=
  { p with items := p.items ++ [.glue, .penalty .hardBreak] }

/-- The items the hyphenation loop of `word` pushes: one word box and one
soft-hyphen penalty per break offset, each sub-word running from the previous
offset (`last`, initially 0); also returns the final `last`. -/
def hyphAux (w : List Nat) : List Nat → Nat → List ItemM × Nat
  | [], last => ([], last)
  | off :: rest, last =>
    let (its, l1) := hyphAux w rest off
    (.box (.word ((w.take off).drop last)) :: .penalty .softHyphen :: its, l1)

/-- `ParagraphBuilder::word`: whitespace words become glue; otherwise the
hyphenation offsets split the word into boxes separated by soft-hyphen
penalties (the loop only appends items, rendered here by `hyphAux`), and a
lone dash gets a hard-hyphen penalty. -/
def ParagraphM.word (o : TextOracle) (p : ParagraphM) (w : List Nat) : ParagraphM :=
  if o.wordIsWs w then p.whitespace
  else
    let segs := (hyphAux w (o.hyphenate w) 0).1
    let w1 := w.drop (hyphAux w (o.hyphenate w) 0).2
    let p2 := { p with items := p.items ++ segs ++ [.box (.word w1)] }
    if w1 = [0x2d] ∨ w1 = [0xe2, 0x80, 0x93] then
      { p2 with items := p2.items ++ [.penalty .hardHyphen] }
    else p2

/-- `ParagraphBuilder::char`. -/
def ParagraphM.pchar (o : TextOracle) (p : ParagraphM) (c : List Nat) : ParagraphM :=
  if o.charIsWs c then p.whitespace
  else
    let p2 := { p with items := p.items ++ [.box (.char c)] }
    if c = [0x2d] ∨ c = [0xe2, 0x80, 0x93] then
      { p2 with items := p2.items ++ [.penalty .hardHyphen] }
    else p2

/-- `ParagraphBuilder::text`: one `word` call per segment of the
word-boundary split. -/
def ParagraphM.text (o : TextOracle) (p : ParagraphM) (s : List Nat) : ParagraphM :=
  (o.splitWords s).foldl (fun p w => p.word o w) p

/-- The accumulator of the item loop in `paragraph_break`: the pending text
run, the `any_text` and `push_line_metrics` flags, the running line metrics,
and the commands assembled so far for this line. -/
structure LineAcc where
  text : List Nat
  any_text : Bool
  plm : Bool
  clh : Nat
  cbl : Nat
  cmds : List (Command (List Nat) Nat)
  deriving DecidableEq, Repr

/-- One step of the item loop of `paragraph_break`.  An indent box asserts
that no text precedes it on the line (`none` models the panic). -/
def lineStep (acc : LineAcc) : ItemM → Option LineAcc
  | .box (.setStyleB id lh bl) =>
    let acc1 := if acc.text ≠ [] then
        { acc with cmds := acc.cmds ++ [.show acc.text], text := [], any_text := true }
      else acc
    let acc2 := { acc1 with cmds := acc1.cmds ++ [.setStyle id] }
    if (!acc2.any_text && lh ≠ acc2.clh) || lh > acc2.clh then
      some { acc2 with clh := lh, cbl := bl, plm := true }
    else some acc2
  | .box (.indent dx) =>
    if acc.text = [] then some { acc with cmds := acc.cmds ++ [.advance dx] }
    else none
  | .box (.word w) => some { acc with text := acc.text ++ w }
  | .box (.char c) => some { acc with text := acc.text ++ c }
  | .glue => some { acc with text := acc.text ++ [0x20] }
  | .penalty _ => some acc

/-- The item loop of `paragraph_break` over one line's items. -/
def lineRun (items : List ItemM) (init : LineAcc) : Option LineAcc :=
  items.foldlM lineStep init

/-- Is an item the soft-hyphen penalty (checked on the last item of a
line)? -/
def isSoftHyphen : ItemM → Bool
  | .penalty .softHyphen => true
  | _ => false

/-- Is an item an indent box (the single-item early return)? -/
def isIndentBox : ItemM → Bool
  | .box (.indent _) => true
  | _ => false

/-- The per-line pushes into the builder's command vector: the optional
`SetLineMetrics`, the `SetAdjustmentRatio`, then the line's assembled
commands; the builder's line metrics become the loop's current ones. -/
def pushLine (b : BuilderM) (plm : Bool) (clh2 cbl2 r : Nat)
    (cmds1 : List (Command (List Nat) Nat)) : BuilderM :=
  { b with
    commands := b.commands ++ (if plm then [.setLineMetrics clh2 cbl2] else []) ++
      [.setAdjustmentRatio r] ++ cmds1
    line_height := clh2
    baseline := cbl2 }

/-- The commands of one assembled line: the loop's command list, with the
pending text flushed as a final `Show` (a soft-hyphen break appends a dash
first). -/
def lineCmds (slice : List ItemM) (acc : LineAcc) : List (Command (List Nat) Nat) :=
  let text1 := if (slice.getLast?.map isSoftHyphen).getD false then
      acc.text ++ [0x2d]
    else acc.text
  acc.cmds ++ (if text1 = [] then [] else [.show text1])

/-- The pagination loop of `paragraph_break`: one iteration per break.  Each
iteration takes the items of the line (`items[item..=break_at]`, `none` when
the range is out of bounds, modelling the slice panic), assembles its
commands, pushes the optional `SetLineMetrics`, the `SetAdjustmentRatio` and
the line commands when the line is non-empty, and advances the line. -/
def pbLoop (b : BuilderM) (itemsAll : List ItemM) (item clh cbl : Nat) :
    List BreakM → Option BuilderM
  | [] => some b
  | brk :: rest =>
    if brk.break_at < itemsAll.length ∧ item ≤ brk.break_at + 1 then
      let slice := (itemsAll.take (brk.break_at + 1)).drop item
      if slice.isEmpty then
        pbLoop (advanceLine b) itemsAll (brk.break_at + 1) clh cbl rest
      else
        match lineRun (slice.take (slice.length - 1))
            ⟨[], false, false, clh, cbl, []⟩ with
        | none => none
        | some acc =>
          pbLoop (advanceLine
              (pushLine b acc.plm acc.clh acc.cbl brk.r (lineCmds slice acc)))
            itemsAll (brk.break_at + 1) acc.clh acc.cbl rest
    else none

/-- `ParagraphBuilder::paragraph_break`: early returns for an empty item
list and for a lone indent; otherwise append the terminator glue and
forced-break penalty and paginate along the breaks chosen by the layout
engine (`KnuthPlass`, falling back to `FirstFit`, both from the external
`text_layout` crate — the model receives their output; `none` for the empty
result on which the code panics). -/
def paragraphBreak (p : ParagraphM) (breaks : List BreakM) : Option ParagraphM :=
  match p.items with
  | [] => some p
  | items@(it :: rest) =>
    if rest.isEmpty ∧ isIndentBox it then some { p with items := [] }
    else
      let itemsAll := items ++ [.glue, .penalty .hardBreak]
      if breaks.isEmpty then none
      else
        match pbLoop p.builder itemsAll 0 p.builder.line_height p.builder.baseline
            breaks with
        | none => none
        | some b => some { p with builder := b, items := [] }

/-- `ParagraphBuilder::finish`: run the paragraph break and hand the builder
back with the paragraph's current style restored. -/
def ParagraphM.finish (p : ParagraphM) (breaks : List BreakM) : Option BuilderM :=
  (paragraphBreak p breaks).map fun p1 =>
    { p1.builder with style := p.style, style_id := p.style_id }

/-- The paragraph-level operations a client can perform. -/
inductive POp where
  | pset (st : Style)
  | pindent (dx : Nat)
  | pword (w : List Nat)
  | ptext (s : List Nat)
  | pchar (c : List Nat)
  | pws
  | phlb

/-- Run one paragraph operation. -/
def execPOp (o : TextOracle) (p : ParagraphM) : POp → ParagraphM
  | .pset st => p.setStyle st
  | .pindent dx => p.indent dx
  | .pword w => p.word o w
  | .ptext s => p.text o s
  | .pchar c => p.pchar o c
  | .pws => p.whitespace
  | .phlb => p.hardLineBreak

/-- The builder-level operations a client can perform; a `bpar` is a whole
paragraph session (`paragraph()`, the given operations, `finish()` with the
layout engine returning `breaks`). -/
inductive BOp where
  | bset (st : Style)
  | badv
  | bpage
  | bpar (pops : List POp) (breaks : List BreakM)

/-- Run one builder operation. -/
def execBOp (o : TextOracle) (b : BuilderM) : BOp → Option BuilderM
  | .bset st => some (setStyle b st)
  | .badv => some (advanceLine b)
  | .bpage => some (pageBreak b)
  | .bpar pops breaks => (pops.foldl (execPOp o) b.paragraph).finish breaks

/-- Run a trace of builder operations. -/
def execTrace (o : TextOracle) (b : BuilderM) : List BOp → Option BuilderM
  | [] => some b
  | op :: rest =>
    match execBOp o b op with
    | none => none
    | some b1 => execTrace o b1 rest

end layout
/-- A small concrete font style for test instances. -/
def testFont : layout.FontStyleM := ⟨[0x72, 0x65, 0x67], 16, 18, 14⟩

/-- A concrete font store: every style with a non-zero size resolves. -/
def testFonts : Style → Option layout.FontStyleM := fun st =>
  if st.em_px = 0 then none
  else some ⟨st.font_name, st.em_px, st.em_px + 2, st.em_px / 2⟩

/-- A concrete builder over a 100-pixel-high content box. -/
def testB : layout.BuilderM := layout.BuilderM.new 100 testFonts testFont

/-- A trivial text oracle for test instances. -/
def testOracle : layout.TextOracle :=
  ⟨fun _ => [], fun _ => false, fun _ => false, fun _ => []⟩

/-- **C6** (confirmed).  `advance_line` calls `page_break` exactly when the
remaining height `content_height − cursor.y` (with the `u32 → i32` cast on
the height) is less than the line height, and otherwise pushes `LineBreak`
and moves the cursor down one line height; `page_break` resets `cursor.y` to
0 (pushing `PageBreak` and re-establishing the style).  Consequently — as
long as the content height fits in `i32` — the cursor the loop leaves behind
never sits below the content box: after `advance_line` the cursor is at most
the content height. -/
theorem claim6_advance_line (b : layout.BuilderM) :
    (layout.i32OfU32 b.height - b.cursor_y < (b.line_height : Int) →
      layout.advanceLine b = layout.pageBreak b) ∧
    ((b.line_height : Int) ≤ layout.i32OfU32 b.height - b.cursor_y →
      (layout.advanceLine b).commands = b.commands ++ [Command.lineBreak] ∧
      (layout.advanceLine b).cursor_y = b.cursor_y + (b.line_height : Int)) ∧
    (layout.pageBreak b).cursor_y = 0 ∧
    (layout.pageBreak b).commands = b.commands ++
      [Command.pageBreak, Command.setStyle b.style_id,
        Command.setLineMetrics b.line_height b.baseline] ∧
    (b.height < 2 ^ 31 → (layout.advanceLine b).cursor_y ≤ (b.height : Int)) := by
  refine ⟨fun hlt => ?_, fun hge => ?_, rfl, rfl, fun h31 => ?_⟩
  · rw [layout.advanceLine, if_pos hlt]
  · rw [layout.advanceLine, if_neg (by omega)]
    exact ⟨rfl, rfl⟩
  · rw [layout.advanceLine]
    have hcast : layout.i32OfU32 b.height = (b.height : Int) := by
      rw [layout.i32OfU32, if_pos h31]
    split
    · show (layout.pageBreak b).cursor_y ≤ (b.height : Int)
      show (0 : Int) ≤ (b.height : Int)
      positivity
    · rename_i hge
      rw [hcast] at hge
      show b.cursor_y + (b.line_height : Int) ≤ (b.height : Int)
      omega

/-- **C6, witness**: the conditional behaviour at a concrete builder whose
cursor still has room for a line. -/
theorem claim6_advance_line_witness :
    ((layout.i32OfU32 testB.height - testB.cursor_y < (testB.line_height : Int) →
      layout.advanceLine testB = layout.pageBreak testB) ∧
    ((testB.line_height : Int) ≤ layout.i32OfU32 testB.height - testB.cursor_y →
      (layout.advanceLine testB).commands = testB.commands ++ [Command.lineBreak] ∧
      (layout.advanceLine testB).cursor_y = testB.cursor_y +
        (testB.line_height : Int)) ∧
    (layout.pageBreak testB).cursor_y = 0 ∧
    (layout.pageBreak testB).commands = testB.commands ++
      [Command.pageBreak, Command.setStyle testB.style_id,
        Command.setLineMetrics testB.line_height testB.baseline] ∧
    (testB.height < 2 ^ 31 →
      (layout.advanceLine testB).cursor_y ≤ (testB.height : Int))) ∧
    (testB.line_height : Int) ≤ layout.i32OfU32 testB.height - testB.cursor_y :=
  ⟨claim6_advance_line testB, by decide⟩
/-- When a linear search misses, the search after pushing the sought element
finds it exactly at the old length (index-accumulator form). -/
theorem findIdx_append_self_aux (st : Style) : ∀ (l : List Style) (i : Nat),
    List.findIdx? (fun x => decide (x = st)) l i = none →
    List.findIdx? (fun x => decide (x = st)) (l ++ [st]) i = some (i + l.length) := by
  intro l
  induction l with
  | nil =>
    intro i h
    simp [List.findIdx?_cons]
  | cons a l ih =>
    intro i h
    rw [List.findIdx?_cons] at h
    split at h
    · simp at h
    · rename_i ha
      rw [List.cons_append, List.findIdx?_cons, if_neg ha]
      rw [ih (i + 1) h]
      congr 1
      simp only [List.length_cons]
      omega

/-- When a linear search misses, the search after pushing the sought element
finds it exactly at the old length. -/
theorem findIdx_append_self (l : List Style) (st : Style)
    (h : l.findIdx? (· = st) = none) :
    (l ++ [st]).findIdx? (· = st) = some l.length := by
  have := findIdx_append_self_aux st l 0 h
  simpa using this
namespace layout

/-- `get_style` on a font-store miss. -/
theorem getStyle_none {b : BuilderM} {st : Style} (hf : b.fonts st = none) :
    getStyle b st = (b, b.default_style, 0) := by
  rw [getStyle, hf]

/-- `get_style` when the style is already in the table. -/
theorem getStyle_found {b : BuilderM} {st : Style} {fs : FontStyleM} {i : Nat}
    (hf : b.fonts st = some fs) (hi : b.styles.findIdx? (· = st) = some i) :
    getStyle b st = (b, fs, i % 2 ^ 16) := by
  rw [getStyle, hf, hi]

/-- `get_style` when the style is new: it is pushed and gets the next
index. -/
theorem getStyle_push {b : BuilderM} {st : Style} {fs : FontStyleM}
    (hf : b.fonts st = some fs) (hi : b.styles.findIdx? (· = st) = none) :
    getStyle b st =
      ({ b with styles := b.styles ++ [st] }, fs, b.styles.length % 2 ^ 16) := by
  rw [getStyle, hf, hi]

/-- `set_style` through a font-store miss: the default style at index 0. -/
theorem setStyle_none {b : BuilderM} {st : Style} (hf : b.fonts st = none) :
    setStyle b st =
      if 0 ≠ b.style_id then
        { b with
          line_height := b.default_style.line_height
          baseline := b.default_style.baseline
          style := b.default_style
          style_id := 0
          commands := b.commands ++
            [.setStyle 0,
              .setLineMetrics b.default_style.line_height b.default_style.baseline] }
      else b := by
  rw [setStyle, getStyle_none hf]

/-- `set_style` through a table hit. -/
theorem setStyle_found {b : BuilderM} {st : Style} {fs : FontStyleM} {i : Nat}
    (hf : b.fonts st = some fs) (hi : b.styles.findIdx? (· = st) = some i) :
    setStyle b st =
      if i % 2 ^ 16 ≠ b.style_id then
        { b with
          line_height := fs.line_height
          baseline := fs.baseline
          style := fs
          style_id := i % 2 ^ 16
          commands := b.commands ++
            [.setStyle (i % 2 ^ 16), .setLineMetrics fs.line_height fs.baseline] }
      else b := by
  rw [setStyle, getStyle_found hf hi]

/-- `set_style` through a push of a new table entry. -/
theorem setStyle_push {b : BuilderM} {st : Style} {fs : FontStyleM}
    (hf : b.fonts st = some fs) (hi : b.styles.findIdx? (· = st) = none) :
    setStyle b st =
      if b.styles.length % 2 ^ 16 ≠ b.style_id then
        { b with
          styles := b.styles ++ [st]
          line_height := fs.line_height
          baseline := fs.baseline
          style := fs
          style_id := b.styles.length % 2 ^ 16
          commands := b.commands ++
            [.setStyle (b.styles.length % 2 ^ 16),
              .setLineMetrics fs.line_height fs.baseline] }
      else { b with styles := b.styles ++ [st] } := by
  rw [setStyle, getStyle_push hf hi]

end layout
namespace layout

/-- After `set_style`, the font store is untouched, the current style id is
the resolved id, and the style table is whatever the lookup left behind. -/
theorem setStyle_resolved (b : BuilderM) (st : Style) :
    (setStyle b st).fonts = b.fonts ∧
    (setStyle b st).style_id = (getStyle b st).2.2 ∧
    (setStyle b st).styles = (getStyle b st).1.styles := by
  cases hf : b.fonts st with
  | none =>
    rw [setStyle_none hf, getStyle_none hf]
    split
    · rename_i h0
      exact ⟨rfl, by simpa using (Ne.symm h0).symm, rfl⟩
    · rename_i h0
      refine ⟨rfl, ?_, rfl⟩
      simpa using (not_ne_iff.mp h0).symm
  | some fs =>
    cases hi : b.styles.findIdx? (· = st) with
    | some i =>
      rw [setStyle_found hf hi, getStyle_found hf hi]
      split
      · exact ⟨rfl, rfl, rfl⟩
      · rename_i h0
        exact ⟨rfl, (not_ne_iff.mp h0).symm, rfl⟩
    | none =>
      rw [setStyle_push hf hi, getStyle_push hf hi]
      split
      · exact ⟨rfl, rfl, rfl⟩
      · rename_i h0
        exact ⟨rfl, (not_ne_iff.mp h0).symm, rfl⟩

/-- The style table after `get_style`: unchanged, or extended by the sought
style. -/
theorem getStyle_styles (b : BuilderM) (st : Style) :
    (getStyle b st).1.styles = b.styles ∨
      (getStyle b st).1.styles = b.styles ++ [st] := by
  cases hf : b.fonts st with
  | none => rw [getStyle_none hf]; exact Or.inl rfl
  | some fs =>
    cases hi : b.styles.findIdx? (· = st) with
    | some i => rw [getStyle_found hf hi]; exact Or.inl rfl
    | none => rw [getStyle_push hf hi]; exact Or.inr rfl

/-- Looking the same style up again right after `set_style` resolves to the
same font style and the same index, without touching the builder. -/
theorem getStyle_idem (b : BuilderM) (st : Style) :
    getStyle (setStyle b st) st =
      (setStyle b st, (getStyle b st).2.1, (getStyle b st).2.2) := by
  obtain ⟨hfonts, _, hstyles⟩ := setStyle_resolved b st
  cases hf : b.fonts st with
  | none =>
    have hf2 : (setStyle b st).fonts st = none := by rw [hfonts, hf]
    rw [getStyle_none hf2, getStyle_none hf]
    have : (setStyle b st).default_style = b.default_style := by
      rw [setStyle_none hf]
      split <;> rfl
    rw [this]
  | some fs =>
    have hf2 : (setStyle b st).fonts st = some fs := by rw [hfonts, hf]
    cases hi : b.styles.findIdx? (· = st) with
    | some i =>
      have hi2 : (setStyle b st).styles.findIdx? (· = st) = some i := by
        rw [hstyles, getStyle_found hf hi]
        exact hi
      rw [getStyle_found hf2 hi2, getStyle_found hf hi]
    | none =>
      have hi2 : (setStyle b st).styles.findIdx? (· = st) = some b.styles.length := by
        rw [hstyles, getStyle_push hf hi]
        exact findIdx_append_self b.styles st hi
      rw [getStyle_found hf2 hi2, getStyle_push hf hi]

end layout

/-- **C9** (confirmed).  The builder deduplicates styles: resolving the same
`(font_name, em_px)` right after a `set_style` yields the same index again;
one `set_style` call appends at most one entry to the style table; a second
consecutive identical `set_style` call is a complete no-op (in particular it
appends no `SetStyle` command and no table entry); and on a fresh builder a
resolvable style different from the default gets index 1 and the table
`[default, style]`. -/
theorem claim9_style_dedup (b : layout.BuilderM) (st : Style) :
    (layout.getStyle (layout.setStyle b st) st).2.2 = (layout.getStyle b st).2.2 ∧
    ((layout.setStyle b st).styles = b.styles ∨
      (layout.setStyle b st).styles = b.styles ++ [st]) ∧
    layout.setStyle (layout.setStyle b st) st = layout.setStyle b st ∧
    (∀ (height : Nat) (fonts : Style → Option layout.FontStyleM)
        (df fs : layout.FontStyleM), fonts st = some fs →
      st ≠ ⟨df.font_name, df.em_px⟩ →
      (layout.getStyle (layout.BuilderM.new height fonts df) st).2.2 = 1 ∧
      (layout.setStyle (layout.BuilderM.new height fonts df) st).styles =
        [⟨df.font_name, df.em_px⟩, st]) := by
  obtain ⟨hfonts, hsid, hstyles⟩ := layout.setStyle_resolved b st
  refine ⟨by rw [layout.getStyle_idem], ?_, ?_, ?_⟩
  · rw [hstyles]
    exact layout.getStyle_styles b st
  · rw [layout.setStyle, layout.getStyle_idem]
    dsimp only
    rw [if_neg (by rw [hsid]; exact not_ne_iff.mpr rfl)]
  · intro height fonts df fs hf hne
    have hn : (layout.BuilderM.new height fonts df).styles =
        [⟨df.font_name, df.em_px⟩] := rfl
    have hfi : (layout.BuilderM.new height fonts df).styles.findIdx? (· = st) =
        none := by
      rw [hn, List.findIdx?_cons]
      rw [if_neg (by simpa using fun habs => hne habs.symm)]
      rfl
    have hf2 : (layout.BuilderM.new height fonts df).fonts st = some fs := hf
    constructor
    · rw [layout.getStyle_push hf2 hfi, hn]
      norm_num
    · rw [layout.setStyle_push hf2 hfi, hn]
      rw [if_pos (by show (1 : Nat) % 2 ^ 16 ≠ 0; norm_num)]
      rfl

/-- **C9, witness**: the dedup facts at a concrete builder and the style
("reg", 16), which the concrete font store resolves. -/
theorem claim9_style_dedup_witness :
    ((layout.getStyle (layout.setStyle testB ⟨[0x72, 0x65, 0x67], 16⟩)
        ⟨[0x72, 0x65, 0x67], 16⟩).2.2 =
      (layout.getStyle testB ⟨[0x72, 0x65, 0x67], 16⟩).2.2 ∧
    ((layout.setStyle testB ⟨[0x72, 0x65, 0x67], 16⟩).styles = testB.styles ∨
      (layout.setStyle testB ⟨[0x72, 0x65, 0x67], 16⟩).styles =
        testB.styles ++ [⟨[0x72, 0x65, 0x67], 16⟩]) ∧
    layout.setStyle (layout.setStyle testB ⟨[0x72, 0x65, 0x67], 16⟩)
        ⟨[0x72, 0x65, 0x67], 16⟩ =
      layout.setStyle testB ⟨[0x72, 0x65, 0x67], 16⟩ ∧
    (∀ (height : Nat) (fonts : Style → Option layout.FontStyleM)
        (df fs : layout.FontStyleM), fonts ⟨[0x72, 0x65, 0x67], 16⟩ = some fs →
      (⟨[0x72, 0x65, 0x67], 16⟩ : Style) ≠ ⟨df.font_name, df.em_px⟩ →
      (layout.getStyle (layout.BuilderM.new height fonts df)
        ⟨[0x72, 0x65, 0x67], 16⟩).2.2 = 1 ∧
      (layout.setStyle (layout.BuilderM.new height fonts df)
        ⟨[0x72, 0x65, 0x67], 16⟩).styles =
        [⟨df.font_name, df.em_px⟩, ⟨[0x72, 0x65, 0x67], 16⟩])) :=
  claim9_style_dedup testB ⟨[0x72, 0x65, 0x67], 16⟩
namespace layout

/-- A command whose `SetStyle` index (if it is one) is below `n`. -/
def cmdStyleOk (n : Nat) : Command (List Nat) Nat → Bool
  | .setStyle s => decide (s < n)
  | _ => true

/-- An item whose `SetStyle` box index (if it is one) is below `n`. -/
def itemStyleOk (n : Nat) : ItemM → Bool
  | .box (.setStyleB id _ _) => decide (id < n)
  | _ => true

/-- Commands that can appear inside a line's body (between the adjustment
ratio and the terminator). -/
def isBodyCmd : Command (List Nat) Nat → Bool
  | .show _ => true
  | .setStyle _ => true
  | .advance _ => true
  | _ => false

/-- The builder's style-index invariant: a non-empty style table, the
current id in range, and every `SetStyle` command emitted so far in range. -/
def builderInv (b : BuilderM) : Prop :=
  b.styles ≠ [] ∧ b.style_id < b.styles.length ∧
    b.commands.all (cmdStyleOk b.styles.length) = true

/-- The paragraph builder's style-index invariant: the builder's, the
paragraph's current id, and every `SetStyle` box item in range. -/
def parInv (p : ParagraphM) : Prop :=
  builderInv p.builder ∧ p.style_id < p.builder.styles.length ∧
    p.items.all (itemStyleOk p.builder.styles.length) = true

theorem cmdStyleOk_mono {n m : Nat} (h : n ≤ m) {c : Command (List Nat) Nat}
    (hc : cmdStyleOk n c = true) : cmdStyleOk m c = true := by
  cases c <;> simp [cmdStyleOk] at hc ⊢ <;> omega

theorem all_cmdStyleOk_mono {n m : Nat} (h : n ≤ m)
    {l : List (Command (List Nat) Nat)} (hl : l.all (cmdStyleOk n) = true) :
    l.all (cmdStyleOk m) = true := by
  rw [List.all_eq_true] at hl ⊢
  exact fun c hc => cmdStyleOk_mono h (hl c hc)

theorem itemStyleOk_mono {n m : Nat} (h : n ≤ m) {it : ItemM}
    (hit : itemStyleOk n it = true) : itemStyleOk m it = true := by
  match it with
  | .box (.setStyleB id a b) => simp [itemStyleOk] at hit ⊢; omega
  | .box (.indent _) | .box (.word _) | .box (.char _) | .glue | .penalty _ => rfl

theorem all_itemStyleOk_mono {n m : Nat} (h : n ≤ m) {l : List ItemM}
    (hl : l.all (itemStyleOk n) = true) : l.all (itemStyleOk m) = true := by
  rw [List.all_eq_true] at hl ⊢
  exact fun it hit => itemStyleOk_mono h (hl it hit)

/-- A found index is inside the list (index-accumulator form). -/
theorem findIdx?_lt (p : Style → Bool) : ∀ (l : List Style) (i j : Nat),
    List.findIdx? p l i = some j → j < i + l.length := by
  intro l
  induction l with
  | nil =>
    intro i j h
    simp [List.findIdx?] at h
  | cons a l ih =>
    intro i j h
    rw [List.findIdx?_cons] at h
    split at h
    · simp only [Option.some.injEq] at h
      subst h
      simp only [List.length_cons]
      omega
    · have := ih (i + 1) j h
      simp only [List.length_cons]
      omega

/-- The facts `get_style` guarantees about its result: an in-range index, a
grown-by-at-most-one style table, and everything else untouched. -/
theorem getStyle_inv (b : BuilderM) (st : Style) (hne : b.styles ≠ []) :
    (getStyle b st).2.2 < (getStyle b st).1.styles.length ∧
    b.styles.length ≤ (getStyle b st).1.styles.length ∧
    (getStyle b st).1.commands = b.commands ∧
    (getStyle b st).1.style_id = b.style_id ∧
    (getStyle b st).1.styles ≠ [] := by
  cases hf : b.fonts st with
  | none =>
    rw [getStyle_none hf]
    exact ⟨List.length_pos.mpr hne, le_rfl, rfl, rfl, hne⟩
  | some fs =>
    cases hi : b.styles.findIdx? (· = st) with
    | some i =>
      rw [getStyle_found hf hi]
      have hlt : i < b.styles.length := by simpa using findIdx?_lt _ b.styles 0 i hi
      exact ⟨lt_of_le_of_lt (Nat.mod_le i _) hlt, le_rfl, rfl, rfl, hne⟩
    | none =>
      rw [getStyle_push hf hi]
      refine ⟨?_, by simp, rfl, rfl, by simp⟩
      simp only [List.length_append, List.length_cons, List.length_nil]
      have := Nat.mod_le b.styles.length (2 ^ 16)
      omega

/-- `set_style` preserves the builder invariant and only grows the style
table. -/
theorem setStyle_inv (b : BuilderM) (st : Style) (h : builderInv b) :
    builderInv (setStyle b st) ∧ b.styles.length ≤ (setStyle b st).styles.length := by
  obtain ⟨hne, hid, hall⟩ := h
  cases hf : b.fonts st with
  | none =>
    rw [setStyle_none hf]
    split
    · refine ⟨⟨hne, List.length_pos.mpr hne, ?_⟩, le_rfl⟩
      show (b.commands ++ _).all (cmdStyleOk b.styles.length) = true
      simp only [List.all_append, Bool.and_eq_true]
      refine ⟨hall, ?_⟩
      have h0 : 0 < b.styles.length := List.length_pos.mpr hne
      simp [cmdStyleOk, h0]
    · exact ⟨⟨hne, hid, hall⟩, le_rfl⟩
  | some fs =>
    cases hi : b.styles.findIdx? (· = st) with
    | some i =>
      have hlt : i < b.styles.length := by simpa using findIdx?_lt _ b.styles 0 i hi
      have hmod : i % 2 ^ 16 < b.styles.length := lt_of_le_of_lt (Nat.mod_le i _) hlt
      rw [setStyle_found hf hi]
      split
      · refine ⟨⟨hne, hmod, ?_⟩, le_rfl⟩
        show (b.commands ++ _).all (cmdStyleOk b.styles.length) = true
        simp only [List.all_append, Bool.and_eq_true]
        refine ⟨hall, ?_⟩
        simp [cmdStyleOk]
        omega
      · exact ⟨⟨hne, hid, hall⟩, le_rfl⟩
    | none =>
      rw [setStyle_push hf hi]
      have hgrow : b.styles.length ≤ (b.styles ++ [st]).length := by simp
      have hlen : b.styles.length % 2 ^ 16 < (b.styles ++ [st]).length := by
        simp only [List.length_append, List.length_cons, List.length_nil]
        have := Nat.mod_le b.styles.length (2 ^ 16)
        omega
      split
      · refine ⟨⟨by simp, hlen, ?_⟩, hgrow⟩
        show (b.commands ++ _).all (cmdStyleOk (b.styles ++ [st]).length) = true
        simp only [List.all_append, Bool.and_eq_true]
        refine ⟨all_cmdStyleOk_mono hgrow hall, ?_⟩
        simp [cmdStyleOk]
        have := Nat.mod_le b.styles.length (2 ^ 16)
        omega
      · refine ⟨⟨by simp, ?_, ?_⟩, hgrow⟩
        · show b.style_id < (b.styles ++ [st]).length
          exact lt_of_lt_of_le hid hgrow
        · show b.commands.all (cmdStyleOk (b.styles ++ [st]).length) = true
          exact all_cmdStyleOk_mono hgrow hall

/-- `page_break` preserves the builder invariant and the style table. -/
theorem pageBreak_inv (b : BuilderM) (h : builderInv b) :
    builderInv (pageBreak b) ∧ (pageBreak b).styles = b.styles := by
  obtain ⟨hne, hid, hall⟩ := h
  refine ⟨⟨hne, hid, ?_⟩, rfl⟩
  rw [pageBreak]
  simp only [List.all_append, Bool.and_eq_true]
  exact ⟨hall, by simp [cmdStyleOk, hid]⟩

/-- `advance_line` preserves the builder invariant and the style table. -/
theorem advanceLine_inv (b : BuilderM) (h : builderInv b) :
    builderInv (advanceLine b) ∧ (advanceLine b).styles = b.styles := by
  rw [advanceLine]
  split
  · exact pageBreak_inv b h
  · obtain ⟨hne, hid, hall⟩ := h
    refine ⟨⟨hne, hid, ?_⟩, rfl⟩
    simp only [List.all_append, Bool.and_eq_true]
    exact ⟨hall, by simp [cmdStyleOk]⟩

end layout
namespace layout

/-- `get_style` leaves the builder invariant intact on the builder it hands
back. -/
theorem getStyle_builderInv (b : BuilderM) (st : Style) (h : builderInv b) :
    builderInv (getStyle b st).1 := by
  obtain ⟨hne, hid, hall⟩ := h
  obtain ⟨g1, g2, g3, g4, g5⟩ := getStyle_inv b st hne
  refine ⟨g5, ?_, ?_⟩
  · rw [g4]
    exact lt_of_lt_of_le hid g2
  · rw [g3]
    exact all_cmdStyleOk_mono g2 hall

/-- `ParagraphBuilder::set_style` preserves the paragraph invariant. -/
theorem psetStyle_inv (p : ParagraphM) (st : Style) (h : parInv p) :
    parInv (p.setStyle st) := by
  obtain ⟨hb, hsid, hitems⟩ := h
  obtain ⟨g1, g2, g3, g4, g5⟩ := getStyle_inv p.builder st hb.1
  have hb1 := getStyle_builderInv p.builder st hb
  rw [ParagraphM.setStyle]
  split
  · refine ⟨hb1, g1, ?_⟩
    show (p.items ++ _).all (itemStyleOk (getStyle p.builder st).1.styles.length) = true
    simp only [List.all_append, Bool.and_eq_true]
    refine ⟨all_itemStyleOk_mono g2 hitems, ?_⟩
    simp [itemStyleOk, g1]
  · refine ⟨hb1, lt_of_lt_of_le hsid g2, all_itemStyleOk_mono g2 hitems⟩

/-- The hyphenation items are word boxes and penalties only. -/
theorem hyphAux_ok (n : Nat) (w : List Nat) : ∀ (brs : List Nat) (last : Nat),
    ((hyphAux w brs last).1).all (itemStyleOk n) = true := by
  intro brs
  induction brs with
  | nil => intro last; rfl
  | cons off rest ih =>
    intro last
    rw [hyphAux]
    simp only [List.all_cons, Bool.and_eq_true]
    exact ⟨rfl, rfl, ih off⟩

/-- `ParagraphBuilder::word` preserves the paragraph invariant. -/
theorem word_inv (o : TextOracle) (p : ParagraphM) (w : List Nat) (h : parInv p) :
    parInv (p.word o w) := by
  obtain ⟨hb, hsid, hitems⟩ := h
  rw [ParagraphM.word]
  split
  · refine ⟨hb, hsid, ?_⟩
    show (p.items ++ _).all _ = true
    simp only [List.all_append, Bool.and_eq_true]
    exact ⟨hitems, rfl⟩
  · dsimp only
    split
    · refine ⟨hb, hsid, ?_⟩
      show (((p.items ++ _) ++ _) ++ _).all _ = true
      simp only [List.all_append, Bool.and_eq_true]
      exact ⟨⟨⟨hitems, hyphAux_ok _ w _ 0⟩, by simp [itemStyleOk]⟩, rfl⟩
    · refine ⟨hb, hsid, ?_⟩
      show ((p.items ++ _) ++ _).all _ = true
      simp only [List.all_append, Bool.and_eq_true]
      exact ⟨⟨hitems, hyphAux_ok _ w _ 0⟩, by simp [itemStyleOk]⟩

/-- Every paragraph operation preserves the paragraph invariant. -/
theorem execPOp_inv (o : TextOracle) (p : ParagraphM) (op : POp) (h : parInv p) :
    parInv (execPOp o p op) := by
  obtain ⟨hb, hsid, hitems⟩ := h
  cases op with
  | pset st => exact psetStyle_inv p st ⟨hb, hsid, hitems⟩
  | pindent dx =>
    refine ⟨hb, hsid, ?_⟩
    show (p.items ++ _).all _ = true
    simp only [List.all_append, Bool.and_eq_true]
    exact ⟨hitems, rfl⟩
  | pws =>
    refine ⟨hb, hsid, ?_⟩
    show (p.items ++ _).all _ = true
    simp only [List.all_append, Bool.and_eq_true]
    exact ⟨hitems, rfl⟩
  | phlb =>
    refine ⟨hb, hsid, ?_⟩
    show (p.items ++ _).all _ = true
    simp only [List.all_append, Bool.and_eq_true]
    exact ⟨hitems, rfl⟩
  | pchar c =>
    show parInv (ParagraphM.pchar o p c)
    rw [ParagraphM.pchar]
    split
    · refine ⟨hb, hsid, ?_⟩
      show (p.items ++ _).all _ = true
      simp only [List.all_append, Bool.and_eq_true]
      exact ⟨hitems, rfl⟩
    · split
      · refine ⟨hb, hsid, ?_⟩
        show ((p.items ++ _) ++ _).all _ = true
        simp only [List.all_append, Bool.and_eq_true]
        exact ⟨⟨hitems, rfl⟩, rfl⟩
      · refine ⟨hb, hsid, ?_⟩
        show (p.items ++ _).all _ = true
        simp only [List.all_append, Bool.and_eq_true]
        exact ⟨hitems, rfl⟩
  | pword w => exact word_inv o p w ⟨hb, hsid, hitems⟩
  | ptext s =>
    show parInv (ParagraphM.text o p s)
    rw [ParagraphM.text]
    have : ∀ (ws : List (List Nat)) (q : ParagraphM), parInv q →
        parInv (ws.foldl (fun q w => q.word o w) q) := by
      intro ws
      induction ws with
      | nil => intro q hq; exact hq
      | cons w rest ih =>
        intro q hq
        rw [List.foldl_cons]
        exact ih _ (word_inv o q w hq)
    exact this _ p ⟨hb, hsid, hitems⟩

end layout
namespace layout

/-- One line-assembly step only adds body commands with in-range style
indices. -/
theorem lineStep_ok (n : Nat) (acc acc1 : LineAcc) (it : ItemM)
    (hstep : lineStep acc it = some acc1) (hit : itemStyleOk n it = true)
    (hacc : acc.cmds.all (fun c => isBodyCmd c && cmdStyleOk n c) = true) :
    acc1.cmds.all (fun c => isBodyCmd c && cmdStyleOk n c) = true := by
  match it with
  | .box (.setStyleB id lh bl) =>
    simp only [itemStyleOk, decide_eq_true_eq] at hit
    rw [lineStep] at hstep
    dsimp only at hstep
    split at hstep <;> split at hstep <;>
      (simp only [Option.some.injEq] at hstep; subst hstep) <;>
      simp_all [List.all_append, isBodyCmd, cmdStyleOk]
  | .box (.indent dx) =>
    rw [lineStep] at hstep
    split at hstep
    · simp only [Option.some.injEq] at hstep
      subst hstep
      simp_all [List.all_append, isBodyCmd, cmdStyleOk]
    · simp at hstep
  | .box (.word w) =>
    simp only [lineStep, Option.some.injEq] at hstep
    subst hstep
    exact hacc
  | .box (.char c) =>
    simp only [lineStep, Option.some.injEq] at hstep
    subst hstep
    exact hacc
  | .glue =>
    simp only [lineStep, Option.some.injEq] at hstep
    subst hstep
    exact hacc
  | .penalty k =>
    simp only [lineStep, Option.some.injEq] at hstep
    subst hstep
    exact hacc

/-- The line assembly only produces body commands with in-range style
indices. -/
theorem lineRun_ok (n : Nat) : ∀ (items : List ItemM) (init acc : LineAcc),
    lineRun items init = some acc → items.all (itemStyleOk n) = true →
    init.cmds.all (fun c => isBodyCmd c && cmdStyleOk n c) = true →
    acc.cmds.all (fun c => isBodyCmd c && cmdStyleOk n c) = true := by
  intro items
  induction items with
  | nil =>
    intro init acc hok _ hinit
    simp only [lineRun, List.foldlM_nil, Option.pure_def, Option.some.injEq] at hok
    subst hok
    exact hinit
  | cons it rest ih =>
    intro init acc hok hall hinit
    simp only [lineRun, List.foldlM_cons] at hok
    cases hstep : lineStep init it with
    | none => rw [hstep] at hok; simp at hok
    | some acc1 =>
      rw [hstep] at hok
      simp only [Option.bind_eq_bind, Option.some_bind] at hok
      simp only [List.all_cons, Bool.and_eq_true] at hall
      exact ih acc1 acc hok hall.2 (lineStep_ok n init acc1 it hstep hall.1 hinit)

/-- All-ness restricted to the first component of a conjunction of
predicates. -/
theorem all_and_left {l : List (Command (List Nat) Nat)}
    {f g : Command (List Nat) Nat → Bool}
    (h : l.all (fun c => f c && g c) = true) : l.all g = true := by
  rw [List.all_eq_true] at h ⊢
  intro c hc
  exact (Bool.and_eq_true _ _ |>.mp (h c hc)).2

/-- `pushLine` preserves the builder invariant and the style table. -/
theorem pushLine_inv (b : BuilderM) (plm : Bool) (clh2 cbl2 r : Nat)
    (cmds1 : List (Command (List Nat) Nat)) (hb : builderInv b)
    (hcmds : cmds1.all (cmdStyleOk b.styles.length) = true) :
    builderInv (pushLine b plm clh2 cbl2 r cmds1) ∧
      (pushLine b plm clh2 cbl2 r cmds1).styles = b.styles := by
  obtain ⟨hne, hid, hall⟩ := hb
  refine ⟨⟨hne, hid, ?_⟩, rfl⟩
  show (b.commands ++ _ ++ _ ++ _).all (cmdStyleOk b.styles.length) = true
  simp only [List.all_append, Bool.and_eq_true]
  refine ⟨⟨⟨hall, ?_⟩, by simp [cmdStyleOk]⟩, hcmds⟩
  split <;> simp [cmdStyleOk]

/-- The pagination loop preserves the builder invariant and never touches
the style table. -/
theorem pbLoop_inv : ∀ (breaks : List BreakM) (b : BuilderM)
    (itemsAll : List ItemM) (item clh cbl : Nat) (b' : BuilderM),
    pbLoop b itemsAll item clh cbl breaks = some b' →
    builderInv b → itemsAll.all (itemStyleOk b.styles.length) = true →
    builderInv b' ∧ b'.styles = b.styles := by
  intro breaks
  induction breaks with
  | nil =>
    intro b itemsAll item clh cbl b' hok hb _
    simp only [pbLoop, Option.some.injEq] at hok
    subst hok
    exact ⟨hb, rfl⟩
  | cons brk rest ih =>
    intro b itemsAll item clh cbl b' hok hb hitems
    rw [pbLoop] at hok
    split at hok
    · dsimp only at hok
      split at hok
      · obtain ⟨hadv, hsty⟩ := advanceLine_inv b hb
        obtain ⟨h1, h2⟩ := ih _ _ _ _ _ _ hok hadv (by rw [hsty]; exact hitems)
        exact ⟨h1, by rw [h2, hsty]⟩
      · split at hok
        · simp at hok
        · rename_i acc hrun
          have hslice : ((itemsAll.take (brk.break_at + 1)).drop item).all
              (itemStyleOk b.styles.length) = true := by
            rw [List.all_eq_true] at hitems ⊢
            intro it hit
            exact hitems it (List.mem_of_mem_take (List.mem_of_mem_drop hit))
          have hsub : (((itemsAll.take (brk.break_at + 1)).drop item).take
              (((itemsAll.take (brk.break_at + 1)).drop item).length - 1)).all
              (itemStyleOk b.styles.length) = true := by
            rw [List.all_eq_true] at hslice ⊢
            intro it hit
            exact hslice it (List.mem_of_mem_take hit)
          have hcmds := lineRun_ok b.styles.length _ _ _ hrun hsub rfl
          have hcm : (lineCmds ((itemsAll.take (brk.break_at + 1)).drop item)
              acc).all (cmdStyleOk b.styles.length) = true := by
            rw [lineCmds]
            simp only [List.all_append, Bool.and_eq_true]
            refine ⟨all_and_left hcmds, ?_⟩
            split <;> simp [cmdStyleOk]
          obtain ⟨hb1, hsty1⟩ := pushLine_inv b acc.plm acc.clh acc.cbl brk.r _ hb hcm
          obtain ⟨hadv, hsty⟩ := advanceLine_inv _ hb1
          obtain ⟨h1, h2⟩ := ih _ _ _ _ _ _ hok hadv
            (by rw [hsty, hsty1]; exact hitems)
          refine ⟨h1, ?_⟩
          rw [h2, hsty, hsty1]
    · simp at hok

end layout
namespace layout

/-- `paragraph_break` preserves the builder invariant and the style table. -/
theorem paragraphBreak_inv (p : ParagraphM) (breaks : List BreakM)
    (p1 : ParagraphM) (hok : paragraphBreak p breaks = some p1) (h : parInv p) :
    builderInv p1.builder ∧ p1.builder.styles = p.builder.styles ∧
      p1.style_id = p.style_id := by
  obtain ⟨hb, hsid, hitems⟩ := h
  rw [paragraphBreak] at hok
  split at hok
  · rename_i heq
    simp only [Option.some.injEq] at hok
    subst hok
    exact ⟨hb, rfl, rfl⟩
  · rename_i items it rest heq
    split at hok
    · simp only [Option.some.injEq] at hok
      subst hok
      exact ⟨hb, rfl, rfl⟩
    · split at hok
      · simp at hok
      · dsimp only at hok
        split at hok
        · simp at hok
        · rename_i b hloop
          simp only [Option.some.injEq] at hok
          subst hok
          have hall : (it :: rest ++ [ItemM.glue, ItemM.penalty .hardBreak]).all
              (itemStyleOk p.builder.styles.length) = true := by
            rw [List.all_eq_true]
            intro x hx
            rw [List.all_eq_true] at hitems
            rcases List.mem_cons.mp hx with rfl | hx2
            · exact hitems x (by rw [heq]; exact List.mem_cons_self _ _)
            · rcases List.mem_append.mp hx2 with hmem | hmem
              · exact hitems x (by rw [heq]; exact List.mem_cons_of_mem _ hmem)
              · simp only [List.mem_cons, List.not_mem_nil, or_false,
                  List.mem_singleton] at hmem
                rcases hmem with rfl | rfl <;> rfl
          obtain ⟨h1, h2⟩ := pbLoop_inv breaks p.builder _ 0 p.builder.line_height
            p.builder.baseline b hloop hb hall
          exact ⟨h1, h2, rfl⟩

/-- `ParagraphBuilder::finish` hands back a builder satisfying the
invariant. -/
theorem finish_inv (p : ParagraphM) (breaks : List BreakM) (b : BuilderM)
    (hok : p.finish breaks = some b) (h : parInv p) : builderInv b := by
  rw [ParagraphM.finish] at hok
  cases hpb : paragraphBreak p breaks with
  | none => rw [hpb] at hok; simp at hok
  | some p1 =>
    rw [hpb] at hok
    dsimp only [Option.map] at hok
    simp only [Option.some.injEq] at hok
    subst hok
    obtain ⟨⟨hne, hid, hall⟩, hsty, _⟩ := paragraphBreak_inv p breaks p1 hpb h
    refine ⟨hne, ?_, hall⟩
    show p.style_id < p1.builder.styles.length
    rw [hsty]
    exact h.2.1

/-- Every builder operation preserves the builder invariant. -/
theorem execBOp_inv (o : TextOracle) (b b1 : BuilderM) (op : BOp)
    (hok : execBOp o b op = some b1) (h : builderInv b) : builderInv b1 := by
  cases op with
  | bset st =>
    simp only [execBOp, Option.some.injEq] at hok
    subst hok
    exact (setStyle_inv b st h).1
  | badv =>
    simp only [execBOp, Option.some.injEq] at hok
    subst hok
    exact (advanceLine_inv b h).1
  | bpage =>
    simp only [execBOp, Option.some.injEq] at hok
    subst hok
    exact (pageBreak_inv b h).1
  | bpar pops breaks =>
    simp only [execBOp] at hok
    have hfold : ∀ (ps : List POp) (q : ParagraphM), parInv q →
        parInv (ps.foldl (execPOp o) q) := by
      intro ps
      induction ps with
      | nil => intro q hq; exact hq
      | cons op1 rest ih =>
        intro q hq
        rw [List.foldl_cons]
        exact ih _ (execPOp_inv o q op1 hq)
    exact finish_inv _ _ _ hok (hfold pops b.paragraph ⟨h, h.2.1, rfl⟩)

end layout
/-- `decode_command` rejects a `SetStyle` whose index reaches the style
count. -/
theorem decodeCommand_badStyle (h : Header) (s : Nat) (tail : List Nat)
    (hs : h.styles.length ≤ s) (h16 : s < 2 ^ 16) :
    read.decodeCommand h 0x83 (leb128.write s ++ tail) =
      .error .invalidStyleIndex := by
  unfold read.decodeCommand
  rw [read.lebU_write s tail (by omega)]
  simp only [bind, Except.bind, read.tryIntoU16, if_pos h16, if_pos hs]

/-- `read::page` rejects an encoded `SetStyle` whose index reaches the style
count of the decoded header. -/
theorem page_invalidStyle (h : Header) (s : Nat) (tail : List Nat)
    (hs : h.styles.length ≤ s) (h16 : s < 2 ^ 16) :
    read.page h (0x83 :: (leb128.write s ++ tail)) =
      .error .invalidStyleIndex := by
  rw [show read.page h (0x83 :: (leb128.write s ++ tail)) =
    read.pageGo h (0x83 :: (leb128.write s ++ tail)) [] from rfl]
  rw [read.pageGo_step h (0x83 :: (leb128.write s ++ tail)) [] 0 (by simp)
    (scan_stop (by decide)) (by simp) (Or.inl rfl)]
  simp only [if_pos rfl, List.drop_zero]
  rw [dif_neg (by simp)]
  rw [decodeCommand_badStyle h s tail hs h16]

/-- **C5** (confirmed).  Both halves of style-index safety: every `SetStyle`
command in the command vector of a builder reached from `Builder::new` by
any sequence of builder and paragraph operations has its index below the
style-table length (`get_style` only hands out in-range indices, and the
table never shrinks); and `read::page` returns `InvalidStyleIndex` for any
encoded `SetStyle{s}` whose index reaches the style count of the decoded
header. -/
theorem claim5_style_index (o : layout.TextOracle) (height : Nat)
    (fonts : Style → Option layout.FontStyleM) (df : layout.FontStyleM)
    (ops : List layout.BOp) (b : layout.BuilderM)
    (hrun : layout.execTrace o (layout.BuilderM.new height fonts df) ops = some b) :
    b.commands.all (layout.cmdStyleOk b.styles.length) = true ∧
    (∀ (h : Header) (s : Nat) (tail : List Nat), h.styles.length ≤ s →
      s < 2 ^ 16 →
      read.page h (0x83 :: (leb128.write s ++ tail)) =
        .error .invalidStyleIndex) := by
  refine ⟨?_, fun h s tail hs h16 => page_invalidStyle h s tail hs h16⟩
  have hstart : layout.builderInv (layout.BuilderM.new height fonts df) :=
    ⟨by simp [layout.BuilderM.new], by simp [layout.BuilderM.new], rfl⟩
  have hind : ∀ (ops1 : List layout.BOp) (b0 b1 : layout.BuilderM),
      layout.execTrace o b0 ops1 = some b1 → layout.builderInv b0 →
      layout.builderInv b1 := by
    intro ops1
    induction ops1 with
    | nil =>
      intro b0 b1 hok h0
      simp only [layout.execTrace, Option.some.injEq] at hok
      subst hok
      exact h0
    | cons op rest ih =>
      intro b0 b1 hok h0
      rw [layout.execTrace] at hok
      cases hop : layout.execBOp o b0 op with
      | none => rw [hop] at hok; simp at hok
      | some b2 =>
        rw [hop] at hok
        exact ih b2 b1 hok (layout.execBOp_inv o b0 b2 op hop h0)
  exact (hind ops _ b hrun hstart).2.2

/-- **C5, witness**: a one-operation trace setting the "reg"/16 style, whose
emitted `SetStyle 1` is below the two-entry style table; the decoder half at
a one-style header and index 1. -/
theorem claim5_style_index_witness :
    (layout.execTrace testOracle (layout.BuilderM.new 100 testFonts testFont)
      [.bset ⟨[0x72, 0x65, 0x67], 16⟩] =
        some (layout.setStyle (layout.BuilderM.new 100 testFonts testFont)
          ⟨[0x72, 0x65, 0x67], 16⟩)) ∧
    ((layout.setStyle (layout.BuilderM.new 100 testFonts testFont)
        ⟨[0x72, 0x65, 0x67], 16⟩).commands.all
      (layout.cmdStyleOk (layout.setStyle (layout.BuilderM.new 100 testFonts testFont)
        ⟨[0x72, 0x65, 0x67], 16⟩).styles.length) = true ∧
    (∀ (h : Header) (s : Nat) (tail : List Nat), h.styles.length ≤ s →
      s < 2 ^ 16 →
      read.page h (0x83 :: (leb128.write s ++ tail)) =
        .error .invalidStyleIndex)) :=
  ⟨rfl, claim5_style_index testOracle 100 testFonts testFont
    [.bset ⟨[0x72, 0x65, 0x67], 16⟩]
    (layout.setStyle (layout.BuilderM.new 100 testFonts testFont)
      ⟨[0x72, 0x65, 0x67], 16⟩) rfl⟩
namespace layout

/-- The per-line segment checker, in one structurally recursive function:
in mode `false` it is at a segment boundary, in mode `true` it is between a
line's `SetAdjustmentRatio` and its terminator. -/
def segChk : Bool → List (Command (List Nat) Nat) → Bool
  | false, [] => true
  | false, .setLineMetrics _ _ :: .setAdjustmentRatio _ :: rest => segChk true rest
  | false, .setAdjustmentRatio _ :: rest => segChk true rest
  | false, _ => false
  | true, [] => false
  | true, .lineBreak :: rest => segChk false rest
  | true, .pageBreak :: .setStyle _ :: .setLineMetrics _ _ :: rest => segChk false rest
  | true, c :: rest => isBodyCmd c && segChk true rest

/-- Does a command list consist of per-line segments?  Each segment is an
optional `SetLineMetrics` immediately followed by the line's single
`SetAdjustmentRatio`, then body commands (`Show`, `SetStyle`, `Advance` — in
particular no further adjustment ratio, metrics or break), then the line
terminator: `LineBreak`, or `PageBreak` followed by the new page's
`SetStyle` and `SetLineMetrics` preamble. -/
def segsOk (l : List (Command (List Nat) Nat)) : Bool := segChk false l

/-- The checker between a line's `SetAdjustmentRatio` and its terminator. -/
def afterRatio (l : List (Command (List Nat) Nat)) : Bool := segChk true l

/-- Well-formed break positions over the (terminator-extended) item list:
each break is at or after the current item index and inside the list, so
every line slice `items[item..=break_at]` is non-empty. -/
def breaksOk (itemsAll : List ItemM) : Nat → List BreakM → Bool
  | _, [] => true
  | item, brk :: rest =>
    decide (item ≤ brk.break_at) && decide (brk.break_at < itemsAll.length) &&
      breaksOk itemsAll (brk.break_at + 1) rest

/-- One line-assembly step only ever appends body commands. -/
theorem lineStep_body (acc acc1 : LineAcc) (it : ItemM)
    (hstep : lineStep acc it = some acc1)
    (hacc : acc.cmds.all isBodyCmd = true) :
    acc1.cmds.all isBodyCmd = true := by
  match it with
  | .box (.setStyleB id lh bl) =>
    rw [lineStep] at hstep
    dsimp only at hstep
    split at hstep <;> split at hstep <;>
      (simp only [Option.some.injEq] at hstep; subst hstep) <;>
      simp_all [List.all_append, isBodyCmd]
  | .box (.indent dx) =>
    rw [lineStep] at hstep
    split at hstep
    · simp only [Option.some.injEq] at hstep
      subst hstep
      simp_all [List.all_append, isBodyCmd]
    · simp at hstep
  | .box (.word w) =>
    simp only [lineStep, Option.some.injEq] at hstep
    subst hstep
    exact hacc
  | .box (.char c) =>
    simp only [lineStep, Option.some.injEq] at hstep
    subst hstep
    exact hacc
  | .glue =>
    simp only [lineStep, Option.some.injEq] at hstep
    subst hstep
    exact hacc
  | .penalty k =>
    simp only [lineStep, Option.some.injEq] at hstep
    subst hstep
    exact hacc

/-- The line assembly only produces body commands. -/
theorem lineRun_body : ∀ (items : List ItemM) (init acc : LineAcc),
    lineRun items init = some acc → init.cmds.all isBodyCmd = true →
    acc.cmds.all isBodyCmd = true := by
  intro items
  induction items with
  | nil =>
    intro init acc hok hinit
    simp only [lineRun, List.foldlM_nil, Option.pure_def, Option.some.injEq] at hok
    subst hok
    exact hinit
  | cons it rest ih =>
    intro init acc hok hinit
    simp only [lineRun, List.foldlM_cons] at hok
    cases hstep : lineStep init it with
    | none => rw [hstep] at hok; simp at hok
    | some acc1 =>
      rw [hstep] at hok
      simp only [Option.bind_eq_bind, Option.some_bind] at hok
      exact ih acc1 acc hok (lineStep_body init acc1 it hstep hinit)

/-- `advance_line` appends exactly a line terminator. -/
theorem advanceLine_delta (b : BuilderM) :
    (advanceLine b).commands = b.commands ++ [Command.lineBreak] ∨
    (advanceLine b).commands = b.commands ++
      [Command.pageBreak, Command.setStyle b.style_id,
        Command.setLineMetrics b.line_height b.baseline] := by
  rw [advanceLine]
  split
  · exact Or.inr rfl
  · exact Or.inl rfl

/-- Body commands can sit between a line's ratio and its terminator. -/
theorem afterRatio_body (term rest1 : List (Command (List Nat) Nat))
    (hterm : term = [Command.lineBreak] ∨ ∃ sid lh bl,
      term = [Command.pageBreak, Command.setStyle sid, Command.setLineMetrics lh bl])
    (hrest : segsOk rest1 = true) :
    ∀ body : List (Command (List Nat) Nat), body.all isBodyCmd = true →
      afterRatio (body ++ (term ++ rest1)) = true := by
  intro body
  induction body with
  | nil =>
    intro _
    simp only [List.nil_append]
    rcases hterm with rfl | ⟨sid, lh, bl, rfl⟩
    · show segsOk rest1 = true
      exact hrest
    · show segsOk rest1 = true
      exact hrest
  | cons c body ih =>
    intro hall
    simp only [List.all_cons, Bool.and_eq_true] at hall
    obtain ⟨hc, hall1⟩ := hall
    match c with
    | .show s =>
      show (isBodyCmd (Command.show s) && afterRatio (body ++ (term ++ rest1))) = true
      simp only [isBodyCmd, Bool.true_and]
      exact ih hall1
    | .setStyle sid =>
      show (isBodyCmd (Command.setStyle sid) && afterRatio (body ++ (term ++ rest1))) = true
      simp only [isBodyCmd, Bool.true_and]
      exact ih hall1
    | .advance dx =>
      show (isBodyCmd (Command.advance dx) && afterRatio (body ++ (term ++ rest1))) = true
      simp only [isBodyCmd, Bool.true_and]
      exact ih hall1
    | .nop | .htab | .lineBreak | .vtab | .pageBreak | .setCursor _ _
    | .setAdjustmentRatio _ | .setLineMetrics _ _ | .end_ =>
      simp [isBodyCmd] at hc

/-- A full per-line segment followed by well-formed segments is
well-formed. -/
theorem segsOk_cons_seg (plm : Bool) (lh bl r : Nat)
    (body term rest1 : List (Command (List Nat) Nat))
    (hbody : body.all isBodyCmd = true)
    (hterm : term = [Command.lineBreak] ∨ ∃ sid lh2 bl2,
      term = [Command.pageBreak, Command.setStyle sid,
        Command.setLineMetrics lh2 bl2])
    (hrest : segsOk rest1 = true) :
    segsOk ((if plm then [Command.setLineMetrics lh bl] else []) ++
      (Command.setAdjustmentRatio r :: (body ++ (term ++ rest1)))) = true := by
  cases plm
  · simp only [Bool.false_eq_true, if_false, List.nil_append]
    show afterRatio (body ++ (term ++ rest1)) = true
    exact afterRatio_body term rest1 hterm hrest body hbody
  · simp only [if_true, List.cons_append, List.nil_append]
    show afterRatio (body ++ (term ++ rest1)) = true
    exact afterRatio_body term rest1 hterm hrest body hbody

end layout
namespace layout

/-- An assembled line consists of body commands only. -/
theorem lineCmds_body (slice : List ItemM) (acc : LineAcc)
    (hacc : acc.cmds.all isBodyCmd = true) :
    (lineCmds slice acc).all isBodyCmd = true := by
  rw [lineCmds]
  simp only [List.all_append, Bool.and_eq_true]
  refine ⟨hacc, ?_⟩
  split <;> simp [isBodyCmd]

/-- The pagination loop appends to the command vector exactly a sequence of
well-formed per-line segments. -/
theorem pbLoop_segsOk : ∀ (breaks : List BreakM) (b : BuilderM)
    (itemsAll : List ItemM) (item clh cbl : Nat) (b' : BuilderM),
    pbLoop b itemsAll item clh cbl breaks = some b' →
    breaksOk itemsAll item breaks = true →
    ∃ delta, b'.commands = b.commands ++ delta ∧ segsOk delta = true := by
  intro breaks
  induction breaks with
  | nil =>
    intro b itemsAll item clh cbl b' hok _
    simp only [pbLoop, Option.some.injEq] at hok
    subst hok
    exact ⟨[], by simp, rfl⟩
  | cons brk rest ih =>
    intro b itemsAll item clh cbl b' hok hbr
    simp only [breaksOk, Bool.and_eq_true, decide_eq_true_eq] at hbr
    obtain ⟨⟨hge, hlt⟩, hbr1⟩ := hbr
    rw [pbLoop] at hok
    rw [if_pos ⟨hlt, by omega⟩] at hok
    dsimp only at hok
    have hlen : ((itemsAll.take (brk.break_at + 1)).drop item).length =
        brk.break_at + 1 - item := by
      simp only [List.length_drop, List.length_take]
      omega
    split at hok
    · rename_i hemp
      rw [List.isEmpty_iff] at hemp
      rw [hemp] at hlen
      simp at hlen
      omega
    · split at hok
      · simp at hok
      · rename_i acc hrun
        obtain ⟨delta1, hdelta1, hsegs1⟩ := ih _ _ _ _ _ _ hok hbr1
        have hbody : acc.cmds.all isBodyCmd = true := lineRun_body _ _ _ hrun rfl
        have hlineb := lineCmds_body ((itemsAll.take (brk.break_at + 1)).drop item)
          acc hbody
        rcases advanceLine_delta (pushLine b acc.plm acc.clh acc.cbl brk.r
            (lineCmds ((itemsAll.take (brk.break_at + 1)).drop item) acc)) with
          hterm | hterm
        · refine ⟨(if acc.plm then [Command.setLineMetrics acc.clh acc.cbl] else []) ++
            (Command.setAdjustmentRatio brk.r ::
              (lineCmds ((itemsAll.take (brk.break_at + 1)).drop item) acc ++
                ([Command.lineBreak] ++ delta1))), ?_, ?_⟩
          · rw [hdelta1, hterm]
            show (pushLine b acc.plm acc.clh acc.cbl brk.r _).commands ++ _ ++ _ = _
            rw [pushLine]
            simp [List.append_assoc]
          · exact segsOk_cons_seg acc.plm acc.clh acc.cbl brk.r _ _ delta1 hlineb
              (Or.inl rfl) hsegs1
        · refine ⟨(if acc.plm then [Command.setLineMetrics acc.clh acc.cbl] else []) ++
            (Command.setAdjustmentRatio brk.r ::
              (lineCmds ((itemsAll.take (brk.break_at + 1)).drop item) acc ++
                ([Command.pageBreak,
                  Command.setStyle (pushLine b acc.plm acc.clh acc.cbl brk.r
                    (lineCmds ((itemsAll.take (brk.break_at + 1)).drop item)
                      acc)).style_id,
                  Command.setLineMetrics acc.clh acc.cbl] ++ delta1))), ?_, ?_⟩
          · rw [hdelta1, hterm]
            show (pushLine b acc.plm acc.clh acc.cbl brk.r _).commands ++ _ ++ _ = _
            rw [pushLine]
            simp [List.append_assoc]
          · exact segsOk_cons_seg acc.plm acc.clh acc.cbl brk.r _ _ delta1 hlineb
              (Or.inr ⟨_, _, _, rfl⟩) hsegs1

end layout
/-- **C7** (confirmed).  Whatever commands a finished paragraph appends to
the builder decompose into per-line segments: each line contributes exactly
one `SetAdjustmentRatio`; between it and the terminator only `Show`,
`SetStyle` and `Advance` appear; the line ends with `LineBreak` or with
`PageBreak` (followed by the new page's `SetStyle`/`SetLineMetrics`
preamble); and when new line metrics are recorded for a line, the
`SetLineMetrics` sits immediately before that line's `SetAdjustmentRatio`.
The breaks the external layout engine hands back are assumed in range and
increasing (each at or after the line's first item), which every layout of
the terminator-extended item list satisfies. -/
theorem claim7_line_segments (p : layout.ParagraphM) (breaks : List layout.BreakM)
    (b1 : layout.BuilderM) (hok : p.finish breaks = some b1)
    (hbr : layout.breaksOk (p.items ++ [.glue, .penalty .hardBreak]) 0 breaks = true) :
    ∃ delta, b1.commands = p.builder.commands ++ delta ∧
      layout.segsOk delta = true := by
  rw [layout.ParagraphM.finish] at hok
  cases hpb : layout.paragraphBreak p breaks with
  | none => rw [hpb] at hok; simp at hok
  | some p1 =>
    rw [hpb] at hok
    dsimp only [Option.map] at hok
    simp only [Option.some.injEq] at hok
    subst hok
    rw [layout.paragraphBreak] at hpb
    split at hpb
    · simp only [Option.some.injEq] at hpb
      subst hpb
      exact ⟨[], by simp, rfl⟩
    · rename_i items it rest heq
      split at hpb
      · simp only [Option.some.injEq] at hpb
        subst hpb
        exact ⟨[], by simp, rfl⟩
      · split at hpb
        · simp at hpb
        · dsimp only at hpb
          split at hpb
          · simp at hpb
          · rename_i bb hloop
            simp only [Option.some.injEq] at hpb
            subst hpb
            rw [heq, List.cons_append] at hbr
            exact layout.pbLoop_segsOk breaks p.builder _ 0 p.builder.line_height
              p.builder.baseline bb hloop hbr

/-- The builder the one-word test paragraph leaves behind. -/
def testBOut : layout.BuilderM :=
  { height := 100, fonts := testFonts, default_style := testFont,
    style := testFont, style_id := 0, line_height := 18, baseline := 14,
    cursor_y := 34, styles := [⟨[0x72, 0x65, 0x67], 16⟩],
    commands := [Command.setAdjustmentRatio 5, Command.show [0x61, 0x62, 0x20],
      Command.lineBreak],
    pages := 0 }

/-- **C7, witness**: the one-word paragraph "ab" with a single break after
the terminator glue; the appended commands are
`SetAdjustmentRatio, Show "ab ", LineBreak` — one well-formed segment. -/
theorem claim7_line_segments_witness :
    ((((layout.BuilderM.paragraph testB).word testOracle [0x61, 0x62]).finish
        [⟨2, 5⟩] = some testBOut) ∧
      layout.breaksOk (((layout.BuilderM.paragraph testB).word testOracle
        [0x61, 0x62]).items ++ [.glue, .penalty .hardBreak]) 0 [⟨2, 5⟩] = true) ∧
    (∃ delta, testBOut.commands =
      ((layout.BuilderM.paragraph testB).word testOracle
        [0x61, 0x62]).builder.commands ++ delta ∧
      layout.segsOk delta = true) :=
  ⟨⟨rfl, by decide⟩,
    claim7_line_segments ((layout.BuilderM.paragraph testB).word testOracle
      [0x61, 0x62]) [⟨2, 5⟩] testBOut rfl (by decide)⟩

end Edf
